import Mathlib

/-!
GenesisState wire codec (`api/cosmos/genutil/v1beta1/genesis.pulsar.go`).

A shallow embedding of the generated fast-path codec of the `GenesisState`
message (one repeated bytes field `gen_txs`, number 1, plus the unknown-fields
buffer) and of the three closures returned by `ProtoMethods`: `size`,
`marshal` and `unmarshal`.

Conventions of the embedding.

* A byte is a `Fin 256`.  A Go slice is an `Option (List α)`: `none` is the
  `nil` slice, `some l` a non-nil slice with contents `l`.  The elements of
  `GenTxs` are byte strings whose nil-ness is never observed by the code and
  are plain lists.
* The length of a Go slice is a natural number.  Values that the decoder
  builds from input bytes are machine words: an unsigned 64-bit word is a
  natural number reduced `% 2 ^ 64`, and a Go `int` / `int32` is an `Int`
  obtained through `int64` / `int32`, which wrap in two's complement.
* A call either returns, or panics (index or slice bounds out of range), or
  exhausts the iteration budget of the model; the last two are explicit
  outcomes, so that a theorem giving the returned value also shows that the
  call returns.
* The view adapter `_GenesisState_1_list` holds a pointer `*[][]byte`.  The
  reflective accessor (`Has`, `Clear`, `Get`, `Set`, `Mutable`, `NewField`) and
  the methods of the view therefore work on an explicit memory: the message
  and the `[][]byte` variables outside it, by address.  A call that writes
  returns the memory after it, also when it panics; slices are values, so the
  sharing of a backing array between two slices is not observed.  The one
  method that depends on the capacity of a slice, `Truncate`, takes what the
  backing array holds past the length as an argument.
* The codec registrations of `x/authz/codec.go` and `x/group/codec.go` are
  functions on a record of what a codec or an interface registry has been
  told; Go types are named by package and declared name.
-/

namespace Genutil

/-! ## Machine integers and slices -/

/-- A byte. -/
abbrev Byte := Fin 256

/-- Go conversion `uint8(n)`. -/
def uint8 (n : Nat) : Byte := ⟨n % 256, Nat.mod_lt n (by decide)⟩

/-- Go conversion `uint64(n)` of a non-negative value. -/
def uint64 (n : Nat) : Nat := n % 2 ^ 64

/-- Go conversion to `int` (64 bits, two's complement). -/
def int64 (z : Int) : Int := (z + 2 ^ 63) % 2 ^ 64 - 2 ^ 63

/-- Go conversion to `int32` (two's complement). -/
def int32 (z : Int) : Int := (z + 2 ^ 31) % 2 ^ 32 - 2 ^ 31

/-- A Go slice: `none` is `nil`. -/
abbrev Slice (α : Type) := Option (List α)

/-- The contents of a slice (`nil` has none). -/
def Slice.elems {α : Type} (s : Slice α) : List α := s.getD []

/-- Go `len(s)`. -/
def Slice.len {α : Type} (s : Slice α) : Nat := s.elems.length

/-- Go `append(s, xs...)`: appending nothing to `nil` gives `nil`. -/
def goAppend {α : Type} (s : Slice α) (xs : List α) : Slice α :=
  match s, xs with
  | none, [] => none
  | s, xs => some (s.elems ++ xs)

/-- The outcome of a call that may panic. -/
inductive Outcome (α : Type) where
  | ret (a : α)
  | panic
  | outOfFuel
  deriving DecidableEq, Repr

/-- Sequencing of outcomes. -/
def Outcome.bind {α β : Type} (o : Outcome α) (f : α → Outcome β) : Outcome β :=
  match o with
  | .ret a => f a
  | .panic => .panic
  | .outOfFuel => .outOfFuel

/-- Go `dAtA[i] = b`; panics when `i` is out of range. -/
def setByte (dAtA : List Byte) (i : Int) (b : Byte) : Outcome (List Byte) :=
  if 0 ≤ i ∧ i < dAtA.length then .ret (dAtA.set i.toNat b) else .panic

/-- Go `copy(dAtA[i:], src)`; panics when `i` is not in `[0, len(dAtA)]`.
`copy` moves `min(len(dAtA) - i, len(src))` bytes. -/
def copyAt (dAtA : List Byte) (i : Int) (src : List Byte) : Outcome (List Byte) :=
  if 0 ≤ i ∧ i ≤ dAtA.length then
    .ret (dAtA.take i.toNat ++ (src.take (dAtA.length - i.toNat) ++ dAtA.drop (i.toNat + src.length)))
  else .panic

/-- Go `dAtA[lo:hi]`; `none` when the bounds are out of range. -/
def slice (dAtA : List Byte) (lo hi : Int) : Option (List Byte) :=
  if 0 ≤ lo ∧ lo ≤ hi ∧ hi ≤ dAtA.length then
    some ((dAtA.drop lo.toNat).take (hi.toNat - lo.toNat))
  else none

/-! ## The message -/

/-- The message `GenesisState`: the unknown-fields buffer and the repeated
bytes field `gen_txs`. -/
structure GenesisState where
  unknownFields : Slice Byte
  GenTxs : Slice (List Byte)
  deriving DecidableEq, Repr

/-- The errors the codec returns. -/
inductive Error where
  | ErrIntOverflow
  | ErrUnexpectedEOF
  | ErrInvalidLength
  | ErrUnexpectedEndOfGroup
  | endGroupForNonGroup
  | illegalTag (fieldNum : Int) (wire : Nat)
  | wrongWireType (wireType : Nat)
  | illegalWireType (wireType : Nat)
  deriving DecidableEq, Repr

/-- How a decoding call ended: with a `nil` error, with an error, with a
panic, or with the iteration budget of the model exhausted. -/
inductive Status where
  | nil
  | error (e : Error)
  | panic
  | outOfFuel
  deriving DecidableEq, Repr

/-! ## Helpers of package `runtime` -/

/-- Number of bits needed to write `x`, by repeated halving. -/
def lenBits : Nat → Nat → Nat
  | 0, _ => 0
  | fuel + 1, x => if x = 0 then 0 else lenBits fuel (x / 2) + 1

/-- Go `bits.Len64(x)` for a 64-bit word `x`. -/
def Len64 (x : Nat) : Nat := lenBits 64 x

/-- Modelled from the spec: `runtime.Sov` of package
`github.com/cosmos/cosmos-proto/runtime`, which is not under `src/`; it is
the spec's `varint_size`, computed as `(bits.Len64(x|1) + 6) / 7`. -/
def Sov (x : Nat) : Nat := (Len64 (x ||| 1) + 6) / 7

/-- The write loop of `EncodeVarint`: `for v >= 1<<7 { dAtA[offset] =
uint8(v&0x7f | 0x80); v >>= 7; offset++ }` followed by `dAtA[offset] =
uint8(v)`. -/
def encodeVarintLoop : Nat → List Byte → Int → Nat → Outcome (List Byte)
  | 0, _, _, _ => .outOfFuel
  | fuel + 1, dAtA, offset, v =>
    if v ≥ 1 <<< 7 then
      (setByte dAtA offset (uint8 (v &&& 0x7f ||| 0x80))).bind fun dAtA =>
        encodeVarintLoop fuel dAtA (offset + 1) (v >>> 7)
    else setByte dAtA offset (uint8 v)

/-- Modelled from the spec: `runtime.EncodeVarint(dAtA, offset, v)` of package
`github.com/cosmos/cosmos-proto/runtime`, which is not under `src/`; it
writes the varint length prefix of `v` so that it ends just before `offset`
and returns the position of its first byte. A 64-bit word has at most ten
7-bit groups. -/
def EncodeVarint (dAtA : List Byte) (offset : Int) (v : Nat) : Outcome (List Byte × Int) :=
  let offset := offset - Sov v
  let base := offset
  (encodeVarintLoop 10 dAtA offset v).bind fun dAtA => .ret (dAtA, base)

/-- Result of one inline varint loop of the decoder: the 64-bit word read and
the cursor after it, or the way the loop made the call end. -/
inductive VarintResult where
  | done (word : Nat) (iNdEx : Nat)
  | fail (s : Status) (iNdEx : Nat)
  deriving DecidableEq, Repr

/-- The inline varint loop `for shift := uint(0); ; shift += 7 { ... }` of the
decoder. The tag loop (`wire |= uint64(b&0x7F) << shift`) and the length loop
(`byteLen |= int(b&0x7F) << shift`) build the same 64-bit pattern, which the
caller reads as unsigned or signed. -/
def varintLoop (dAtA : List Byte) : Nat → Nat → Nat → Nat → VarintResult
  | 0, _, iNdEx, _ => .fail .outOfFuel iNdEx
  | fuel + 1, shift, iNdEx, word =>
    if shift ≥ 64 then .fail (.error .ErrIntOverflow) iNdEx
    else if iNdEx ≥ dAtA.length then .fail (.error .ErrUnexpectedEOF) iNdEx
    else
      match dAtA[iNdEx]? with
      | none => .fail .panic iNdEx
      | some b =>
        let word := word ||| uint64 ((b.val &&& 0x7F) <<< shift)
        if b.val < 0x80 then .done word (iNdEx + 1)
        else varintLoop dAtA fuel (shift + 7) (iNdEx + 1) word

/-- The iteration budget given to a varint loop: the shifts 0, 7, .., 63 and
the check that ends it. -/
def varintFuel : Nat := 11

/-- What `runtime.Skip` returns: `(n, err)`. -/
structure Skipped where
  n : Int
  status : Status
  deriving DecidableEq, Repr

/-- One turn of a decoding loop: go round again with a new state, or return. -/
inductive Iter (σ ρ : Type) where
  | next (s : σ)
  | stop (r : ρ)
  deriving DecidableEq, Repr

/-- The statements after the `switch` of `runtime.Skip`: `if iNdEx < 0 { return
0, ErrInvalidLength }; if depth == 0 { return iNdEx, nil }`. -/
def skipAfter (iNdEx : Int) (depth : Nat) : Iter (Nat × Nat) Skipped :=
  if iNdEx < 0 then .stop ⟨0, .error .ErrInvalidLength⟩
  else if depth = 0 then .stop ⟨iNdEx, .nil⟩
  else .next (iNdEx.toNat, depth)

/-- The body of the loop `for iNdEx < l { ... }` of `runtime.Skip`; the state
is the cursor and the group depth. -/
def skipBody (dAtA : List Byte) (iNdEx depth : Nat) : Iter (Nat × Nat) Skipped :=
  match varintLoop dAtA varintFuel 0 iNdEx 0 with
  | .fail s _ => .stop ⟨0, s⟩
  | .done wire iNdEx =>
    let wireType := wire &&& 0x7
    if wireType = 0 then
      match varintLoop dAtA varintFuel 0 iNdEx 0 with
      | .fail s _ => .stop ⟨0, s⟩
      | .done _ iNdEx => skipAfter iNdEx depth
    else if wireType = 1 then skipAfter (int64 (iNdEx + 8)) depth
    else if wireType = 2 then
      match varintLoop dAtA varintFuel 0 iNdEx 0 with
      | .fail s _ => .stop ⟨0, s⟩
      | .done w iNdEx =>
        let length := int64 w
        if length < 0 then .stop ⟨0, .error .ErrInvalidLength⟩
        else skipAfter (int64 (iNdEx + length)) depth
    else if wireType = 3 then skipAfter iNdEx (depth + 1)
    else if wireType = 4 then
      if depth = 0 then .stop ⟨0, .error .ErrUnexpectedEndOfGroup⟩
      else skipAfter iNdEx (depth - 1)
    else if wireType = 5 then skipAfter (int64 (iNdEx + 4)) depth
    else .stop ⟨0, .error (.illegalWireType wireType)⟩

/-- The loop `for iNdEx < l { ... }` of `runtime.Skip` and the `return 0,
io.ErrUnexpectedEOF` after it. -/
def skipLoop (dAtA : List Byte) : Nat → Nat → Nat → Skipped
  | 0, iNdEx, _ =>
    if iNdEx < dAtA.length then ⟨0, .outOfFuel⟩ else ⟨0, .error .ErrUnexpectedEOF⟩
  | fuel + 1, iNdEx, depth =>
    if iNdEx < dAtA.length then
      match skipBody dAtA iNdEx depth with
      | .next (iNdEx, depth) => skipLoop dAtA fuel iNdEx depth
      | .stop r => r
    else ⟨0, .error .ErrUnexpectedEOF⟩

/-- Modelled from the spec: `runtime.Skip(dAtA)` of package
`github.com/cosmos/cosmos-proto/runtime`, which is not under `src/`; the
spec's skip routine, which consumes one value of the wire type found (varint,
64-bit, length-delimited, 32-bit or, recursively, a group) without
interpreting it and returns the number of bytes consumed. Every iteration of
its loop reads at least one byte, so `len(dAtA)` iterations are enough. -/
def Skip (dAtA : List Byte) : Skipped := skipLoop dAtA dAtA.length 0 0

/-! ## `ProtoMethods`: size, marshal, unmarshal -/

/-- The closure `size` of `ProtoMethods`; `none` is the nil message pointer.
`n` accumulates `1 + l + runtime.Sov(uint64(l))` over `GenTxs`, then the
length of the unknown-fields buffer. -/
def size (x : Option GenesisState) : Nat :=
  match x with
  | none => 0
  | some x =>
    let n : Nat := 0
    let n :=
      if x.GenTxs.len > 0 then
        x.GenTxs.elems.foldl (fun n b => n + (1 + b.length + Sov (uint64 b.length))) n
      else n
    let n := if x.unknownFields ≠ none then n + x.unknownFields.len else n
    n

/-- The loop `for iNdEx := len(x.GenTxs) - 1; iNdEx >= 0; iNdEx--` of
`marshal`; the first argument is `iNdEx + 1`. The state is the buffer and the
write cursor `i`. -/
def marshalLoop (GenTxs : List (List Byte)) : Nat → List Byte → Int → Outcome (List Byte × Int)
  | 0, dAtA, i => .ret (dAtA, i)
  | iNdEx + 1, dAtA, i =>
    match GenTxs[iNdEx]? with
    | none => .panic
    | some e =>
      let i := i - e.length
      (copyAt dAtA i e).bind fun dAtA =>
      (EncodeVarint dAtA i (uint64 e.length)).bind fun (dAtA, i) =>
      let i := i - 1
      (setByte dAtA i 0xa).bind fun dAtA =>
      marshalLoop GenTxs iNdEx dAtA i

/-- The closure `marshal` of `ProtoMethods`; `Buf` is `input.Buf` and the
value returned is the `Buf` of the output (the error is always `nil`). -/
def marshal (x : Option GenesisState) (Buf : Slice Byte) : Outcome (Slice Byte) :=
  match x with
  | none => .ret Buf
  | some x =>
    let size := size (some x)
    let dAtA : List Byte := List.replicate size 0
    let i : Int := dAtA.length
    (if x.unknownFields ≠ none then
      let i := i - x.unknownFields.len
      (copyAt dAtA i x.unknownFields.elems).bind fun dAtA => .ret (dAtA, i)
     else .ret (dAtA, i)).bind fun (dAtA, i) =>
    (if x.GenTxs.len > 0 then
      marshalLoop x.GenTxs.elems x.GenTxs.len dAtA i
     else .ret (dAtA, i)).bind fun (dAtA, _) =>
    if Buf ≠ none then .ret (goAppend Buf dAtA) else .ret (some dAtA)

/-- The unmarshal options read by the decoder. -/
structure UnmarshalOptions where
  DiscardUnknown : Bool
  deriving DecidableEq, Repr

/-- The state in which a call of `unmarshal` ends: the message as the call
left it (it is decoded in place), the cursor `iNdEx`, and the error. -/
structure Decoded where
  x : GenesisState
  iNdEx : Nat
  status : Status
  deriving DecidableEq, Repr

/-- The body of the loop `for iNdEx < l { ... }` of `unmarshal`: one record
is decoded into the message, or the call returns. -/
def unmarshalBody (options : UnmarshalOptions) (dAtA : List Byte) (x : GenesisState)
    (iNdEx : Nat) : Iter (GenesisState × Nat) Decoded :=
  let l := dAtA.length
  let preIndex := iNdEx
  match varintLoop dAtA varintFuel 0 iNdEx 0 with
  | .fail s iNdEx => .stop ⟨x, iNdEx, s⟩
  | .done wire iNdEx =>
    let fieldNum : Int := int32 (wire >>> 3 : Nat)
    let wireType : Nat := wire &&& 0x7
    if wireType = 4 then .stop ⟨x, iNdEx, .error .endGroupForNonGroup⟩
    else if fieldNum ≤ 0 then .stop ⟨x, iNdEx, .error (.illegalTag fieldNum wire)⟩
    else if fieldNum = 1 then
      if wireType ≠ 2 then .stop ⟨x, iNdEx, .error (.wrongWireType wireType)⟩
      else
        match varintLoop dAtA varintFuel 0 iNdEx 0 with
        | .fail s iNdEx => .stop ⟨x, iNdEx, s⟩
        | .done word iNdEx =>
          let byteLen : Int := int64 word
          if byteLen < 0 then .stop ⟨x, iNdEx, .error .ErrInvalidLength⟩
          else
            let postIndex : Int := int64 (iNdEx + byteLen)
            if postIndex < 0 then .stop ⟨x, iNdEx, .error .ErrInvalidLength⟩
            else if postIndex > l then .stop ⟨x, iNdEx, .error .ErrUnexpectedEOF⟩
            else
              match slice dAtA iNdEx postIndex with
              | none => .stop ⟨x, iNdEx, .panic⟩
              | some b =>
                .next ({ x with GenTxs := some (x.GenTxs.elems ++ [b]) }, postIndex.toNat)
    else
      let iNdEx := preIndex
      match slice dAtA iNdEx l with
      | none => .stop ⟨x, iNdEx, .panic⟩
      | some rest =>
        let r := Skip rest
        if r.status ≠ .nil then .stop ⟨x, iNdEx, r.status⟩
        else
          let skippy := r.n
          if skippy < 0 ∨ int64 (iNdEx + skippy) < 0 then
            .stop ⟨x, iNdEx, .error .ErrInvalidLength⟩
          else if int64 (iNdEx + skippy) > l then .stop ⟨x, iNdEx, .error .ErrUnexpectedEOF⟩
          else
            match slice dAtA iNdEx (int64 (iNdEx + skippy)) with
            | none => .stop ⟨x, iNdEx, .panic⟩
            | some raw =>
              let x :=
                if !options.DiscardUnknown then
                  { x with unknownFields := goAppend x.unknownFields raw }
                else x
              .next (x, (int64 (iNdEx + skippy)).toNat)

/-- The statements after the loop of `unmarshal`: `if iNdEx > l { return ..,
io.ErrUnexpectedEOF }; return .., nil`. -/
def unmarshalEnd (dAtA : List Byte) (x : GenesisState) (iNdEx : Nat) : Decoded :=
  if iNdEx > dAtA.length then ⟨x, iNdEx, .error .ErrUnexpectedEOF⟩ else ⟨x, iNdEx, .nil⟩

/-- The loop `for iNdEx < l { ... }` of `unmarshal` and the statements after
it. -/
def unmarshalLoop (options : UnmarshalOptions) (dAtA : List Byte) :
    Nat → GenesisState → Nat → Decoded
  | 0, x, iNdEx =>
    if iNdEx < dAtA.length then ⟨x, iNdEx, .outOfFuel⟩ else unmarshalEnd dAtA x iNdEx
  | fuel + 1, x, iNdEx =>
    if iNdEx < dAtA.length then
      match unmarshalBody options dAtA x iNdEx with
      | .next (x, iNdEx) => unmarshalLoop options dAtA fuel x iNdEx
      | .stop r => r
    else unmarshalEnd dAtA x iNdEx

/-- The closure `unmarshal` of `ProtoMethods` on a non-nil message: the
message after the call and the error. Every iteration of the loop reads at
least one byte, so `len(dAtA)` iterations are enough. -/
def unmarshalMsg (options : UnmarshalOptions) (x : GenesisState) (dAtA : List Byte) : Decoded :=
  unmarshalLoop options dAtA dAtA.length x 0

/-- The closure `unmarshal` of `ProtoMethods`; `none` is the nil message
pointer, on which the call returns `nil` at once. -/
def unmarshal (options : UnmarshalOptions) (x : Option GenesisState) (dAtA : List Byte) :
    Option GenesisState × Status :=
  match x with
  | none => (none, .nil)
  | some x =>
    let r := unmarshalMsg options x dAtA
    (some r.x, r.status)

/-- The default options: unknown fields are kept. -/
def defaultOptions : UnmarshalOptions := ⟨false⟩

/-- A fresh empty message (`new(GenesisState)`). -/
def emptyMessage : GenesisState := ⟨none, none⟩

/-! ## The wire format, as the specification words it -/

/-- The minimal base-128 varint of `v`: its 7-bit groups, least significant
first, each but the last with the continuation bit `0x80` set. -/
def varint (v : Nat) : List Byte :=
  if v < 128 then [uint8 v] else uint8 (v % 128 + 128) :: varint (v / 128)

/-- One element of `gen_txs` on the wire: the tag byte `0x0a` (field 1, wire
type 2), the varint of the length, the bytes. -/
def genTxRecord (e : List Byte) : List Byte := 0x0a :: (varint e.length ++ e)

/-- The records of a sequence of elements, in order. -/
def genTxRecords : List (List Byte) → List Byte
  | [] => []
  | e :: es => genTxRecord e ++ genTxRecords es

/-- The wire form of a message: the records of `GenTxs` in order, then the
unknown-fields buffer. -/
def wireLayout (m : GenesisState) : List Byte :=
  genTxRecords m.GenTxs.elems ++ m.unknownFields.elems

/-- The number of 7-bit groups needed to write `v` (one for `v = 0`): the
specification's `varint_size`. -/
def varintSize (v : Nat) : Nat :=
  if v < 128 then 1 else 1 + varintSize (v / 128)

/-- The size of a message as the specification gives it: per element the tag
byte, the varint of the length and the bytes, then the unknown-fields buffer. -/
def specSize (m : GenesisState) : Nat :=
  (m.GenTxs.elems.map fun e => 1 + varintSize e.length + e.length).sum + m.unknownFields.len

/-- The value of a record whose field the message does not declare, by wire
type: a varint (bytes with the continuation bit, then one without), eight
bytes, a length-delimited payload, or four bytes. -/
inductive WireValue where
  | varint (cont : List Byte) (last : Byte)
  | fixed64 (bytes : List Byte)
  | lengthDelimited (payload : List Byte)
  | fixed32 (bytes : List Byte)
  deriving DecidableEq, Repr

/-- The wire type of a value: 0, 1, 2 or 5. -/
def WireValue.wireType : WireValue → Nat
  | .varint _ _ => 0
  | .fixed64 _ => 1
  | .lengthDelimited _ => 2
  | .fixed32 _ => 5

/-- A value is well formed when a varint has at most ten bytes, all but the
last with the continuation bit, and the fixed-size values have their size. -/
def WireValue.wellFormed : WireValue → Prop
  | .varint cont last => cont.length ≤ 9 ∧ (∀ b ∈ cont, 0x80 ≤ b.val) ∧ last.val < 0x80
  | .fixed64 bytes => bytes.length = 8
  | .lengthDelimited _ => True
  | .fixed32 bytes => bytes.length = 4

/-- The bytes of a value on the wire. -/
def WireValue.encode : WireValue → List Byte
  | .varint cont last => cont ++ [last]
  | .fixed64 bytes => bytes
  | .lengthDelimited payload => Genutil.varint payload.length ++ payload
  | .fixed32 bytes => bytes

/-- A record of field number 2 on the wire: the tag byte `(2 << 3) | wire_type`
and the value. -/
def field2Record (v : WireValue) : List Byte :=
  uint8 (2 <<< 3 ||| v.wireType) :: v.encode

/-- The tag of a record: the varint of `(field_number << 3) | wire_type`. -/
def tagBytes (fieldNum wireType : Nat) : List Byte := varint (fieldNum <<< 3 ||| wireType)

/-- What a group holds between its start tag and the end of it: records with a
value, the start tags of nested groups, and end-group tags. -/
inductive Token where
  | value (fieldNum : Nat) (v : WireValue)
  | startGroup (fieldNum : Nat)
  | endGroup (fieldNum : Nat)
  deriving DecidableEq, Repr

/-- The bytes of a token on the wire. -/
def Token.encode : Token → List Byte
  | .value fieldNum v => tagBytes fieldNum v.wireType ++ v.encode
  | .startGroup fieldNum => tagBytes fieldNum 3
  | .endGroup fieldNum => tagBytes fieldNum 4

/-- The bytes of a sequence of tokens. -/
def encodeTokens : List Token → List Byte
  | [] => []
  | t :: ts => t.encode ++ encodeTokens ts

/-- A field number of the wire format: from 1 to `2 ^ 29 - 1`. -/
def validFieldNum (fieldNum : Nat) : Prop := 1 ≤ fieldNum ∧ fieldNum < 2 ^ 29

/-- The tokens `ts`, read inside `depth` open groups, are well formed and
close the last of these groups with their last token, and none before. -/
def closesGroups : Nat → List Token → Prop
  | _, [] => False
  | depth, .value fieldNum v :: ts =>
    validFieldNum fieldNum ∧ v.wellFormed ∧ closesGroups depth ts
  | depth, .startGroup fieldNum :: ts => validFieldNum fieldNum ∧ closesGroups (depth + 1) ts
  | depth, .endGroup fieldNum :: ts =>
    validFieldNum fieldNum ∧ (if depth ≤ 1 then depth = 1 ∧ ts = [] else closesGroups (depth - 1) ts)

/-- A record of field number 2: a value of wire type 0, 1, 2 or 5, or (wire
type 3) a group, given by the tokens between its start tag and its end tag. -/
inductive Field2 where
  | value (v : WireValue)
  | group (inner : List Token)
  deriving DecidableEq, Repr

/-- A field-2 record is well formed when its value is, or when the tokens of
the group are and the end tag of field 2 is the one that closes it. -/
def Field2.wellFormed : Field2 → Prop
  | .value v => v.wellFormed
  | .group inner => closesGroups 1 (inner ++ [.endGroup 2])

/-- The bytes of a field-2 record on the wire. -/
def Field2.encode : Field2 → List Byte
  | .value v => field2Record v
  | .group inner => tagBytes 2 3 ++ encodeTokens (inner ++ [.endGroup 2])

/-- What the marshal loop writes for a sequence of elements: per element the
tag byte, the varint of `uint64(len(e))` and the bytes. It is `genTxRecords`
whenever the lengths are those of Go slices. -/
def emitted : List (List Byte) → List Byte
  | [] => []
  | e :: es => (0x0a :: (varint (uint64 e.length) ++ e)) ++ emitted es

/-- Moving a varint result along with the input it was read from. -/
def VarintResult.shift (k : Nat) : VarintResult → VarintResult
  | .done w i => .done w (k + i)
  | .fail s i => .fail s (k + i)

/-- The message after the decoder has appended the elements `G` to `GenTxs`,
one `x.GenTxs = append(x.GenTxs, ...)` at a time. -/
def appendGenTxs (x : GenesisState) (G : List (List Byte)) : GenesisState :=
  G.foldl (fun x e => { x with GenTxs := some (x.GenTxs.elems ++ [e]) }) x

/-- The message `b` is the message `a` with the elements `G` placed before
its `GenTxs`, and the same unknown-fields buffer. -/
def Extends (G : List (List Byte)) (a b : GenesisState) : Prop :=
  a.unknownFields = b.unknownFields ∧ b.GenTxs.elems = G ++ a.GenTxs.elems

/-- A record of any field on the wire: a tag and a value of wire type 0, 1, 2
or 5, or (wire type 3) a group, given by the tokens between its start tag and
its end tag, which carries the same field number. -/
inductive Record where
  | value (fieldNum : Nat) (v : WireValue)
  | group (fieldNum : Nat) (inner : List Token)
  deriving DecidableEq, Repr

/-- The field number in the tag of a record: the tag value shifted right by
3. -/
def Record.fieldNum : Record → Nat
  | .value fieldNum _ => fieldNum
  | .group fieldNum _ => fieldNum

/-- A record is well formed when its tag is a 64-bit value and its value is
well formed, or when the tokens of the group are and the end tag of the same
field is the one that closes it. -/
def Record.wellFormed : Record → Prop
  | .value fieldNum v => fieldNum < 2 ^ 61 ∧ v.wellFormed
  | .group fieldNum inner => closesGroups 1 (inner ++ [.endGroup fieldNum])

/-- The bytes of a record on the wire. -/
def Record.encode : Record → List Byte
  | .value fieldNum v => tagBytes fieldNum v.wireType ++ v.encode
  | .group fieldNum inner => tagBytes fieldNum 3 ++ encodeTokens (inner ++ [.endGroup fieldNum])

/-- What one turn of the loop of `unmarshal` does, the message left aside: it
decodes an element of `gen_txs` (case 1), or skips the raw bytes of a record
(default case), or makes the call return; each with the cursor it leaves. -/
inductive Turn where
  | genTx (b : List Byte) (iNdEx : Nat)
  | skipped (raw : List Byte) (iNdEx : Nat)
  | ret (iNdEx : Nat) (s : Status)
  deriving DecidableEq, Repr

/-- The control flow of the body of the loop `for iNdEx < l { ... }` of
`unmarshal`, which reads the input and the cursor only: the same tests in the
same order as `unmarshalBody`, with the two assignments to the message
(`x.GenTxs = append(...)`, `x.unknownFields = append(...)`) recorded as the
outcome of the turn. -/
def turn (dAtA : List Byte) (iNdEx : Nat) : Turn :=
  let l := dAtA.length
  let preIndex := iNdEx
  match varintLoop dAtA varintFuel 0 iNdEx 0 with
  | .fail s iNdEx => .ret iNdEx s
  | .done wire iNdEx =>
    let fieldNum : Int := int32 (wire >>> 3 : Nat)
    let wireType : Nat := wire &&& 0x7
    if wireType = 4 then .ret iNdEx (.error .endGroupForNonGroup)
    else if fieldNum ≤ 0 then .ret iNdEx (.error (.illegalTag fieldNum wire))
    else if fieldNum = 1 then
      if wireType ≠ 2 then .ret iNdEx (.error (.wrongWireType wireType))
      else
        match varintLoop dAtA varintFuel 0 iNdEx 0 with
        | .fail s iNdEx => .ret iNdEx s
        | .done word iNdEx =>
          let byteLen : Int := int64 word
          if byteLen < 0 then .ret iNdEx (.error .ErrInvalidLength)
          else
            let postIndex : Int := int64 (iNdEx + byteLen)
            if postIndex < 0 then .ret iNdEx (.error .ErrInvalidLength)
            else if postIndex > l then .ret iNdEx (.error .ErrUnexpectedEOF)
            else
              match slice dAtA iNdEx postIndex with
              | none => .ret iNdEx .panic
              | some b => .genTx b postIndex.toNat
    else
      let iNdEx := preIndex
      match slice dAtA iNdEx l with
      | none => .ret iNdEx .panic
      | some rest =>
        let r := Skip rest
        if r.status ≠ .nil then .ret iNdEx r.status
        else
          let skippy := r.n
          if skippy < 0 ∨ int64 (iNdEx + skippy) < 0 then .ret iNdEx (.error .ErrInvalidLength)
          else if int64 (iNdEx + skippy) > l then .ret iNdEx (.error .ErrUnexpectedEOF)
          else
            match slice dAtA iNdEx (int64 (iNdEx + skippy)) with
            | none => .ret iNdEx .panic
            | some raw => .skipped raw (int64 (iNdEx + skippy)).toNat

/-- What a turn does to the message: the two assignments of the loop body,
`x.GenTxs = append(x.GenTxs, ...)` in case 1 and, unless `DiscardUnknown` is
set, `x.unknownFields = append(x.unknownFields, ...)` in the default case. -/
def Turn.apply (options : UnmarshalOptions) (x : GenesisState) :
    Turn → Iter (GenesisState × Nat) Decoded
  | .genTx b iNdEx => .next ({ x with GenTxs := some (x.GenTxs.elems ++ [b]) }, iNdEx)
  | .skipped raw iNdEx =>
    .next (if !options.DiscardUnknown then
        { x with unknownFields := goAppend x.unknownFields raw } else x, iNdEx)
  | .ret iNdEx s => .stop ⟨x, iNdEx, s⟩

/-- The records the loop of `unmarshal` skips from the cursor `iNdEx` on, in
the order in which it meets them: the raw bytes `dAtA[iNdEx:iNdEx+skippy]` of
each turn that takes the default case, up to the turn that returns. -/
def skippedRecords (dAtA : List Byte) : Nat → Nat → List (List Byte)
  | 0, _ => []
  | fuel + 1, iNdEx =>
    if iNdEx < dAtA.length then
      match turn dAtA iNdEx with
      | .genTx _ iNdEx => skippedRecords dAtA fuel iNdEx
      | .skipped raw iNdEx => raw :: skippedRecords dAtA fuel iNdEx
      | .ret _ _ => []
    else []

/-! ## The view adapter `_GenesisState_1_list` and the reflective accessor -/

deriving instance DecidableEq for Except

/-- Why a call panics: the two `fmt.Errorf` values the accessor panics with on
a descriptor it does not know, the one of `AppendMutable`, and the run-time
panics of Go (nil pointer dereference, index out of range, slice bounds out of
range, a `protoreflect.Value` or an interface of another type). -/
inductive Panic where
  | extensionsUnsupported
  | doesNotContainField (fullName : String)
  | appendMutableNotMessageKind
  | nilDereference
  | indexOutOfRange
  | sliceBoundsOutOfRange
  | typeMismatch
  deriving DecidableEq, Repr

/-- A pointer `*[][]byte`: `nil`, the address `&x.GenTxs` of the field of the
message, or the address of a variable `list := [][]byte{}` allocated by
`NewField` (any `[][]byte` variable outside the message). -/
inductive ListPtr where
  | nil
  | genTxs
  | var (n : Nat)
  deriving DecidableEq, Repr

/-- The view adapter `type _GenesisState_1_list struct { list *[][]byte }`. -/
structure _GenesisState_1_list where
  list : ListPtr
  deriving DecidableEq, Repr

/-- Modelled from the spec: `protoreflect.Value` of package
`google.golang.org/protobuf/reflect/protoreflect`, which is not under `src/`;
the values the accessor handles are a byte string (`ValueOfBytes`) and a view
adapter (`ValueOfList` of a `*_GenesisState_1_list`); `other` is a value of
any other kind, or a list of another concrete type. -/
inductive Value where
  | bytes (b : List Byte)
  | list (l : _GenesisState_1_list)
  | other
  deriving DecidableEq, Repr

/-- Modelled from the spec: `Value.Bytes()` of `protoreflect`, which panics on
a value that is not a byte string. -/
def Value.Bytes : Value → Except Panic (List Byte)
  | .bytes b => .ok b
  | _ => .error .typeMismatch

/-- Modelled from the spec: `Value.List()` of `protoreflect` followed by the
type assertion `lv.(*_GenesisState_1_list)`; both panic on a value that is not
a list of this concrete type. -/
def Value.List : Value → Except Panic _GenesisState_1_list
  | .list l => .ok l
  | _ => .error .typeMismatch

/-- The memory the accessor and its views work on: the message `x` the
accessor wraps (`fastReflection_GenesisState` is `GenesisState`) and the
`[][]byte` variables outside it, by address. -/
structure Memory where
  x : GenesisState
  vars : List (Slice (List Byte))
  deriving DecidableEq, Repr

/-- Go `*p`; `none` when the dereference panics (a nil pointer, or an address
the memory does not hold). -/
def Memory.load (m : Memory) : ListPtr → Option (Slice (List Byte))
  | .nil => none
  | .genTxs => some m.x.GenTxs
  | .var n => m.vars[n]?

/-- Go `*p = s`; `none` when the dereference panics. -/
def Memory.store (m : Memory) (p : ListPtr) (s : Slice (List Byte)) : Option Memory :=
  match p with
  | .nil => none
  | .genTxs => some { m with x := { m.x with GenTxs := s } }
  | .var n => if n < m.vars.length then some { m with vars := m.vars.set n s } else none

/-- Method `Len` of the view: `if x.list == nil { return 0 }; return
len(*x.list)`. -/
def _GenesisState_1_list.Len (x : _GenesisState_1_list) (m : Memory) : Except Panic Nat :=
  if x.list = .nil then .ok 0
  else
    match m.load x.list with
    | none => .error .nilDereference
    | some l => .ok l.len

/-- Method `Get` of the view: `return protoreflect.ValueOfBytes((*x.list)[i])`. -/
def _GenesisState_1_list.Get (x : _GenesisState_1_list) (m : Memory) (i : Int) :
    Except Panic Value :=
  match m.load x.list with
  | none => .error .nilDereference
  | some l =>
    if 0 ≤ i ∧ i < l.len then
      match l.elems[i.toNat]? with
      | some b => .ok (.bytes b)
      | none => .error .indexOutOfRange
    else .error .indexOutOfRange

/-- Method `Append` of the view: `valueUnwrapped := value.Bytes(); *x.list =
append(*x.list, concreteValue)`. The memory is returned also when the call
panics. -/
def _GenesisState_1_list.Append (x : _GenesisState_1_list) (m : Memory) (value : Value) :
    Except Panic Unit × Memory :=
  match value.Bytes with
  | .error p => (.error p, m)
  | .ok valueUnwrapped =>
    let concreteValue := valueUnwrapped
    match m.load x.list with
    | none => (.error .nilDereference, m)
    | some l =>
      match m.store x.list (some (l.elems ++ [concreteValue])) with
      | none => (.error .nilDereference, m)
      | some m => (.ok (), m)

/-- Method `IsValid` of the view: `return x.list != nil`. -/
def _GenesisState_1_list.IsValid (x : _GenesisState_1_list) : Bool := x.list != .nil

/-- Modelled from the spec: what the accessor reads of a
`protoreflect.FieldDescriptor`, which is not under `src/`: its full name and
whether it is an extension. -/
structure FieldDescriptor where
  FullName : String
  IsExtension : Bool
  deriving DecidableEq, Repr

/-- The descriptor `fd_GenesisState_gen_txs` of the field `gen_txs`, which
`init` looks up by name in the message descriptor. -/
def fd_GenesisState_gen_txs : FieldDescriptor :=
  ⟨"cosmos.genutil.v1beta1.GenesisState.gen_txs", false⟩

/-- The `default:` case of every `switch fd.FullName()` of the accessor: `if
fd.IsExtension() { panic(fmt.Errorf("proto3 declared messages do not support
extensions: ...")) }; panic(fmt.Errorf("message ... does not contain field
%s", fd.FullName()))`. -/
def unknownDescriptor (fd : FieldDescriptor) : Panic :=
  if fd.IsExtension then .extensionsUnsupported else .doesNotContainField fd.FullName

/-- Method `Has` of the accessor: `return len(x.GenTxs) != 0` for `gen_txs`. -/
def fastReflection_GenesisState.Has (m : Memory) (fd : FieldDescriptor) : Except Panic Bool :=
  if fd.FullName = "cosmos.genutil.v1beta1.GenesisState.gen_txs" then .ok (m.x.GenTxs.len != 0)
  else .error (unknownDescriptor fd)

/-- Method `Clear` of the accessor: `x.GenTxs = nil` for `gen_txs`. -/
def fastReflection_GenesisState.Clear (m : Memory) (fd : FieldDescriptor) :
    Except Panic Unit × Memory :=
  if fd.FullName = "cosmos.genutil.v1beta1.GenesisState.gen_txs" then
    (.ok (), { m with x := { m.x with GenTxs := none } })
  else (.error (unknownDescriptor fd), m)

/-- Method `Get` of the accessor: for `gen_txs`, `if len(x.GenTxs) == 0 {
return protoreflect.ValueOfList(&_GenesisState_1_list{}) }; listValue :=
&_GenesisState_1_list{list: &x.GenTxs}`. -/
def fastReflection_GenesisState.Get (m : Memory) (descriptor : FieldDescriptor) :
    Except Panic Value :=
  if descriptor.FullName = "cosmos.genutil.v1beta1.GenesisState.gen_txs" then
    if m.x.GenTxs.len = 0 then .ok (.list ⟨.nil⟩)
    else
      let listValue : _GenesisState_1_list := ⟨.genTxs⟩
      .ok (.list listValue)
  else .error (unknownDescriptor descriptor)

/-- Method `Set` of the accessor: for `gen_txs`, `lv := value.List(); clv :=
lv.(*_GenesisState_1_list); x.GenTxs = *clv.list`. -/
def fastReflection_GenesisState.Set (m : Memory) (fd : FieldDescriptor) (value : Value) :
    Except Panic Unit × Memory :=
  if fd.FullName = "cosmos.genutil.v1beta1.GenesisState.gen_txs" then
    match value.List with
    | .error p => (.error p, m)
    | .ok clv =>
      match m.load clv.list with
      | none => (.error .nilDereference, m)
      | some s => (.ok (), { m with x := { m.x with GenTxs := s } })
  else (.error (unknownDescriptor fd), m)

/-- Method `Mutable` of the accessor: for `gen_txs`, `if x.GenTxs == nil {
x.GenTxs = [][]byte{} }; value := &_GenesisState_1_list{list: &x.GenTxs}`. -/
def fastReflection_GenesisState.Mutable (m : Memory) (fd : FieldDescriptor) :
    Except Panic Value × Memory :=
  if fd.FullName = "cosmos.genutil.v1beta1.GenesisState.gen_txs" then
    let m := if m.x.GenTxs = none then { m with x := { m.x with GenTxs := some [] } } else m
    let value : _GenesisState_1_list := ⟨.genTxs⟩
    (.ok (.list value), m)
  else (.error (unknownDescriptor fd), m)

/-- Method `NewField` of the accessor: for `gen_txs`, `list := [][]byte{};
return protoreflect.ValueOfList(&_GenesisState_1_list{list: &list})`; the new
variable takes the next address. -/
def fastReflection_GenesisState.NewField (m : Memory) (fd : FieldDescriptor) :
    Except Panic Value × Memory :=
  if fd.FullName = "cosmos.genutil.v1beta1.GenesisState.gen_txs" then
    (.ok (.list ⟨.var m.vars.length⟩), { m with vars := m.vars ++ [some []] })
  else (.error (unknownDescriptor fd), m)

/-- Method `Set` of the view: `valueUnwrapped := value.Bytes(); (*x.list)[i] =
concreteValue`. -/
def _GenesisState_1_list.Set (x : _GenesisState_1_list) (m : Memory) (i : Int) (value : Value) :
    Except Panic Unit × Memory :=
  match value.Bytes with
  | .error p => (.error p, m)
  | .ok valueUnwrapped =>
    let concreteValue := valueUnwrapped
    match m.load x.list with
    | none => (.error .nilDereference, m)
    | some l =>
      if 0 ≤ i ∧ i < l.len then
        match m.store x.list (some (l.elems.set i.toNat concreteValue)) with
        | none => (.error .nilDereference, m)
        | some m => (.ok (), m)
      else (.error .indexOutOfRange, m)

/-- Method `AppendMutable` of the view: `panic(fmt.Errorf("AppendMutable can
not be called on message GenesisState at list field GenTxs as it is not of
Message kind"))`. -/
def _GenesisState_1_list.AppendMutable (_x : _GenesisState_1_list) : Except Panic Value :=
  .error .appendMutableNotMessageKind

/-- Method `Truncate` of the view: `*x.list = (*x.list)[:n]`. In a slice
expression on a slice Go lets the upper bound go up to the capacity of the
slice, not only to its length. Slices are values here, so what the backing
array of `*x.list` holds between the length and the capacity of the slice is
the argument `spare` (empty when the capacity is the length; a nil slice has
capacity 0). -/
def _GenesisState_1_list.Truncate (x : _GenesisState_1_list) (m : Memory)
    (spare : List (List Byte)) (n : Int) : Except Panic Unit × Memory :=
  match m.load x.list with
  | none => (.error .nilDereference, m)
  | some l =>
    let array : List (List Byte) :=
      match l with
      | none => []
      | some e => e ++ spare
    if 0 ≤ n ∧ n ≤ array.length then
      match m.store x.list (l.map fun _ => array.take n.toNat) with
      | none => (.error .nilDereference, m)
      | some m => (.ok (), m)
    else (.error .sliceBoundsOutOfRange, m)

/-- Method `NewElement` of the view: `var v []byte; return
protoreflect.ValueOfBytes(v)`; it does not read `x.list`. -/
def _GenesisState_1_list.NewElement (_x : _GenesisState_1_list) : Except Panic Value :=
  let v : List Byte := []
  .ok (.bytes v)

/-- A caller that appends the byte strings `bs` to a view one after the other
(`for _, b := range bs { v.Append(protoreflect.ValueOfBytes(b)) }`), stopping
at the first panic. -/
def _GenesisState_1_list.appendAll (x : _GenesisState_1_list) (m : Memory) :
    List (List Byte) → Except Panic Unit × Memory
  | [] => (.ok (), m)
  | b :: bs =>
    match x.Append m (.bytes b) with
    | (.ok _, m) => x.appendAll m bs
    | (.error p, m) => (.error p, m)

/-! ## The codec registrations of `x/authz` and `x/group` -/

/-- A Go type of one of the two packages, by the name it is declared with:
`authz.MsgExec` and `group.MsgExec` are two types. -/
inductive GoType where
  | authz (name : String)
  | group (name : String)
  | sdk (name : String)
  deriving DecidableEq, Repr

/-- Modelled from the spec: what a `*codec.LegacyAmino` (package `codec`,
which is not under `src/`) has been told: the interfaces registered with
`RegisterInterface` and, in order, the concrete types registered with
`RegisterConcrete`, each with its Amino name. -/
structure LegacyAmino where
  interfaces : List GoType
  concretes : List (GoType × String)
  deriving DecidableEq, Repr

/-- Modelled from the spec: `cdc.RegisterInterface(ptr, nil)`. -/
def LegacyAmino.RegisterInterface (cdc : LegacyAmino) (ptr : GoType) : LegacyAmino :=
  { cdc with interfaces := cdc.interfaces ++ [ptr] }

/-- Modelled from the spec: `cdc.RegisterConcrete(o, name, nil)`. -/
def LegacyAmino.RegisterConcrete (cdc : LegacyAmino) (o : GoType) (name : String) :
    LegacyAmino :=
  { cdc with concretes := cdc.concretes ++ [(o, name)] }

/-- Modelled from the spec: `codec.RegisterAminoMsg(cdc, msg, name)`, which
registers the concrete message type under the name. -/
def RegisterAminoMsg (cdc : LegacyAmino) (msg : GoType) (name : String) : LegacyAmino :=
  cdc.RegisterConcrete msg name

/-- Modelled from the spec: what a `types.InterfaceRegistry` (package
`codec/types`, which is not under `src/`) has been told: for each interface
the implementations registered for it, in order. -/
structure InterfaceRegistry where
  implementations : List (GoType × GoType)
  deriving DecidableEq, Repr

/-- Modelled from the spec: `registry.RegisterImplementations(iface,
impls...)`. -/
def InterfaceRegistry.RegisterImplementations (registry : InterfaceRegistry) (iface : GoType)
    (impls : List GoType) : InterfaceRegistry :=
  { registry with implementations := registry.implementations ++ impls.map fun t => (iface, t) }

/-- Modelled from the spec: `registry.RegisterInterface(protoName, iface,
impls...)`, which registers the implementations of the interface. -/
def InterfaceRegistry.RegisterInterface (registry : InterfaceRegistry) (_protoName : String)
    (iface : GoType) (impls : List GoType) : InterfaceRegistry :=
  registry.RegisterImplementations iface impls

/-- Modelled from the spec: `msgservice.RegisterMsgServiceDesc(registry, sd)`,
which registers the request type of every method of the service as an
`sdk.Msg`. The service descriptor is generated code that is not under `src/`;
`sd` is the list of its request types. -/
def RegisterMsgServiceDesc (registry : InterfaceRegistry) (sd : List GoType) :
    InterfaceRegistry :=
  registry.RegisterImplementations (.sdk "Msg") sd

/-- `RegisterLegacyAminoCodec` of package `authz`. -/
def authz.RegisterLegacyAminoCodec (cdc : LegacyAmino) : LegacyAmino :=
  let cdc := RegisterAminoMsg cdc (.authz "MsgGrant") "cosmos-sdk/MsgGrant"
  let cdc := RegisterAminoMsg cdc (.authz "MsgRevoke") "cosmos-sdk/MsgRevoke"
  let cdc := RegisterAminoMsg cdc (.authz "MsgExec") "cosmos-sdk/MsgExec"
  let cdc := cdc.RegisterInterface (.authz "Authorization")
  cdc.RegisterConcrete (.authz "GenericAuthorization") "cosmos-sdk/GenericAuthorization"

/-- `RegisterInterfaces` of package `authz`; `sd` is what `MsgServiceDesc()`
lists. -/
def authz.RegisterInterfaces (registry : InterfaceRegistry) (sd : List GoType) :
    InterfaceRegistry :=
  let registry := registry.RegisterImplementations (.sdk "Msg")
    [.authz "MsgGrant", .authz "MsgRevoke", .authz "MsgExec"]
  let registry := registry.RegisterInterface "cosmos.v1beta1.Authorization"
    (.authz "Authorization") [.authz "GenericAuthorization"]
  RegisterMsgServiceDesc registry sd

/-- `RegisterLegacyAminoCodec` of package `group`. -/
def group.RegisterLegacyAminoCodec (cdc : LegacyAmino) : LegacyAmino :=
  let cdc := cdc.RegisterInterface (.group "DecisionPolicy")
  let cdc := cdc.RegisterConcrete (.group "ThresholdDecisionPolicy")
    "cosmos-sdk/ThresholdDecisionPolicy"
  let cdc := cdc.RegisterConcrete (.group "PercentageDecisionPolicy")
    "cosmos-sdk/PercentageDecisionPolicy"
  let cdc := RegisterAminoMsg cdc (.group "MsgCreateGroup") "cosmos-sdk/MsgCreateGroup"
  let cdc := RegisterAminoMsg cdc (.group "MsgUpdateGroupMembers")
    "cosmos-sdk/MsgUpdateGroupMembers"
  let cdc := RegisterAminoMsg cdc (.group "MsgUpdateGroupAdmin") "cosmos-sdk/MsgUpdateGroupAdmin"
  let cdc := RegisterAminoMsg cdc (.group "MsgUpdateGroupMetadata")
    "cosmos-sdk/MsgUpdateGroupMetadata"
  let cdc := RegisterAminoMsg cdc (.group "MsgCreateGroupWithPolicy")
    "cosmos-sdk/MsgCreateGroupWithPolicy"
  let cdc := RegisterAminoMsg cdc (.group "MsgCreateGroupPolicy")
    "cosmos-sdk/MsgCreateGroupPolicy"
  let cdc := RegisterAminoMsg cdc (.group "MsgUpdateGroupPolicyAdmin")
    "cosmos-sdk/MsgUpdateGroupPolicyAdmin"
  let cdc := RegisterAminoMsg cdc (.group "MsgUpdateGroupPolicyDecisionPolicy")
    "cosmos-sdk/MsgUpdateGroupPolicyDecisionPolicy"
  let cdc := RegisterAminoMsg cdc (.group "MsgUpdateGroupPolicyMetadata")
    "cosmos-sdk/MsgUpdateGroupPolicyMetadata"
  let cdc := RegisterAminoMsg cdc (.group "MsgSubmitProposal") "cosmos-sdk/group/MsgSubmitProposal"
  let cdc := RegisterAminoMsg cdc (.group "MsgWithdrawProposal")
    "cosmos-sdk/group/MsgWithdrawProposal"
  let cdc := RegisterAminoMsg cdc (.group "MsgVote") "cosmos-sdk/group/MsgVote"
  let cdc := RegisterAminoMsg cdc (.group "MsgExec") "cosmos-sdk/group/MsgExec"
  RegisterAminoMsg cdc (.group "MsgLeaveGroup") "cosmos-sdk/group/MsgLeaveGroup"

/-- `RegisterInterfaces` of package `group`; `sd` is what `_Msg_serviceDesc`
lists. -/
def group.RegisterInterfaces (registry : InterfaceRegistry) (sd : List GoType) :
    InterfaceRegistry :=
  let registry := registry.RegisterImplementations (.sdk "Msg")
    [.group "MsgCreateGroup", .group "MsgUpdateGroupMembers", .group "MsgUpdateGroupAdmin",
      .group "MsgUpdateGroupMetadata", .group "MsgCreateGroupWithPolicy",
      .group "MsgCreateGroupPolicy", .group "MsgUpdateGroupPolicyAdmin",
      .group "MsgUpdateGroupPolicyDecisionPolicy", .group "MsgUpdateGroupPolicyMetadata",
      .group "MsgSubmitProposal", .group "MsgWithdrawProposal", .group "MsgVote",
      .group "MsgExec", .group "MsgLeaveGroup"]
  let registry := RegisterMsgServiceDesc registry sd
  registry.RegisterInterface "cosmos.group.v1beta1.DecisionPolicy" (.group "DecisionPolicy")
    [.group "ThresholdDecisionPolicy", .group "PercentageDecisionPolicy"]

/-- The Amino names a codec holds, in the order of registration. -/
def LegacyAmino.names (cdc : LegacyAmino) : List String := cdc.concretes.map Prod.snd

/-- The global codec `legacy.Cdc` after the `init` functions of the two
packages have run, `authz` first. -/
def legacyCdc : LegacyAmino :=
  group.RegisterLegacyAminoCodec (authz.RegisterLegacyAminoCodec ⟨[], []⟩)

/-! ## Properties of the runtime helpers -/

theorem lenBits_le_iff (fuel : Nat) : ∀ (x k : Nat), x < 2 ^ fuel →
    (lenBits fuel x ≤ k ↔ x < 2 ^ k) := by
  induction fuel with
  | zero =>
    intro x k hx
    have hx0 : x = 0 := by simpa using hx
    subst hx0
    simp [lenBits]
  | succ fuel ih =>
    intro x k hx
    by_cases h0 : x = 0
    · subst h0
      simp [lenBits]
    · have hx2 : x / 2 < 2 ^ fuel := by
        rw [Nat.div_lt_iff_lt_mul (by decide)]
        rw [pow_succ] at hx
        exact hx
      cases k with
      | zero =>
        simp [lenBits, h0]
      | succ k =>
        simp only [lenBits, h0, if_false, Nat.add_le_add_iff_right]
        rw [ih (x / 2) k hx2, Nat.div_lt_iff_lt_mul (by decide), pow_succ]

theorem or_one_eq (v : Nat) : v ||| 1 = 2 * (v / 2) + 1 := by
  have h1 : v = 2 ^ 1 * (v / 2) ||| (v % 2) := by
    rw [← Nat.mul_add_lt_is_or (by omega)]
    omega
  have h2 : v % 2 ||| 1 = 1 := by
    rcases Nat.mod_two_eq_zero_or_one v with h | h <;> simp [h]
  conv_lhs => rw [h1]
  rw [Nat.or_assoc, h2, ← Nat.mul_add_lt_is_or (by decide)]

theorem or_one_lt_iff (v n : Nat) (hn : 1 ≤ n) : v ||| 1 < 2 ^ n ↔ v < 2 ^ n := by
  rw [or_one_eq]
  obtain ⟨m, rfl⟩ : ∃ m, n = m + 1 := ⟨n - 1, by omega⟩
  rw [pow_succ]
  omega

theorem Sov_le_iff (v k : Nat) (hv : v < 2 ^ 64) (hk : 1 ≤ k) :
    Sov v ≤ k ↔ v < 2 ^ (7 * k) := by
  have hv1 : v ||| 1 < 2 ^ 64 := (or_one_lt_iff v 64 (by decide)).2 hv
  have h := lenBits_le_iff 64 (v ||| 1) (7 * k) hv1
  rw [or_one_lt_iff v (7 * k) (by omega)] at h
  rw [← h]
  unfold Sov Len64
  omega

theorem Sov_pos (v : Nat) (hv : v < 2 ^ 64) : 1 ≤ Sov v := by
  unfold Sov Len64
  have : ¬ lenBits 64 (v ||| 1) ≤ 0 := by
    rw [lenBits_le_iff 64 _ 0 ((or_one_lt_iff v 64 (by decide)).2 hv), or_one_eq]
    omega
  omega

theorem Sov_small (v : Nat) (hv : v < 128) : Sov v = 1 := by
  have h1 := (Sov_le_iff v 1 (by omega) (le_refl 1)).2 (by omega)
  have h2 := Sov_pos v (by omega)
  omega

theorem Sov_large (v : Nat) (hv : v < 2 ^ 64) (h : 128 ≤ v) : Sov v = Sov (v / 128) + 1 := by
  have hv' : v / 128 < 2 ^ 64 := by omega
  have key : ∀ k, 1 ≤ k → (Sov v ≤ k + 1 ↔ Sov (v / 128) ≤ k) := by
    intro k hk
    rw [Sov_le_iff v (k + 1) hv (by omega), Sov_le_iff (v / 128) k hv' hk,
      Nat.div_lt_iff_lt_mul (by decide)]
    have : 2 ^ (7 * (k + 1)) = 2 ^ (7 * k) * 128 := by
      rw [Nat.mul_add, pow_add]
      norm_num
    rw [this]
  have hp := Sov_pos (v / 128) hv'
  have hnot : ¬ Sov v ≤ 1 := by
    rw [Sov_le_iff v 1 hv (le_refl 1)]
    omega
  have h1 := (key (Sov (v / 128)) hp).2 (le_refl _)
  have h2 := (key (Sov v - 1) (by omega)).1 (by omega)
  omega

theorem varint_length (v : Nat) : v < 2 ^ 64 → (varint v).length = Sov v := by
  induction v using Nat.strong_induction_on with
  | _ v ih =>
    intro hv
    rw [varint]
    by_cases h : v < 128
    · simp [h, Sov_small v h]
    · simp only [h, if_false, List.length_cons]
      rw [ih (v / 128) (by omega) (by omega), Sov_large v hv (by omega)]

theorem varint_ne_nil (v : Nat) : varint v ≠ [] := by
  rw [varint]
  split <;> simp

theorem exists_split {α : Type} (l : List α) (a b : Nat) (h : l.length = a + b) :
    ∃ l₁ l₂, l = l₁ ++ l₂ ∧ l₁.length = a ∧ l₂.length = b :=
  ⟨l.take a, l.drop a, (List.take_append_drop a l).symm, by simp [h], by simp [h]⟩

theorem setByte_eq (pre suf : List Byte) (b b' : Byte) (i : Int) (hi : i = pre.length) :
    setByte (pre ++ b :: suf) i b' = .ret (pre ++ b' :: suf) := by
  subst hi
  unfold setByte
  have h : (0 : Int) ≤ (pre.length : Int) ∧
      (pre.length : Int) < ((pre ++ b :: suf).length : Nat) := by
    constructor
    · omega
    · simp
  rw [if_pos h]
  simp

theorem copyAt_eq (pre mid suf src : List Byte) (i : Int) (hi : i = pre.length)
    (hmid : mid.length = src.length) :
    copyAt (pre ++ mid ++ suf) i src = .ret (pre ++ src ++ suf) := by
  subst hi
  unfold copyAt
  have h : (0 : Int) ≤ (pre.length : Int) ∧
      (pre.length : Int) ≤ ((pre ++ mid ++ suf).length : Nat) := by
    constructor
    · omega
    · simp
      omega
  rw [if_pos h]
  have h1 : List.take pre.length (pre ++ mid ++ suf) = pre := by
    rw [List.append_assoc]
    exact List.take_left' rfl
  have h2 : List.take ((pre ++ mid ++ suf).length - pre.length) src = src := by
    apply List.take_of_length_le
    simp
    omega
  have h3 : List.drop (pre.length + src.length) (pre ++ mid ++ suf) = suf :=
    List.drop_left' (by simp [hmid])
  simp only [Int.toNat_ofNat]
  rw [h1, h2, h3, List.append_assoc]

theorem encodeVarintLoop_eq (fuel : Nat) : ∀ (v : Nat) (pre mid suf : List Byte) (i : Int),
    v < 128 ^ (fuel + 1) → mid.length = (varint v).length → i = pre.length →
    encodeVarintLoop (fuel + 1) (pre ++ mid ++ suf) i v = .ret (pre ++ varint v ++ suf) := by
  induction fuel with
  | zero =>
    intro v pre mid suf i hv hmid hi
    have hv' : v < 128 := by simpa using hv
    have h7 : ¬ v ≥ 1 <<< 7 := by
      have : (1 : Nat) <<< 7 = 128 := by decide
      omega
    rw [varint, if_pos hv'] at hmid
    rw [varint, if_pos hv']
    obtain ⟨b, rfl⟩ : ∃ b, mid = [b] := by
      match mid, hmid with
      | [b], _ => exact ⟨b, rfl⟩
    rw [encodeVarintLoop, if_neg h7]
    simpa using setByte_eq pre suf b (uint8 v) i hi
  | succ fuel ih =>
    intro v pre mid suf i hv hmid hi
    have e7 : (1 : Nat) <<< 7 = 128 := by decide
    by_cases hv' : v < 128
    · have h7 : ¬ v ≥ 1 <<< 7 := by omega
      rw [varint, if_pos hv'] at hmid
      rw [varint, if_pos hv']
      obtain ⟨b, rfl⟩ : ∃ b, mid = [b] := by
        match mid, hmid with
        | [b], _ => exact ⟨b, rfl⟩
      rw [encodeVarintLoop, if_neg h7]
      simpa using setByte_eq pre suf b (uint8 v) i hi
    · have h7 : v ≥ 1 <<< 7 := by omega
      rw [varint, if_neg hv'] at hmid
      rw [varint, if_neg hv']
      obtain ⟨b, mid', rfl⟩ : ∃ b mid', mid = b :: mid' := by
        match mid, hmid with
        | b :: mid', _ => exact ⟨b, mid', rfl⟩
      have hbyte : v &&& 0x7f ||| 0x80 = v % 128 + 128 := by
        have h1 : v &&& 0x7f = v % 128 := Nat.and_pow_two_sub_one_eq_mod v 7
        have h2 : ∀ x < 128, x ||| 128 = x + 128 := by decide
        rw [h1]
        exact h2 _ (Nat.mod_lt _ (by decide))
      have hshift : v >>> 7 = v / 128 := Nat.shiftRight_eq_div_pow v 7
      rw [encodeVarintLoop, if_pos h7, hbyte, hshift]
      have hs := setByte_eq pre (mid' ++ suf) b (uint8 (v % 128 + 128)) i hi
      simp only [List.append_assoc, List.cons_append] at hs ⊢
      rw [hs]
      simp only [Outcome.bind]
      have hv2 : v / 128 < 128 ^ (fuel + 1) := by
        rw [Nat.div_lt_iff_lt_mul (by decide)]
        rw [pow_succ] at hv
        exact hv
      have := ih (v / 128) (pre ++ [uint8 (v % 128 + 128)]) mid' suf (i + 1) hv2
        (by simpa using hmid) (by simp [hi])
      simpa using this

theorem EncodeVarint_eq (v : Nat) (pre mid suf : List Byte) (i : Int) (hv : v < 2 ^ 64)
    (hmid : mid.length = Sov v) (hi : i = pre.length + mid.length) :
    EncodeVarint (pre ++ mid ++ suf) i v = .ret (pre ++ varint v ++ suf, pre.length) := by
  unfold EncodeVarint
  have hv' : v < 128 ^ (9 + 1) := by
    have : (2 : Nat) ^ 64 ≤ 128 ^ (9 + 1) := by norm_num
    omega
  have hoff : i - (Sov v : Int) = pre.length := by
    rw [hi, hmid]
    omega
  simp only [hoff]
  rw [encodeVarintLoop_eq 9 v pre mid suf _ hv' (by rw [hmid, varint_length v hv]) rfl]
  rfl

/-! ## Size and marshal -/

theorem uint64_lt (n : Nat) : uint64 n < 2 ^ 64 := Nat.mod_lt _ (by decide)

theorem uint64_of_lt (n : Nat) (h : n < 2 ^ 64) : uint64 n = n := Nat.mod_eq_of_lt h

theorem emitted_append (a b : List (List Byte)) : emitted (a ++ b) = emitted a ++ emitted b := by
  induction a with
  | nil => rfl
  | cons e es ih => simp [emitted, ih]

theorem emitted_length_cons (e : List Byte) (es : List (List Byte)) :
    (emitted (e :: es)).length = (1 + e.length + Sov (uint64 e.length)) + (emitted es).length := by
  simp only [emitted, List.length_append, List.length_cons,
    varint_length _ (uint64_lt e.length)]
  omega

theorem foldl_size (G : List (List Byte)) : ∀ n : Nat,
    G.foldl (fun n b => n + (1 + b.length + Sov (uint64 b.length))) n
      = n + (emitted G).length := by
  induction G with
  | nil => intro n; simp [emitted]
  | cons e es ih =>
    intro n
    rw [List.foldl_cons, ih, emitted_length_cons]
    omega

theorem size_eq (m : GenesisState) :
    size (some m) = (emitted m.GenTxs.elems).length + m.unknownFields.len := by
  obtain ⟨uf, G⟩ := m
  have hG : (if Slice.len G > 0 then
      (Slice.elems G).foldl (fun n b => n + (1 + b.length + Sov (uint64 b.length))) 0
      else 0) = (emitted (Slice.elems G)).length := by
    by_cases h : Slice.len G > 0
    · rw [if_pos h, foldl_size]
      omega
    · rw [if_neg h]
      have : Slice.elems G = [] := by
        unfold Slice.len at h
        exact List.length_eq_zero.mp (by omega)
      rw [this]
      rfl
  unfold size
  simp only [hG]
  cases uf with
  | none => simp [Slice.len, Slice.elems]
  | some u => simp

theorem emitted_take_succ (G : List (List Byte)) (k : Nat) (e : List Byte) (h : G[k]? = some e) :
    emitted (G.take (k + 1))
      = emitted (G.take k) ++ (0x0a :: (varint (uint64 e.length) ++ e)) := by
  rw [List.take_succ, h, emitted_append]
  simp [emitted]

theorem marshalLoop_eq (G : List (List Byte)) (k : Nat) : ∀ (pre mid suf : List Byte) (i : Int),
    k ≤ G.length → mid.length = (emitted (G.take k)).length → i = pre.length + mid.length →
    marshalLoop G k (pre ++ mid ++ suf) i = .ret (pre ++ emitted (G.take k) ++ suf, pre.length) := by
  induction k with
  | zero =>
    intro pre mid suf i _ hmid hi
    have hm : mid = [] := by
      apply List.length_eq_zero.mp
      simpa [emitted] using hmid
    subst hm
    simp [marshalLoop, emitted, hi]
  | succ k ih =>
    intro pre mid suf i hk hmid hi
    have hlt : k < G.length := by omega
    have hget : G[k]? = some G[k] := List.getElem?_eq_getElem hlt
    generalize G[k] = e at hget
    rw [emitted_take_succ G k e hget] at hmid ⊢
    have hvl : (varint (uint64 e.length)).length = Sov (uint64 e.length) :=
      varint_length _ (uint64_lt _)
    -- split the zone still to be written into its four parts
    obtain ⟨mid₁, r₁, rfl, hm₁, hr₁⟩ := exists_split mid (emitted (G.take k)).length
      (1 + (Sov (uint64 e.length) + e.length)) (by
        rw [hmid]
        simp only [List.length_append, List.length_cons, hvl]
        omega)
    obtain ⟨t, r₂, rfl, ht, hr₂⟩ := exists_split r₁ 1 (Sov (uint64 e.length) + e.length) hr₁
    obtain ⟨mv, me, rfl, hmv, hme⟩ := exists_split r₂ (Sov (uint64 e.length)) e.length hr₂
    obtain ⟨t₀, rfl⟩ : ∃ t₀, t = [t₀] := by
      match t, ht with
      | [b], _ => exact ⟨b, rfl⟩
    rw [marshalLoop]
    simp only [hget]
    have hc := copyAt_eq (pre ++ mid₁ ++ [t₀] ++ mv) me suf e (i - e.length)
      (by simp [hi, hme]; omega) hme
    have he := EncodeVarint_eq (uint64 e.length) (pre ++ mid₁ ++ [t₀]) mv (e ++ suf)
      (i - e.length) (uint64_lt _) hmv (by simp [hi, hme]; omega)
    have hs := setByte_eq (pre ++ mid₁) (varint (uint64 e.length) ++ (e ++ suf)) t₀ 0xa
      ((((pre ++ mid₁ ++ [t₀]).length : Nat) : Int) - 1) (by simp; omega)
    have hi' := ih pre mid₁ (0xa :: (varint (uint64 e.length) ++ (e ++ suf)))
      ((((pre ++ mid₁ ++ [t₀]).length : Nat) : Int) - 1) (by omega) hm₁ (by simp; omega)
    simp only [List.append_assoc, List.cons_append, List.nil_append, List.singleton_append]
      at hc he hs hi' ⊢
    rw [hc]
    simp only [Outcome.bind]
    rw [he]
    simp only [Outcome.bind]
    rw [hs]
    simp only [Outcome.bind]
    rw [hi']

theorem marshal_eq (m : GenesisState) (Buf : Slice Byte) :
    marshal (some m) Buf
      = .ret (some (Buf.elems ++ (emitted m.GenTxs.elems ++ m.unknownFields.elems))) := by
  have hsz := size_eq m
  obtain ⟨uf, G⟩ := m
  simp only at hsz ⊢
  unfold marshal
  simp only
  generalize size (some ⟨uf, G⟩) = n at hsz
  -- the unknown-fields step
  have h1 : (if uf ≠ none then
        (copyAt (List.replicate n 0) (((List.replicate n (0 : Byte)).length : Nat) - (Slice.len uf : Int))
          (Slice.elems uf)).bind fun dAtA =>
            Outcome.ret (dAtA, (((List.replicate n (0 : Byte)).length : Nat) : Int) - (Slice.len uf : Int))
      else Outcome.ret (List.replicate n 0, (((List.replicate n (0 : Byte)).length : Nat) : Int)))
      = .ret (List.replicate (emitted (Slice.elems G)).length 0 ++ Slice.elems uf,
          ((emitted (Slice.elems G)).length : Int)) := by
    cases uf with
    | none =>
      have hn : n = (emitted (Slice.elems G)).length := by
        simpa [Slice.len, Slice.elems] using hsz
      subst hn
      rw [if_neg (by simp)]
      simp only [List.length_replicate]
      have hu : Slice.elems (none : Slice Byte) = [] := rfl
      rw [hu, List.append_nil]
    | some u =>
      rw [if_pos (by simp)]
      simp only [show Slice.elems (some u) = u from rfl,
        show Slice.len (some u) = u.length from rfl] at hsz ⊢
      have hrep : List.replicate n (0 : Byte)
          = List.replicate (emitted (Slice.elems G)).length 0 ++ List.replicate u.length 0 ++ [] := by
        rw [hsz, List.append_nil, List.replicate_add]
      have hc := copyAt_eq (List.replicate (emitted (Slice.elems G)).length 0)
        (List.replicate u.length 0) [] u
        ((((List.replicate n (0 : Byte)).length : Nat) : Int) - (u.length : Int))
        (by simp [hsz]) (by simp)
      rw [← hrep] at hc
      rw [hc]
      simp only [Outcome.bind, List.append_nil, List.length_replicate]
      congr 2
      omega
  rw [h1]
  simp only [Outcome.bind]
  -- the GenTxs loop
  have h2 : (if Slice.len G > 0 then
        marshalLoop (Slice.elems G) (Slice.len G)
          (List.replicate (emitted (Slice.elems G)).length 0 ++ Slice.elems uf)
          ((emitted (Slice.elems G)).length : Int)
      else Outcome.ret (List.replicate (emitted (Slice.elems G)).length 0 ++ Slice.elems uf,
          ((emitted (Slice.elems G)).length : Int)))
      = .ret (emitted (Slice.elems G) ++ Slice.elems uf, 0) := by
    by_cases h : Slice.len G > 0
    · rw [if_pos h]
      have := marshalLoop_eq (Slice.elems G) (Slice.len G) []
        (List.replicate (emitted (Slice.elems G)).length 0) (Slice.elems uf)
        ((emitted (Slice.elems G)).length : Int) (le_refl _)
        (by simp [Slice.len]) (by simp)
      simpa [Slice.len] using this
    · rw [if_neg h]
      have : Slice.elems G = [] := by
        unfold Slice.len at h
        exact List.length_eq_zero.mp (by omega)
      simp [this, emitted]
  rw [h2]
  cases Buf with
  | none => simp [Outcome.bind, Slice.elems]
  | some b => simp [Outcome.bind, Slice.elems, goAppend]

/-! ## The varint loop of the decoder -/

theorem getElem?_append_shift (pre u : List Byte) (i : Nat) :
    (pre ++ u)[pre.length + i]? = u[i]? := by
  rw [List.getElem?_append_right (by omega)]
  congr 1
  omega

theorem varintLoop_reloc (pre u : List Byte) (fuel : Nat) : ∀ (shift i word : Nat),
    varintLoop (pre ++ u) fuel shift (pre.length + i) word
      = (varintLoop u fuel shift i word).shift pre.length := by
  induction fuel with
  | zero => intro shift i word; rfl
  | succ fuel ih =>
    intro shift i word
    rw [varintLoop, varintLoop]
    by_cases hs : shift ≥ 64
    · simp [hs, VarintResult.shift]
    · by_cases hi : i ≥ u.length
      · have hi' : pre.length + i ≥ (pre ++ u).length := by simp; omega
        simp [hs, hi, hi', VarintResult.shift]
      · have hi' : ¬ pre.length + i ≥ (pre ++ u).length := by simp; omega
        rw [if_neg hs, if_neg hs, if_neg hi, if_neg hi', getElem?_append_shift]
        cases hb : u[i]? with
        | none => simp [VarintResult.shift]
        | some b =>
          simp only
          by_cases hlt : b.val < 0x80
          · simp [hlt, VarintResult.shift, Nat.add_assoc]
          · simp only [hlt, if_false]
            have := ih (shift + 7) (i + 1) (word ||| uint64 ((b.val &&& 0x7F) <<< shift))
            rw [← Nat.add_assoc] at this
            exact this

theorem varintLoop_fail_ne_nil (d : List Byte) (fuel : Nat) : ∀ (shift i word : Nat) (s : Status)
    (j : Nat), varintLoop d fuel shift i word = .fail s j → s ≠ .nil := by
  induction fuel with
  | zero =>
    intro shift i word s j h
    simp [varintLoop] at h
    rw [← h.1]
    simp
  | succ fuel ih =>
    intro shift i word s j h
    rw [varintLoop] at h
    split at h
    · simp at h; rw [← h.1]; simp
    · split at h
      · simp at h; rw [← h.1]; simp
      · split at h
        · simp at h; rw [← h.1]; simp
        · simp only at h
          split at h
          · simp at h
          · exact ih _ _ _ s j h

theorem varintLoop_done_bounds (d : List Byte) (fuel : Nat) : ∀ (shift i word w j : Nat),
    varintLoop d fuel shift i word = .done w j → i < j ∧ j ≤ d.length := by
  induction fuel with
  | zero =>
    intro shift i word w j h
    simp [varintLoop] at h
  | succ fuel ih =>
    intro shift i word w j h
    rw [varintLoop] at h
    split at h
    · simp at h
    · split at h
      · simp at h
      · rename_i hi
        split at h
        · simp at h
        · simp only at h
          split at h
          · simp at h
            omega
          · have := ih _ _ _ w j h
            omega

theorem getElem?_mid (pre suf : List Byte) (b : Byte) : (pre ++ b :: suf)[pre.length]? = some b := by
  rw [List.getElem?_append_right (le_refl _)]
  simp

theorem uint8_val (n : Nat) (h : n < 256) : (uint8 n).val = n := by
  simp [uint8, Nat.mod_eq_of_lt h]

theorem and_7F (n : Nat) : n &&& 0x7F = n % 128 := Nat.and_pow_two_sub_one_eq_mod n 7

theorem word_or (word x shift : Nat) (hw : word < 2 ^ shift) (hx : word + x * 2 ^ shift < 2 ^ 64) :
    word ||| uint64 (x <<< shift) = word + x * 2 ^ shift := by
  have h1 : x <<< shift = x * 2 ^ shift := Nat.shiftLeft_eq x shift
  rw [h1, uint64, Nat.mod_eq_of_lt (by omega), Nat.or_comm, Nat.mul_comm,
    ← Nat.mul_add_lt_is_or hw, Nat.add_comm]

theorem varintLoop_varint (v : Nat) : ∀ (pre suf : List Byte) (fuel shift word : Nat),
    (varint v).length ≤ fuel → shift + 7 * (varint v).length ≤ 70 → word < 2 ^ shift →
    word + v * 2 ^ shift < 2 ^ 64 →
    varintLoop (pre ++ varint v ++ suf) fuel shift pre.length word
      = .done (word + v * 2 ^ shift) (pre.length + (varint v).length) := by
  induction v using Nat.strong_induction_on with
  | _ v ih =>
    intro pre suf fuel shift word hfuel hshift hword hsum
    rw [varint] at hfuel hshift ⊢
    by_cases hv : v < 128
    · simp only [hv, if_true, List.length_singleton] at hfuel hshift ⊢
      obtain ⟨fuel, rfl⟩ : ∃ f, fuel = f + 1 := ⟨fuel - 1, by omega⟩
      rw [varintLoop]
      have h1 : ¬ shift ≥ 64 := by omega
      have h2 : ¬ pre.length ≥ (pre ++ [uint8 v] ++ suf).length := by simp
      have h3 : (pre ++ [uint8 v] ++ suf)[pre.length]? = some (uint8 v) := by
        simp only [List.append_assoc, List.singleton_append]
        exact getElem?_mid _ _ _
      have hval : (uint8 v).val = v := uint8_val v (by omega)
      rw [if_neg h1, if_neg h2, h3]
      simp only [hval, and_7F, Nat.mod_eq_of_lt hv]
      rw [if_pos (by omega), word_or word v shift hword hsum]
    · simp only [hv, if_false, List.length_cons] at hfuel hshift ⊢
      obtain ⟨fuel, rfl⟩ : ∃ f, fuel = f + 1 := ⟨fuel - 1, by omega⟩
      rw [varintLoop]
      have h1 : ¬ shift ≥ 64 := by omega
      have h2 : ¬ pre.length ≥
          (pre ++ uint8 (v % 128 + 128) :: varint (v / 128) ++ suf).length := by simp
      have h3 : (pre ++ uint8 (v % 128 + 128) :: varint (v / 128) ++ suf)[pre.length]?
          = some (uint8 (v % 128 + 128)) := by
        simp only [List.append_assoc, List.cons_append]
        exact getElem?_mid _ _ _
      have hval : (uint8 (v % 128 + 128)).val = v % 128 + 128 := uint8_val _ (by omega)
      have hpow : 2 ^ (shift + 7) = 128 * 2 ^ shift := by
        rw [pow_add]; norm_num; ring
      have hdecomp : v * 2 ^ shift = (v % 128) * 2 ^ shift + (v / 128) * 2 ^ (shift + 7) := by
        rw [hpow]
        have := Nat.div_add_mod v 128
        calc v * 2 ^ shift = (128 * (v / 128) + v % 128) * 2 ^ shift := by rw [this]
          _ = _ := by ring
      have hlow : v % 128 * 2 ^ shift ≤ 127 * 2 ^ shift :=
        Nat.mul_le_mul_right _ (by omega)
      rw [if_neg h1, if_neg h2, h3]
      simp only [hval, and_7F]
      have hm : (v % 128 + 128) % 128 = v % 128 := by omega
      rw [hm, if_neg (by omega),
        word_or word (v % 128) shift hword (by rw [hdecomp] at hsum; omega)]
      have := ih (v / 128) (by omega) (pre ++ [uint8 (v % 128 + 128)]) suf fuel (shift + 7)
        (word + v % 128 * 2 ^ shift) (by omega) (by omega) (by rw [hpow]; omega)
        (by rw [hdecomp] at hsum; omega)
      simp only [List.append_assoc, List.singleton_append, List.cons_append, List.nil_append,
        List.length_append,
        List.length_singleton] at this ⊢
      rw [this, hdecomp]
      congr 1 <;> omega

theorem varintLoop_varint_top (v : Nat) (pre suf : List Byte) (hv : v < 2 ^ 64) :
    varintLoop (pre ++ varint v ++ suf) varintFuel 0 pre.length 0
      = .done v (pre.length + (varint v).length) := by
  have hlen : (varint v).length ≤ 10 := by
    rw [varint_length v hv, Sov_le_iff v 10 hv (by decide)]
    have : (2 : Nat) ^ 64 ≤ 2 ^ (7 * 10) := by norm_num
    omega
  have := varintLoop_varint v pre suf varintFuel 0 0 (by unfold varintFuel; omega) (by omega)
    (by norm_num) (by simpa using hv)
  simpa using this

/-! ## Decoding one `gen_txs` record -/

theorem slice_mid (pre mid suf : List Byte) (lo hi : Int) (hlo : lo = pre.length)
    (hhi : hi = pre.length + mid.length) :
    slice (pre ++ mid ++ suf) lo hi = some mid := by
  subst hlo hhi
  unfold slice
  have h : (0 : Int) ≤ (pre.length : Int) ∧
      (pre.length : Int) ≤ (pre.length : Int) + (mid.length : Int) ∧
      (pre.length : Int) + (mid.length : Int) ≤ ((pre ++ mid ++ suf).length : Nat) := by
    refine ⟨by omega, by omega, ?_⟩
    simp only [List.length_append]
    omega
  rw [if_pos h]
  have e1 : ((pre.length : Int) + (mid.length : Int)).toNat - (pre.length : Int).toNat
      = mid.length := by omega
  rw [e1, Int.toNat_ofNat, List.append_assoc, List.drop_left' rfl, List.take_left' rfl]

theorem slice_to_end (d : List Byte) (i : Nat) (hi : i ≤ d.length) :
    slice d i d.length = some (d.drop i) := by
  unfold slice
  have h : (0 : Int) ≤ (i : Int) ∧ (i : Int) ≤ (d.length : Int) ∧
      (d.length : Int) ≤ (d.length : Int) := ⟨by omega, by omega, le_refl _⟩
  rw [if_pos h]
  simp only [Int.toNat_ofNat]
  rw [List.take_of_length_le (by simp)]

theorem int64_of_lt (z : Int) (h0 : 0 ≤ z) (h1 : z < 2 ^ 63) : int64 z = z := by
  unfold int64
  omega

theorem varint_ten : varint 10 = [0x0a] := by
  rw [varint]
  rfl

theorem unmarshalBody_genTx (options : UnmarshalOptions) (pre suf e : List Byte)
    (x : GenesisState) (hl : (pre ++ genTxRecord e ++ suf).length < 2 ^ 63) :
    unmarshalBody options (pre ++ genTxRecord e ++ suf) x pre.length
      = .next ({ x with GenTxs := some (x.GenTxs.elems ++ [e]) },
          pre.length + (genTxRecord e).length) := by
  have he : e.length < 2 ^ 63 := by
    simp only [List.length_append, genTxRecord, List.length_cons] at hl
    omega
  -- the tag
  have htag : varintLoop (pre ++ genTxRecord e ++ suf) varintFuel 0 pre.length 0
      = .done 10 (pre.length + 1) := by
    have := varintLoop_varint_top 10 pre (varint e.length ++ e ++ suf) (by norm_num)
    rw [varint_ten] at this
    simpa [genTxRecord] using this
  -- the length
  have hlen : varintLoop (pre ++ genTxRecord e ++ suf) varintFuel 0 (pre.length + 1) 0
      = .done e.length (pre.length + 1 + (varint e.length).length) := by
    have := varintLoop_varint_top e.length (pre ++ [0x0a]) (e ++ suf) (by omega)
    simpa [genTxRecord] using this
  -- the payload
  have hsl : slice (pre ++ genTxRecord e ++ suf)
      ((pre.length + 1 + (varint e.length).length : Nat) : Int)
      (((pre.length + 1 + (varint e.length).length : Nat) : Int) + (e.length : Int))
      = some e := by
    have := slice_mid (pre ++ 0x0a :: varint e.length) e suf
      ((pre.length + 1 + (varint e.length).length : Nat) : Int)
      (((pre.length + 1 + (varint e.length).length : Nat) : Int) + (e.length : Int))
      (by simp; omega) (by simp; omega)
    simpa [genTxRecord] using this
  have hpost : (((pre.length + 1 + (varint e.length).length : Nat) : Int) + (e.length : Int))
      ≤ ((pre ++ genTxRecord e ++ suf).length : Nat) := by
    simp only [List.length_append, genTxRecord, List.length_cons]
    omega
  have hf : int32 ((10 >>> 3 : Nat) : Int) = 1 := by decide
  have hw : (10 : Nat) &&& 0x7 = 2 := by decide
  have hb : int64 (e.length : Int) = e.length := int64_of_lt _ (by omega) (by omega)
  have hp : int64 (((pre.length + 1 + (varint e.length).length : Nat) : Int) + (e.length : Int))
      = ((pre.length + 1 + (varint e.length).length : Nat) : Int) + (e.length : Int) :=
    int64_of_lt _ (by omega) (by omega)
  unfold unmarshalBody
  simp only [htag, hf, hw, hlen, hb, hp, hsl]
  have c1 : ¬ ((e.length : Int) < 0) := by omega
  have c2 : ¬ (((pre.length + 1 + (varint e.length).length : Nat) : Int) + (e.length : Int) < 0) := by
    omega
  have c3 : ¬ (((pre.length + 1 + (varint e.length).length : Nat) : Int) + (e.length : Int)
      > ((pre ++ genTxRecord e ++ suf).length : Nat)) := by omega
  simp only [c1, c2, c3, if_false]
  simp [genTxRecord]
  omega

/-! ## Decoding a sequence of `gen_txs` records -/

theorem appendGenTxs_unknownFields (G : List (List Byte)) : ∀ x : GenesisState,
    (appendGenTxs x G).unknownFields = x.unknownFields := by
  induction G with
  | nil => intro x; rfl
  | cons e es ih =>
    intro x
    simp only [appendGenTxs, List.foldl_cons] at ih ⊢
    rw [ih]

theorem appendGenTxs_elems (G : List (List Byte)) : ∀ x : GenesisState,
    (appendGenTxs x G).GenTxs.elems = x.GenTxs.elems ++ G := by
  induction G with
  | nil => intro x; simp [appendGenTxs]
  | cons e es ih =>
    intro x
    simp only [appendGenTxs, List.foldl_cons] at ih ⊢
    rw [ih]
    simp [Slice.elems]

theorem genTxRecord_length_pos (e : List Byte) : 2 ≤ (genTxRecord e).length := by
  have := varint_ne_nil e.length
  have : 1 ≤ (varint e.length).length := by
    cases h : varint e.length with
    | nil => contradiction
    | cons a l => simp
  simp only [genTxRecord, List.length_cons, List.length_append]
  omega

theorem unmarshalLoop_at_end (options : UnmarshalOptions) (d : List Byte) (fuel : Nat)
    (x : GenesisState) (i : Nat) (hi : i = d.length) :
    unmarshalLoop options d fuel x i = ⟨x, i, .nil⟩ := by
  cases fuel <;> simp [unmarshalLoop, unmarshalEnd, hi]

theorem unmarshalLoop_genTxs (options : UnmarshalOptions) (G : List (List Byte)) :
    ∀ (pre suf : List Byte) (x : GenesisState) (fuel : Nat),
    (pre ++ genTxRecords G ++ suf).length < 2 ^ 63 →
    (genTxRecords G).length + suf.length ≤ fuel →
    unmarshalLoop options (pre ++ genTxRecords G ++ suf) fuel x pre.length
      = unmarshalLoop options (pre ++ genTxRecords G ++ suf) (fuel - G.length)
          (appendGenTxs x G) (pre.length + (genTxRecords G).length) := by
  induction G with
  | nil =>
    intro pre suf x fuel _ _
    simp [genTxRecords, appendGenTxs]
  | cons e es ih =>
    intro pre suf x fuel hl hfuel
    have hpos := genTxRecord_length_pos e
    simp only [genTxRecords, List.length_append] at hfuel
    obtain ⟨fuel, rfl⟩ : ∃ f, fuel = f + 1 := ⟨fuel - 1, by omega⟩
    have hd : pre ++ genTxRecords (e :: es) ++ suf
        = pre ++ genTxRecord e ++ (genTxRecords es ++ suf) := by
      simp [genTxRecords]
    have hd' : pre ++ genTxRecords (e :: es) ++ suf
        = (pre ++ genTxRecord e) ++ genTxRecords es ++ suf := by
      simp [genTxRecords]
    have hlt : pre.length < (pre ++ genTxRecords (e :: es) ++ suf).length := by
      rw [hd]
      simp only [List.length_append]
      omega
    rw [unmarshalLoop, if_pos hlt]
    have hb := unmarshalBody_genTx options pre (genTxRecords es ++ suf) e x (by rw [← hd]; exact hl)
    rw [← hd] at hb
    rw [hb]
    simp only
    have := ih (pre ++ genTxRecord e) suf { x with GenTxs := some (x.GenTxs.elems ++ [e]) } fuel
      (by rw [← hd']; exact hl) (by omega)
    rw [← hd'] at this
    simp only [List.length_append] at this
    rw [this]
    simp only [genTxRecords, List.length_append, appendGenTxs, List.foldl_cons, List.length_cons]
    congr 1
    · omega
    · omega

/-! ## Size, layout and decoding of marshalled messages -/

theorem varintSize_eq_length (v : Nat) : varintSize v = (varint v).length := by
  induction v using Nat.strong_induction_on with
  | _ v ih =>
    rw [varintSize, varint]
    by_cases h : v < 128
    · simp [h]
    · simp only [h, if_false, List.length_cons]
      rw [ih (v / 128) (by omega)]
      omega

theorem emitted_eq_genTxRecords (G : List (List Byte)) (h : ∀ e ∈ G, e.length < 2 ^ 63) :
    emitted G = genTxRecords G := by
  induction G with
  | nil => rfl
  | cons e es ih =>
    have he : e.length < 2 ^ 63 := h e (List.mem_cons_self _ _)
    simp only [emitted, genTxRecords, genTxRecord]
    rw [ih (fun a ha => h a (List.mem_cons_of_mem _ ha)), uint64_of_lt _ (by omega)]

theorem genTxRecords_length (G : List (List Byte)) :
    (genTxRecords G).length = (G.map fun e => 1 + varintSize e.length + e.length).sum := by
  induction G with
  | nil => rfl
  | cons e es ih =>
    simp only [genTxRecords, genTxRecord, List.length_append, List.length_cons, List.map_cons,
      List.sum_cons, ih, varintSize_eq_length]
    omega

theorem size_lt_elems (m : GenesisState) (hs : size (some m) < 2 ^ 63) :
    ∀ e ∈ m.GenTxs.elems, e.length < 2 ^ 63 := by
  rw [size_eq] at hs
  have key : ∀ (G : List (List Byte)), ∀ e ∈ G, e.length ≤ (emitted G).length := by
    intro G
    induction G with
    | nil => intro e he; simp at he
    | cons a as ih =>
      intro e he
      simp only [emitted, List.length_append, List.length_cons]
      rcases List.mem_cons.mp he with rfl | h
      · omega
      · have := ih e h
        omega
  intro e he
  have := key _ e he
  omega

/-- Claim C2. For every message, `marshal` called with an empty input buffer
(`nil`, or non-nil of length 0) returns, and the bytes it returns have length
exactly `size` of the message; on the nil message both are empty. -/
theorem C2_size_marshal_agreement (m : GenesisState) :
    (∃ bs, marshal (some m) none = .ret (some bs) ∧ bs.length = size (some m)) ∧
    (∃ bs, marshal (some m) (some []) = .ret (some bs) ∧ bs.length = size (some m)) ∧
    (marshal none none = .ret none ∧ size none = 0) := by
  refine ⟨⟨_, marshal_eq m none, ?_⟩, ⟨_, marshal_eq m (some []), ?_⟩, rfl, rfl⟩
  · rw [size_eq]
    simp [Slice.elems, Slice.len]
  · rw [size_eq]
    simp [Slice.elems, Slice.len]

/-- Claim C3. For every message whose elements have the length of a Go slice,
`marshal` with an empty input buffer returns the records of `GenTxs` in their
original order, each the tag byte `0x0a`, the minimal base-128 varint of the
length and the bytes, followed by the unknown-fields buffer verbatim; and
`GenTxs = ["a", "bb"]` marshals to `0a 01 61 0a 02 62 62`. -/
theorem C3_marshal_layout (m : GenesisState) (h : ∀ e ∈ m.GenTxs.elems, e.length < 2 ^ 63) :
    marshal (some m) none = .ret (some (wireLayout m)) ∧
    marshal (some m) (some []) = .ret (some (wireLayout m)) ∧
    marshal (some ⟨none, some [[0x61], [0x62, 0x62]]⟩) none
      = .ret (some [0x0a, 0x01, 0x61, 0x0a, 0x02, 0x62, 0x62]) := by
  refine ⟨?_, ?_, by decide⟩
  · rw [marshal_eq, emitted_eq_genTxRecords _ h]
    simp [wireLayout, Slice.elems]
  · rw [marshal_eq, emitted_eq_genTxRecords _ h]
    simp [wireLayout, Slice.elems]

/-- Witness of C3 on a message with two elements and two unknown bytes. -/
theorem C3_marshal_layout_witness :
    (∀ e ∈ (⟨some [0x10, 0x05], some [[0x61], [0x62, 0x62]]⟩ : GenesisState).GenTxs.elems,
      e.length < 2 ^ 63) ∧
    marshal (some ⟨some [0x10, 0x05], some [[0x61], [0x62, 0x62]]⟩) none
      = .ret (some (wireLayout ⟨some [0x10, 0x05], some [[0x61], [0x62, 0x62]]⟩)) :=
  ⟨by decide, (C3_marshal_layout ⟨some [0x10, 0x05], some [[0x61], [0x62, 0x62]]⟩ (by decide)).1⟩

/-- Claim C5. For every message whose elements have the length of a Go slice,
`size` is the sum over the elements `e` of `GenTxs` of
`1 + varint_size(len(e)) + len(e)`, plus the length of the unknown-fields
buffer, where `varint_size(v)` is the number of 7-bit groups needed to write
`v`: it is 1 for `v = 0`, and it is at most `k` exactly when `v < 2 ^ (7 k)`. -/
theorem C5_size_formula (m : GenesisState) (h : ∀ e ∈ m.GenTxs.elems, e.length < 2 ^ 63) :
    size (some m) = specSize m ∧ varintSize 0 = 1 ∧
    ∀ e ∈ m.GenTxs.elems, ∀ k, 1 ≤ k → (varintSize e.length ≤ k ↔ e.length < 2 ^ (7 * k)) := by
  refine ⟨?_, ?_, ?_⟩
  · rw [size_eq, emitted_eq_genTxRecords _ h, genTxRecords_length, specSize]
  · rw [varintSize]
    rfl
  · intro e he k hk
    have hl := h e he
    rw [varintSize_eq_length, varint_length _ (by omega)]
    exact Sov_le_iff _ k (by omega) hk

/-- Witness of C5 on a message with two elements and two unknown bytes. -/
theorem C5_size_formula_witness :
    (∀ e ∈ (⟨some [0x10, 0x05], some [[0x61], [0x62, 0x62]]⟩ : GenesisState).GenTxs.elems,
      e.length < 2 ^ 63) ∧
    size (some ⟨some [0x10, 0x05], some [[0x61], [0x62, 0x62]]⟩)
      = specSize ⟨some [0x10, 0x05], some [[0x61], [0x62, 0x62]]⟩ :=
  ⟨by decide, (C5_size_formula ⟨some [0x10, 0x05], some [[0x61], [0x62, 0x62]]⟩ (by decide)).1⟩

/-- Claim C6. On the message with no `GenTxs` elements and no unknown fields
(slices `nil`, or non-nil of length 0) `size` is 0 and `marshal` returns the
empty byte sequence; unmarshalling the empty byte sequence into an empty
message returns `nil` and leaves the message as it was. -/
theorem C6_empty_message :
    size (some emptyMessage) = 0 ∧ size (some ⟨some [], some []⟩) = 0 ∧
    marshal (some emptyMessage) none = .ret (some []) ∧
    marshal (some ⟨some [], some []⟩) none = .ret (some []) ∧
    unmarshal defaultOptions (some emptyMessage) [] = (some emptyMessage, .nil) ∧
    unmarshal defaultOptions (some ⟨some [], some []⟩) [] = (some ⟨some [], some []⟩, .nil) := by
  decide

theorem unmarshalMsg_genTxRecords (options : UnmarshalOptions) (G : List (List Byte))
    (x : GenesisState) (hl : (genTxRecords G).length < 2 ^ 63) :
    unmarshalMsg options x (genTxRecords G)
      = ⟨appendGenTxs x G, (genTxRecords G).length, .nil⟩ := by
  unfold unmarshalMsg
  have h := unmarshalLoop_genTxs options G [] [] x (genTxRecords G).length
    (by simpa using hl) (by simp)
  simp only [List.nil_append, List.append_nil, List.length_nil, Nat.zero_add] at h
  rw [h, unmarshalLoop_at_end _ _ _ _ _ rfl]

/-- Claim C4. For every message whose unknown-fields buffer is empty and whose
encoding has the length of a Go slice, unmarshalling the bytes `marshal`
returns into a fresh empty message returns `nil`, leaves in `GenTxs` exactly
the elements of the message in the same order, and leaves the unknown-fields
buffer `nil`; and the bytes `0a 01 61 0a 02 62 62` decode to
`GenTxs = ["a", "bb"]`. -/
theorem C4_decode_marshalled (m : GenesisState) (hu : m.unknownFields.len = 0)
    (hs : size (some m) < 2 ^ 63) :
    (∃ bs m', marshal (some m) none = .ret (some bs) ∧
      unmarshal defaultOptions (some emptyMessage) bs = (some m', .nil) ∧
      m'.GenTxs.elems = m.GenTxs.elems ∧ m'.unknownFields = none) ∧
    unmarshal defaultOptions (some emptyMessage) [0x0a, 0x01, 0x61, 0x0a, 0x02, 0x62, 0x62]
      = (some ⟨none, some [[0x61], [0x62, 0x62]]⟩, .nil) := by
  refine ⟨?_, by decide⟩
  have he := size_lt_elems m hs
  have hu' : m.unknownFields.elems = [] := List.length_eq_zero.mp hu
  have hsz : (genTxRecords m.GenTxs.elems).length < 2 ^ 63 := by
    rw [size_eq, emitted_eq_genTxRecords _ he, hu] at hs
    simpa using hs
  refine ⟨genTxRecords m.GenTxs.elems, appendGenTxs emptyMessage m.GenTxs.elems, ?_, ?_, ?_, ?_⟩
  · rw [marshal_eq, emitted_eq_genTxRecords _ he, hu']
    simp [Slice.elems]
  · simp only [unmarshal]
    rw [unmarshalMsg_genTxRecords _ _ _ hsz]
  · rw [appendGenTxs_elems]
    simp [emptyMessage, Slice.elems]
  · rw [appendGenTxs_unknownFields]
    rfl

/-- Witness of C4 on a message with three elements, one of them empty. -/
theorem C4_decode_marshalled_witness :
    (⟨none, some [[0x61], [], [0x62, 0x62]]⟩ : GenesisState).unknownFields.len = 0 ∧
    size (some ⟨none, some [[0x61], [], [0x62, 0x62]]⟩) < 2 ^ 63 ∧
    ∃ bs m', marshal (some ⟨none, some [[0x61], [], [0x62, 0x62]]⟩) none = .ret (some bs) ∧
      unmarshal defaultOptions (some emptyMessage) bs = (some m', .nil) ∧
      m'.GenTxs.elems = (⟨none, some [[0x61], [], [0x62, 0x62]]⟩ : GenesisState).GenTxs.elems ∧
      m'.unknownFields = none :=
  ⟨by decide, by decide,
    (C4_decode_marshalled ⟨none, some [[0x61], [], [0x62, 0x62]]⟩ (by decide) (by decide)).1⟩

/-! ## Malformed input -/

theorem varintLoop_cont (cont : List Byte) : ∀ (pre rest : List Byte) (fuel shift word : Nat),
    (∀ b ∈ cont, 128 ≤ b.val) → cont.length ≤ fuel → shift + 7 * cont.length ≤ 70 →
    ∃ word', varintLoop (pre ++ cont ++ rest) fuel shift pre.length word
      = varintLoop (pre ++ cont ++ rest) (fuel - cont.length) (shift + 7 * cont.length)
          (pre.length + cont.length) word' := by
  induction cont with
  | nil =>
    intro pre rest fuel shift word _ _ _
    exact ⟨word, by simp⟩
  | cons b cont ih =>
    intro pre rest fuel shift word hb hfuel hshift
    simp only [List.length_cons] at hfuel hshift
    obtain ⟨fuel, rfl⟩ : ∃ f, fuel = f + 1 := ⟨fuel - 1, by omega⟩
    have hb0 : 128 ≤ b.val := hb b (List.mem_cons_self _ _)
    have h1 : ¬ shift ≥ 64 := by omega
    have h2 : ¬ pre.length ≥ (pre ++ b :: cont ++ rest).length := by simp
    have h3 : (pre ++ b :: cont ++ rest)[pre.length]? = some b := by
      simp only [List.append_assoc, List.cons_append]
      exact getElem?_mid _ _ _
    obtain ⟨word', hw⟩ := ih (pre ++ [b]) rest fuel (shift + 7)
      (word ||| uint64 ((b.val &&& 0x7F) <<< shift))
      (fun a ha => hb a (List.mem_cons_of_mem _ ha)) (by omega) (by omega)
    refine ⟨word', ?_⟩
    rw [varintLoop, if_neg h1, if_neg h2, h3]
    simp only
    rw [if_neg (by omega)]
    simp only [List.append_assoc, List.singleton_append, List.cons_append, List.nil_append,
      List.length_append, List.length_singleton, List.length_cons, List.length_nil,
      Nat.zero_add] at hw ⊢
    rw [hw]
    congr 1 <;> omega

theorem varintLoop_overflow (pre ten rest : List Byte) (hlen : ten.length = 10)
    (hb : ∀ b ∈ ten, 128 ≤ b.val) :
    varintLoop (pre ++ ten ++ rest) varintFuel 0 pre.length 0
      = .fail (.error .ErrIntOverflow) (pre.length + 10) := by
  obtain ⟨word', hw⟩ := varintLoop_cont ten pre rest varintFuel 0 0 hb
    (by rw [hlen]; decide) (by rw [hlen])
  rw [hw, hlen]
  simp [varintFuel, varintLoop]

theorem varintLoop_truncated (pre cont : List Byte) (hlen : cont.length ≤ 9)
    (hb : ∀ b ∈ cont, 128 ≤ b.val) :
    varintLoop (pre ++ cont) varintFuel 0 pre.length 0
      = .fail (.error .ErrUnexpectedEOF) (pre.length + cont.length) := by
  obtain ⟨word', hw⟩ := varintLoop_cont cont pre [] varintFuel 0 0 hb
    (by unfold varintFuel; omega) (by omega)
  rw [List.append_nil] at hw
  rw [hw]
  obtain ⟨f, hf⟩ : ∃ f, varintFuel - cont.length = f + 1 :=
    ⟨varintFuel - cont.length - 1, by unfold varintFuel; omega⟩
  rw [hf, varintLoop, if_neg (by omega), if_pos (by simp)]

theorem unmarshalLoop_stop (options : UnmarshalOptions) (d : List Byte) (fuel : Nat)
    (x : GenesisState) (i : Nat) (r : Decoded) (hi : i < d.length)
    (h : unmarshalBody options d x i = .stop r) :
    unmarshalLoop options d (fuel + 1) x i = r := by
  rw [unmarshalLoop, if_pos hi, h]

theorem unmarshalLoop_next (options : UnmarshalOptions) (d : List Byte) (fuel : Nat)
    (x x' : GenesisState) (i j : Nat) (hi : i < d.length)
    (h : unmarshalBody options d x i = .next (x', j)) :
    unmarshalLoop options d (fuel + 1) x i = unmarshalLoop options d fuel x' j := by
  rw [unmarshalLoop, if_pos hi, h]

theorem unmarshalBody_tag_fail (options : UnmarshalOptions) (d : List Byte) (x : GenesisState)
    (i j : Nat) (s : Status) (h : varintLoop d varintFuel 0 i 0 = .fail s j) :
    unmarshalBody options d x i = .stop ⟨x, j, s⟩ := by
  unfold unmarshalBody
  simp only [h]

theorem unmarshalBody_endGroup (options : UnmarshalOptions) (d : List Byte) (x : GenesisState)
    (i j wire : Nat) (h : varintLoop d varintFuel 0 i 0 = .done wire j) (hw : wire &&& 0x7 = 4) :
    unmarshalBody options d x i = .stop ⟨x, j, .error .endGroupForNonGroup⟩ := by
  unfold unmarshalBody
  simp only [h, hw, if_true]

theorem unmarshalBody_illegalTag (options : UnmarshalOptions) (d : List Byte) (x : GenesisState)
    (i j wire : Nat) (h : varintLoop d varintFuel 0 i 0 = .done wire j) (hw : wire &&& 0x7 ≠ 4)
    (hf : int32 ((wire >>> 3 : Nat) : Int) ≤ 0) :
    unmarshalBody options d x i
      = .stop ⟨x, j, .error (.illegalTag (int32 ((wire >>> 3 : Nat) : Int)) wire)⟩ := by
  unfold unmarshalBody
  simp only [h, hw, hf, if_true, if_false]

theorem unmarshalBody_len_fail (options : UnmarshalOptions) (d : List Byte) (x : GenesisState)
    (i j k : Nat) (s : Status) (h : varintLoop d varintFuel 0 i 0 = .done 10 j)
    (hl : varintLoop d varintFuel 0 j 0 = .fail s k) :
    unmarshalBody options d x i = .stop ⟨x, k, s⟩ := by
  have hf : int32 ((10 >>> 3 : Nat) : Int) = 1 := by decide
  have hw : (10 : Nat) &&& 0x7 = 2 := by decide
  unfold unmarshalBody
  simp only [h, hf, hw, hl]
  simp

theorem varintLoop_tag_byte (pre rest : List Byte) :
    varintLoop (pre ++ 0x0a :: rest) varintFuel 0 pre.length 0 = .done 10 (pre.length + 1) := by
  have := varintLoop_varint_top 10 pre rest (by norm_num)
  rw [varint_ten] at this
  simpa using this

theorem varintLoop_done_lt (d : List Byte) (fuel : Nat) : ∀ (shift i word w j : Nat),
    word < 2 ^ 64 → varintLoop d fuel shift i word = .done w j → w < 2 ^ 64 := by
  induction fuel with
  | zero =>
    intro shift i word w j _ h
    simp [varintLoop] at h
  | succ fuel ih =>
    intro shift i word w j hword h
    rw [varintLoop] at h
    split at h
    · simp at h
    · split at h
      · simp at h
      · split at h
        · simp at h
        · rename_i b _
          have hor : word ||| uint64 ((b.val &&& 0x7F) <<< shift) < 2 ^ 64 :=
            Nat.or_lt_two_pow hword (uint64_lt _)
          simp only at h
          split at h
          · simp at h
            omega
          · exact ih _ _ _ w j hor h

/-- Claim C9. Ten bytes that all carry the continuation bit make the decoder
return the integer-overflow error, whether they stand where a tag varint is
read (at any record position `pre.length`, and so at the start of the input)
or where the length varint of a field-1 record is read; the cursor at the
return shows that exactly ten bytes of the varint were read, whatever follows
them, and the message is left as it was. -/
theorem C9_varint_overflow (options : UnmarshalOptions) (x : GenesisState)
    (pre ten rest : List Byte) (fuel : Nat) (hlen : ten.length = 10)
    (hb : ∀ b ∈ ten, 0x80 ≤ b.val) :
    unmarshalLoop options (pre ++ ten ++ rest) (fuel + 1) x pre.length
      = ⟨x, pre.length + 10, .error .ErrIntOverflow⟩ ∧
    unmarshalLoop options (pre ++ 0x0a :: (ten ++ rest)) (fuel + 1) x pre.length
      = ⟨x, pre.length + 11, .error .ErrIntOverflow⟩ ∧
    unmarshal options (some x) (ten ++ rest) = (some x, .error .ErrIntOverflow) ∧
    unmarshal options (some x) (0x0a :: (ten ++ rest)) = (some x, .error .ErrIntOverflow) := by
  have tagCase : ∀ (pre : List Byte) (fuel : Nat),
      unmarshalLoop options (pre ++ ten ++ rest) (fuel + 1) x pre.length
        = ⟨x, pre.length + 10, .error .ErrIntOverflow⟩ := by
    intro pre fuel
    apply unmarshalLoop_stop
    · simp only [List.length_append]
      omega
    · exact unmarshalBody_tag_fail _ _ _ _ _ _ (varintLoop_overflow pre ten rest hlen hb)
  have lenCase : ∀ (pre : List Byte) (fuel : Nat),
      unmarshalLoop options (pre ++ 0x0a :: (ten ++ rest)) (fuel + 1) x pre.length
        = ⟨x, pre.length + 11, .error .ErrIntOverflow⟩ := by
    intro pre fuel
    apply unmarshalLoop_stop
    · simp
    · apply unmarshalBody_len_fail _ _ _ _ (pre.length + 1) _ _ (varintLoop_tag_byte pre _)
      have := varintLoop_overflow (pre ++ [0x0a]) ten rest hlen hb
      simpa [Nat.add_assoc] using this
  refine ⟨tagCase pre fuel, lenCase pre fuel, ?_, ?_⟩
  · have h := tagCase [] (ten.length + rest.length - 1)
    simp only [unmarshal, unmarshalMsg, List.length_append]
    have e : ten.length + rest.length = ten.length + rest.length - 1 + 1 := by omega
    rw [e]
    simp only [List.nil_append, List.length_nil] at h
    rw [h]
  · have h := lenCase [] (ten.length + rest.length)
    simp only [unmarshal, unmarshalMsg, List.length_cons, List.length_append]
    simp only [List.nil_append, List.length_nil] at h
    rw [h]

/-- Witness of C9: ten bytes `0xff` after one decoded record, followed by a
well-formed record. -/
theorem C9_varint_overflow_witness :
    ([0xff, 0xff, 0xff, 0xff, 0xff, 0xff, 0xff, 0xff, 0xff, 0xff] : List Byte).length = 10 ∧
    (∀ b ∈ ([0xff, 0xff, 0xff, 0xff, 0xff, 0xff, 0xff, 0xff, 0xff, 0xff] : List Byte),
      0x80 ≤ b.val) ∧
    unmarshalLoop defaultOptions
      ([0x0a, 0x00] ++ [0xff, 0xff, 0xff, 0xff, 0xff, 0xff, 0xff, 0xff, 0xff, 0xff] ++ [0x0a, 0x00])
      (0 + 1) ⟨none, some [[]]⟩ ([0x0a, 0x00] : List Byte).length
      = ⟨⟨none, some [[]]⟩, ([0x0a, 0x00] : List Byte).length + 10, .error .ErrIntOverflow⟩ :=
  ⟨by decide,
    by
      intro b hb
      simp only [List.mem_cons, List.mem_singleton, List.not_mem_nil, or_false, or_self] at hb
      subst hb
      decide,
    (C9_varint_overflow defaultOptions ⟨none, some [[]]⟩ [0x0a, 0x00]
      [0xff, 0xff, 0xff, 0xff, 0xff, 0xff, 0xff, 0xff, 0xff, 0xff] [0x0a, 0x00] 0
      (by decide)
      (by
        intro b hb
        simp only [List.mem_cons, List.mem_singleton, List.not_mem_nil, or_false, or_self] at hb
        subst hb
        decide)).1⟩

/-- Claim C10. At every record position the decoder reaches, once the tag is
read: a tag of wire type 4 makes the call return the end-group error, and
otherwise a field number (`int32(wire >> 3)`) that is zero or negative makes it
return the illegal-tag error; in both cases the message is returned as it was,
nothing being appended to `GenTxs` or to the unknown-fields buffer. -/
theorem C10_tag_validation (options : UnmarshalOptions) (x : GenesisState) (d : List Byte)
    (i j wire fuel : Nat) (hi : i < d.length)
    (htag : varintLoop d varintFuel 0 i 0 = .done wire j) :
    (wire &&& 0x7 = 4 →
      unmarshalLoop options d (fuel + 1) x i = ⟨x, j, .error .endGroupForNonGroup⟩) ∧
    (wire &&& 0x7 ≠ 4 → int32 ((wire >>> 3 : Nat) : Int) ≤ 0 →
      unmarshalLoop options d (fuel + 1) x i
        = ⟨x, j, .error (.illegalTag (int32 ((wire >>> 3 : Nat) : Int)) wire)⟩) ∧
    (wire &&& 0x7 ≠ 4 → wire >>> 3 = 0 →
      unmarshalLoop options d (fuel + 1) x i = ⟨x, j, .error (.illegalTag 0 wire)⟩) ∧
    (i = 0 → wire &&& 0x7 = 4 →
      unmarshal options (some x) d = (some x, .error .endGroupForNonGroup)) ∧
    (i = 0 → wire &&& 0x7 ≠ 4 → int32 ((wire >>> 3 : Nat) : Int) ≤ 0 →
      unmarshal options (some x) d
        = (some x, .error (.illegalTag (int32 ((wire >>> 3 : Nat) : Int)) wire))) := by
  have h4 : ∀ fuel, wire &&& 0x7 = 4 →
      unmarshalLoop options d (fuel + 1) x i = ⟨x, j, .error .endGroupForNonGroup⟩ :=
    fun fuel hw => unmarshalLoop_stop _ _ _ _ _ _ hi (unmarshalBody_endGroup _ _ _ _ _ _ htag hw)
  have h0 : ∀ fuel, wire &&& 0x7 ≠ 4 → int32 ((wire >>> 3 : Nat) : Int) ≤ 0 →
      unmarshalLoop options d (fuel + 1) x i
        = ⟨x, j, .error (.illegalTag (int32 ((wire >>> 3 : Nat) : Int)) wire)⟩ :=
    fun fuel hw hf =>
      unmarshalLoop_stop _ _ _ _ _ _ hi (unmarshalBody_illegalTag _ _ _ _ _ _ htag hw hf)
  have hd : d.length = d.length - 1 + 1 := by omega
  refine ⟨h4 fuel, h0 fuel, ?_, ?_, ?_⟩
  · intro hw hz
    have := h0 fuel hw (by rw [hz]; decide)
    rw [this, hz]
    rfl
  · intro hi0 hw
    subst hi0
    simp only [unmarshal, unmarshalMsg]
    rw [hd, h4 _ hw]
  · intro hi0 hw hf
    subst hi0
    simp only [unmarshal, unmarshalMsg]
    rw [hd, h0 _ hw hf]

/-- Witness of C10: an end-group tag (`0x0c`) and a tag of field number 0
(`0x02`), each after one decoded record. -/
theorem C10_tag_validation_witness :
    (2 < ([0x0a, 0x00, 0x0c] : List Byte).length ∧
      varintLoop [0x0a, 0x00, 0x0c] varintFuel 0 2 0 = .done 12 3 ∧
      unmarshalLoop defaultOptions [0x0a, 0x00, 0x0c] (0 + 1) ⟨none, some [[]]⟩ 2
        = ⟨⟨none, some [[]]⟩, 3, .error .endGroupForNonGroup⟩) ∧
    (2 < ([0x0a, 0x00, 0x02] : List Byte).length ∧
      varintLoop [0x0a, 0x00, 0x02] varintFuel 0 2 0 = .done 2 3 ∧
      unmarshalLoop defaultOptions [0x0a, 0x00, 0x02] (0 + 1) ⟨none, some [[]]⟩ 2
        = ⟨⟨none, some [[]]⟩, 3, .error (.illegalTag 0 2)⟩) :=
  ⟨⟨by decide, by decide,
      (C10_tag_validation defaultOptions ⟨none, some [[]]⟩ [0x0a, 0x00, 0x0c] 2 3 12 0
        (by decide) (by decide)).1 (by decide)⟩,
    ⟨by decide, by decide,
      (C10_tag_validation defaultOptions ⟨none, some [[]]⟩ [0x0a, 0x00, 0x02] 2 3 2 0
        (by decide) (by decide)).2.2.1 (by decide) (by decide)⟩⟩

theorem unmarshalBody_len_too_long (options : UnmarshalOptions) (d : List Byte)
    (x : GenesisState) (i j k w : Nat) (hl : d.length < 2 ^ 63)
    (htag : varintLoop d varintFuel 0 i 0 = .done 10 j)
    (hlen : varintLoop d varintFuel 0 j 0 = .done w k) (hw : d.length - k < w) :
    unmarshalBody options d x i
      = .stop ⟨x, k, .error (if int64 w < 0 ∨ int64 (k + int64 w) < 0 then .ErrInvalidLength
          else .ErrUnexpectedEOF)⟩ := by
  have hf : int32 ((10 >>> 3 : Nat) : Int) = 1 := by decide
  have hwt : (10 : Nat) &&& 0x7 = 2 := by decide
  have hk := (varintLoop_done_bounds d _ _ _ _ _ _ hlen).2
  have hw64 := varintLoop_done_lt d _ _ _ _ _ _ (by norm_num) hlen
  unfold unmarshalBody
  simp only [htag, hf, hwt, hlen]
  by_cases h1 : int64 w < 0
  · simp [h1]
  · have hw63 : (w : Int) < 2 ^ 63 := by
      unfold int64 at h1
      omega
    have hw' : int64 (w : Int) = w := int64_of_lt _ (by omega) hw63
    by_cases h2 : int64 (k + int64 w) < 0
    · simp [h1, h2]
    · have hp : int64 ((k : Int) + int64 (w : Int)) = k + w := by
        rw [hw'] at h2 ⊢
        unfold int64 at h2 ⊢
        omega
      have h3 : int64 ((k : Int) + int64 (w : Int)) > (d.length : Int) := by
        rw [hp]
        omega
      simp [h1, h2, h3]

/-- Claim C8. At a record position of a Go-sized input whose tag is that of a
field-1 record (`0x0a`): if the input ends inside the length varint (every
remaining byte carries the continuation bit) the call returns the unexpected
end-of-input error; and if the length varint is complete but declares more
bytes than remain after it, the call returns the invalid-length error when the
length or the end position is negative as a Go `int`, and the unexpected
end-of-input error otherwise. In each case the message is left as it was, and
the call ends with an error, not with `nil`, a panic from an index out of
range, or a loop that does not end. -/
theorem C8_truncation (options : UnmarshalOptions) (x : GenesisState) (pre rest : List Byte)
    (fuel : Nat) (hl : (pre ++ 0x0a :: rest).length < 2 ^ 63) :
    (rest.length ≤ 9 → (∀ b ∈ rest, 0x80 ≤ b.val) →
      unmarshalLoop options (pre ++ 0x0a :: rest) (fuel + 1) x pre.length
        = ⟨x, (pre ++ 0x0a :: rest).length, .error .ErrUnexpectedEOF⟩) ∧
    (∀ w k, varintLoop (pre ++ 0x0a :: rest) varintFuel 0 (pre.length + 1) 0 = .done w k →
      (pre ++ 0x0a :: rest).length - k < w →
      unmarshalLoop options (pre ++ 0x0a :: rest) (fuel + 1) x pre.length
        = ⟨x, k, .error (if int64 w < 0 ∨ int64 (k + int64 w) < 0 then .ErrInvalidLength
            else .ErrUnexpectedEOF)⟩) ∧
    (rest.length ≤ 9 → (∀ b ∈ rest, 0x80 ≤ b.val) →
      unmarshal options (some x) (0x0a :: rest) = (some x, .error .ErrUnexpectedEOF)) ∧
    (∀ w k, varintLoop (0x0a :: rest) varintFuel 0 1 0 = .done w k →
      (0x0a :: rest).length - k < w →
      unmarshal options (some x) (0x0a :: rest)
        = (some x, .error (if int64 w < 0 ∨ int64 (k + int64 w) < 0 then .ErrInvalidLength
            else .ErrUnexpectedEOF))) := by
  have hpos : ∀ pre : List Byte, pre.length < (pre ++ 0x0a :: rest).length := by
    intro pre
    simp
  have cut : ∀ (pre : List Byte) (fuel : Nat), rest.length ≤ 9 → (∀ b ∈ rest, 0x80 ≤ b.val) →
      unmarshalLoop options (pre ++ 0x0a :: rest) (fuel + 1) x pre.length
        = ⟨x, (pre ++ 0x0a :: rest).length, .error .ErrUnexpectedEOF⟩ := by
    intro pre fuel h9 hb
    apply unmarshalLoop_stop _ _ _ _ _ _ (hpos pre)
    have ht := varintLoop_truncated (pre ++ [0x0a]) rest h9 hb
    simp only [List.append_assoc, List.singleton_append, List.length_append,
      List.length_singleton] at ht
    have := unmarshalBody_len_fail options (pre ++ 0x0a :: rest) x pre.length (pre.length + 1)
      _ _ (varintLoop_tag_byte pre rest) ht
    rw [this]
    simp only [List.length_append, List.length_cons]
    congr 2
    omega
  have long : ∀ (pre : List Byte) (fuel : Nat), (pre ++ 0x0a :: rest).length < 2 ^ 63 →
      ∀ w k, varintLoop (pre ++ 0x0a :: rest) varintFuel 0 (pre.length + 1) 0 = .done w k →
      (pre ++ 0x0a :: rest).length - k < w →
      unmarshalLoop options (pre ++ 0x0a :: rest) (fuel + 1) x pre.length
        = ⟨x, k, .error (if int64 w < 0 ∨ int64 (k + int64 w) < 0 then .ErrInvalidLength
            else .ErrUnexpectedEOF)⟩ := by
    intro pre fuel hl w k hlen hw
    apply unmarshalLoop_stop _ _ _ _ _ _ (hpos pre)
    exact unmarshalBody_len_too_long options _ x _ _ _ _ hl (varintLoop_tag_byte pre rest) hlen hw
  refine ⟨cut pre fuel, long pre fuel hl, ?_, ?_⟩
  · intro h9 hb
    have := cut [] rest.length h9 hb
    simp only [List.nil_append, List.length_nil, List.length_cons] at this
    simp only [unmarshal, unmarshalMsg, List.length_cons]
    rw [this]
  · intro w k hlen hw
    have hl' : (([] : List Byte) ++ 0x0a :: rest).length < 2 ^ 63 := by
      simp only [List.length_append, List.length_cons, List.nil_append] at hl ⊢
      omega
    have := long [] rest.length hl' w k (by simpa using hlen) (by simpa using hw)
    simp only [List.nil_append, List.length_nil] at this
    simp only [unmarshal, unmarshalMsg, List.length_cons]
    rw [this]

/-- Witness of C8: after one decoded record, a field-1 record whose length
varint `0x85` is cut off, and one that declares 5 bytes where 1 remains. -/
theorem C8_truncation_witness :
    (([0x0a, 0x00] ++ 0x0a :: [0x85] : List Byte).length < 2 ^ 63 ∧
      unmarshalLoop defaultOptions ([0x0a, 0x00] ++ 0x0a :: [0x85]) (0 + 1) ⟨none, some [[]]⟩
        ([0x0a, 0x00] : List Byte).length
        = ⟨⟨none, some [[]]⟩, ([0x0a, 0x00] ++ 0x0a :: [0x85] : List Byte).length,
            .error .ErrUnexpectedEOF⟩) ∧
    (([0x0a, 0x00] ++ 0x0a :: [0x05, 0x61] : List Byte).length < 2 ^ 63 ∧
      unmarshalLoop defaultOptions ([0x0a, 0x00] ++ 0x0a :: [0x05, 0x61]) (0 + 1)
        ⟨none, some [[]]⟩ ([0x0a, 0x00] : List Byte).length
        = ⟨⟨none, some [[]]⟩, 4,
            .error (if int64 (5 : Nat) < 0 ∨ int64 ((4 : Nat) + int64 (5 : Nat)) < 0
              then .ErrInvalidLength else .ErrUnexpectedEOF)⟩) :=
  ⟨⟨by decide,
      (C8_truncation defaultOptions ⟨none, some [[]]⟩ [0x0a, 0x00] [0x85] 0 (by decide)).1
        (by decide)
        (by
          intro b hb
          simp only [List.mem_singleton] at hb
          subst hb
          decide)⟩,
    ⟨by decide,
      (C8_truncation defaultOptions ⟨none, some [[]]⟩ [0x0a, 0x00] [0x05, 0x61] 0
        (by decide)).2.1 5 4 (by decide) (by decide)⟩⟩

/-! ## Skipping a record -/

theorem varintLoop_complete (pre cont rest : List Byte) (last : Byte) (hlen : cont.length ≤ 9)
    (hb : ∀ b ∈ cont, 128 ≤ b.val) (hlast : last.val < 128) :
    ∃ w, varintLoop (pre ++ cont ++ last :: rest) varintFuel 0 pre.length 0
      = .done w (pre.length + cont.length + 1) := by
  obtain ⟨word', hw⟩ := varintLoop_cont cont pre (last :: rest) varintFuel 0 0 hb
    (by unfold varintFuel; omega) (by omega)
  obtain ⟨f, hf⟩ : ∃ f, varintFuel - cont.length = f + 1 :=
    ⟨varintFuel - cont.length - 1, by unfold varintFuel; omega⟩
  refine ⟨word' ||| uint64 ((last.val &&& 0x7F) <<< (0 + 7 * cont.length)), ?_⟩
  rw [hw, hf, varintLoop, if_neg (by omega), if_neg (by simp)]
  have h3 : (pre ++ cont ++ last :: rest)[pre.length + cont.length]? = some last := by
    have := getElem?_mid (pre ++ cont) rest last
    simpa using this
  rw [h3]
  simp only
  rw [if_pos hlast]

theorem skipLoop_stop (d : List Byte) (fuel i depth : Nat) (r : Skipped) (hi : i < d.length)
    (h : skipBody d i depth = .stop r) : skipLoop d (fuel + 1) i depth = r := by
  rw [skipLoop, if_pos hi, h]

theorem Skip_of_body (d : List Byte) (r : Skipped) (hd : 0 < d.length)
    (h : skipBody d 0 0 = .stop r) : Skip d = r := by
  unfold Skip
  obtain ⟨f, hf⟩ : ∃ f, d.length = f + 1 := ⟨d.length - 1, by omega⟩
  rw [hf]
  exact skipLoop_stop d f 0 0 r hd h

theorem varintLoop_first_byte (b : Byte) (rest : List Byte) (hb : b.val < 128) :
    varintLoop (b :: rest) varintFuel 0 0 0 = .done b.val 1 := by
  have hv : varint b.val = [b] := by
    rw [varint, if_pos hb]
    congr 1
    apply Fin.ext
    rw [uint8_val _ b.isLt]
  have := varintLoop_varint_top b.val [] rest (by have := b.isLt; omega)
  rw [hv] at this
  simpa using this

theorem Skip_field2Record (v : WireValue) (suf : List Byte) (hv : v.wellFormed)
    (hl : (field2Record v ++ suf).length < 2 ^ 63) :
    Skip (field2Record v ++ suf) = ⟨(field2Record v).length, .nil⟩ := by
  apply Skip_of_body _ _ (by simp [field2Record])
  cases v with
  | varint cont last =>
    obtain ⟨h9, hb, hlast⟩ := hv
    have htag : varintLoop (field2Record (.varint cont last) ++ suf) varintFuel 0 0 0
        = .done 16 1 := by
      have := varintLoop_first_byte 16 (cont ++ [last] ++ suf) (by decide)
      simpa [field2Record, WireValue.encode, WireValue.wireType, uint8] using this
    obtain ⟨w, hw⟩ := varintLoop_complete [16] cont suf last h9 hb hlast
    have hval : varintLoop (field2Record (.varint cont last) ++ suf) varintFuel 0 1 0
        = .done w (1 + cont.length + 1) := by
      simpa [field2Record, WireValue.encode, WireValue.wireType, uint8] using hw
    unfold skipBody
    simp only [htag, hval]
    have e0 : (16 : Nat) &&& 0x7 = 0 := by decide
    have hrec : (field2Record (.varint cont last)).length = 1 + cont.length + 1 := by
      simp [field2Record, WireValue.encode]
      omega
    simp only [e0, if_true, skipAfter, hrec]
    rw [if_neg (by omega)]
  | fixed64 bytes =>
    have hb : bytes.length = 8 := hv
    have htag : varintLoop (field2Record (.fixed64 bytes) ++ suf) varintFuel 0 0 0
        = .done 17 1 := by
      have := varintLoop_first_byte 17 (bytes ++ suf) (by decide)
      simpa [field2Record, WireValue.encode, WireValue.wireType, uint8] using this
    unfold skipBody
    simp only [htag]
    have e0 : (17 : Nat) &&& 0x7 = 1 := by decide
    have e1 : int64 (((1 : Nat) : Int) + 8) = 9 := by decide
    simp only [e0, skipAfter, e1]
    simp [field2Record, WireValue.encode, hb]
  | lengthDelimited payload =>
    have hp : payload.length < 2 ^ 63 := by
      simp only [field2Record, WireValue.encode, List.length_append, List.length_cons] at hl
      omega
    have htag : varintLoop (field2Record (.lengthDelimited payload) ++ suf) varintFuel 0 0 0
        = .done 18 1 := by
      have := varintLoop_first_byte 18 (varint payload.length ++ payload ++ suf) (by decide)
      simpa [field2Record, WireValue.encode, WireValue.wireType, uint8] using this
    have hlen : varintLoop (field2Record (.lengthDelimited payload) ++ suf) varintFuel 0 1 0
        = .done payload.length (1 + (varint payload.length).length) := by
      have := varintLoop_varint_top payload.length [18] (payload ++ suf) (by omega)
      simpa [field2Record, WireValue.encode, WireValue.wireType, uint8] using this
    have h1 : int64 (payload.length : Int) = payload.length :=
      int64_of_lt _ (by omega) (by omega)
    have h2 : int64 (((1 + (varint payload.length).length : Nat) : Int) + (payload.length : Int))
        = ((1 + (varint payload.length).length + payload.length : Nat) : Int) := by
      rw [int64_of_lt]
      · push_cast
        ring
      · omega
      · simp only [field2Record, WireValue.encode, List.length_append, List.length_cons] at hl
        omega
    unfold skipBody
    have e0 : (18 : Nat) &&& 0x7 = 2 := by decide
    have hrec : (field2Record (.lengthDelimited payload)).length
        = 1 + (varint payload.length).length + payload.length := by
      simp [field2Record, WireValue.encode]
      omega
    simp only [htag, hlen, e0, h1, h2, skipAfter, hrec]
    have n1 : ¬ ((payload.length : Int) < 0) := by omega
    have n2 : ¬ (((1 + (varint payload.length).length + payload.length : Nat) : Int) < 0) := by
      omega
    simp [n1, n2]
    omega
  | fixed32 bytes =>
    have hb : bytes.length = 4 := hv
    have htag : varintLoop (field2Record (.fixed32 bytes) ++ suf) varintFuel 0 0 0
        = .done 21 1 := by
      have := varintLoop_first_byte 21 (bytes ++ suf) (by decide)
      simpa [field2Record, WireValue.encode, WireValue.wireType, uint8] using this
    unfold skipBody
    simp only [htag]
    have e0 : (21 : Nat) &&& 0x7 = 5 := by decide
    have e1 : int64 (((1 : Nat) : Int) + 4) = 5 := by decide
    simp only [e0, skipAfter, e1]
    simp [field2Record, WireValue.encode, hb]

/-! ## Decoding a record of an undeclared field -/

theorem varintLoop_one_byte (pre rest : List Byte) (b : Byte) (hb : b.val < 128) :
    varintLoop (pre ++ b :: rest) varintFuel 0 pre.length 0 = .done b.val (pre.length + 1) := by
  have hv : varint b.val = [b] := by
    rw [varint, if_pos hb]
    congr 1
    apply Fin.ext
    rw [uint8_val _ b.isLt]
  have := varintLoop_varint_top b.val pre rest (by have := b.isLt; omega)
  rw [hv] at this
  simpa using this

theorem unmarshalBody_unknown (options : UnmarshalOptions) (pre record suf : List Byte)
    (x : GenesisState) (wire j : Nat) (hl : (pre ++ record ++ suf).length < 2 ^ 63)
    (htag : varintLoop (pre ++ record ++ suf) varintFuel 0 pre.length 0 = .done wire j)
    (hwt : wire &&& 0x7 ≠ 4) (hfn : 1 < int32 ((wire >>> 3 : Nat) : Int))
    (hskip : Skip (record ++ suf) = ⟨record.length, .nil⟩) :
    unmarshalBody options (pre ++ record ++ suf) x pre.length
      = .next (if !options.DiscardUnknown then
            { x with unknownFields := goAppend x.unknownFields record } else x,
          pre.length + record.length) := by
  have hs1 : slice (pre ++ record ++ suf) (pre.length : Int)
      ((pre ++ record ++ suf).length : Nat) = some (record ++ suf) := by
    rw [slice_to_end _ _ (by simp only [List.length_append]; omega), List.append_assoc,
      List.drop_left' rfl]
  have hp : int64 ((pre.length : Int) + (record.length : Int))
      = (pre.length : Int) + (record.length : Int) := by
    apply int64_of_lt _ (by omega)
    simp only [List.length_append] at hl
    omega
  have hs2 : slice (pre ++ record ++ suf) (pre.length : Int)
      ((pre.length : Int) + (record.length : Int)) = some record :=
    slice_mid pre record suf _ _ rfl rfl
  have c1 : ¬ int32 ((wire >>> 3 : Nat) : Int) ≤ 0 := by omega
  have c2 : ¬ int32 ((wire >>> 3 : Nat) : Int) = 1 := by omega
  have c3 : ¬ ((record.length : Int) < 0 ∨ (pre.length : Int) + (record.length : Int) < 0) := by
    omega
  have c4 : ¬ ((pre.length : Int) + (record.length : Int)
      > ((pre ++ record ++ suf).length : Nat)) := by
    simp only [List.length_append]
    omega
  have c5 : ((pre.length : Int) + (record.length : Int)).toNat = pre.length + record.length := by
    omega
  unfold unmarshalBody
  simp only [htag, hwt, c1, c2, if_false, hs1, hskip, ne_eq, not_true_eq_false, hp, c3, c4, hs2,
    c5]

theorem field2Record_tag (v : WireValue) :
    ∃ t : Byte, field2Record v = t :: v.encode ∧ t.val < 128 ∧ t.val &&& 0x7 ≠ 4 ∧
      1 < int32 ((t.val >>> 3 : Nat) : Int) := by
  have t0 : uint8 (2 <<< 3 ||| 0) = 16 := by decide
  have t1 : uint8 (2 <<< 3 ||| 1) = 17 := by decide
  have t2 : uint8 (2 <<< 3 ||| 2) = 18 := by decide
  have t5 : uint8 (2 <<< 3 ||| 5) = 21 := by decide
  cases v with
  | varint cont last =>
    exact ⟨16, by simp only [field2Record, WireValue.wireType, t0], by decide, by decide,
      by decide⟩
  | fixed64 bytes =>
    exact ⟨17, by simp only [field2Record, WireValue.wireType, t1], by decide, by decide,
      by decide⟩
  | lengthDelimited payload =>
    exact ⟨18, by simp only [field2Record, WireValue.wireType, t2], by decide, by decide,
      by decide⟩
  | fixed32 bytes =>
    exact ⟨21, by simp only [field2Record, WireValue.wireType, t5], by decide, by decide,
      by decide⟩

theorem unmarshalBody_field2 (options : UnmarshalOptions) (pre suf : List Byte) (v : WireValue)
    (x : GenesisState) (hv : v.wellFormed)
    (hl : (pre ++ field2Record v ++ suf).length < 2 ^ 63) :
    unmarshalBody options (pre ++ field2Record v ++ suf) x pre.length
      = .next (if !options.DiscardUnknown then
            { x with unknownFields := goAppend x.unknownFields (field2Record v) } else x,
          pre.length + (field2Record v).length) := by
  obtain ⟨t, ht, h128, hwt, hfn⟩ := field2Record_tag v
  have htag : varintLoop (pre ++ field2Record v ++ suf) varintFuel 0 pre.length 0
      = .done t.val (pre.length + 1) := by
    have := varintLoop_one_byte pre (v.encode ++ suf) t h128
    rw [ht]
    simpa using this
  apply unmarshalBody_unknown options pre (field2Record v) suf x _ _ hl htag hwt hfn
  apply Skip_field2Record v suf hv
  simp only [List.length_append] at hl ⊢
  omega

/-! ## What one turn of the decoding loop does -/

/-- One turn of the decoding loop either returns an error (or panics) and
leaves the message as it was, or decodes a field-1 record into `GenTxs`, or
skips a record of another field into the unknown-fields buffer. -/
theorem unmarshalBody_cases (options : UnmarshalOptions) (d : List Byte) (x : GenesisState)
    (i : Nat) :
    (∃ r, unmarshalBody options d x i = .stop r ∧ r.status ≠ .nil ∧ r.x = x) ∨
    (∃ wire j₁ word j₂ b, varintLoop d varintFuel 0 i 0 = .done wire j₁ ∧
      int32 ((wire >>> 3 : Nat) : Int) = 1 ∧ wire &&& 0x7 = 2 ∧
      varintLoop d varintFuel 0 j₁ 0 = .done word j₂ ∧ 0 ≤ int64 word ∧
      0 ≤ int64 (j₂ + int64 word) ∧ int64 (j₂ + int64 word) ≤ d.length ∧
      slice d j₂ (int64 (j₂ + int64 word)) = some b ∧
      unmarshalBody options d x i
        = .next ({ x with GenTxs := some (x.GenTxs.elems ++ [b]) },
            (int64 (j₂ + int64 word)).toNat)) ∨
    (∃ wire j₁ rest raw, varintLoop d varintFuel 0 i 0 = .done wire j₁ ∧
      wire &&& 0x7 ≠ 4 ∧ 1 < int32 ((wire >>> 3 : Nat) : Int) ∧
      slice d i d.length = some rest ∧ (Skip rest).status = .nil ∧ 0 ≤ (Skip rest).n ∧
      0 ≤ int64 (i + (Skip rest).n) ∧ int64 (i + (Skip rest).n) ≤ d.length ∧
      slice d i (int64 (i + (Skip rest).n)) = some raw ∧
      unmarshalBody options d x i
        = .next (if !options.DiscardUnknown then
              { x with unknownFields := goAppend x.unknownFields raw } else x,
            (int64 (i + (Skip rest).n)).toNat)) := by
  cases hv : varintLoop d varintFuel 0 i 0 with
  | fail s j =>
    left
    exact ⟨_, unmarshalBody_tag_fail _ _ _ _ _ _ hv, varintLoop_fail_ne_nil _ _ _ _ _ _ _ hv, rfl⟩
  | done wire j₁ =>
    by_cases hwt : wire &&& 0x7 = 4
    · left
      exact ⟨_, unmarshalBody_endGroup _ _ _ _ _ _ hv hwt, by simp, rfl⟩
    by_cases hf : int32 ((wire >>> 3 : Nat) : Int) ≤ 0
    · left
      exact ⟨_, unmarshalBody_illegalTag _ _ _ _ _ _ hv hwt hf, by simp, rfl⟩
    by_cases h1 : int32 ((wire >>> 3 : Nat) : Int) = 1
    · -- case 1
      by_cases hw2 : wire &&& 0x7 = 2
      · cases hv2 : varintLoop d varintFuel 0 j₁ 0 with
        | fail s j =>
          left
          refine ⟨⟨x, j, s⟩, ?_, varintLoop_fail_ne_nil _ _ _ _ _ _ _ hv2, rfl⟩
          simp [unmarshalBody, hv, hwt, hf, h1, hw2, hv2]
        | done word j₂ =>
          by_cases c1 : int64 word < 0
          · left
            refine ⟨⟨x, j₂, .error .ErrInvalidLength⟩, ?_, by simp, rfl⟩
            simp [unmarshalBody, hv, hwt, hf, h1, hw2, hv2, c1]
          by_cases c2 : int64 (j₂ + int64 word) < 0
          · left
            refine ⟨⟨x, j₂, .error .ErrInvalidLength⟩, ?_, by simp, rfl⟩
            simp [unmarshalBody, hv, hwt, hf, h1, hw2, hv2, c1, c2]
          by_cases c3 : int64 (j₂ + int64 word) > d.length
          · left
            refine ⟨⟨x, j₂, .error .ErrUnexpectedEOF⟩, ?_, by simp, rfl⟩
            simp [unmarshalBody, hv, hwt, hf, h1, hw2, hv2, c1, c2, c3]
          cases hs : slice d j₂ (int64 (j₂ + int64 word)) with
          | none =>
            left
            refine ⟨⟨x, j₂, .panic⟩, ?_, by simp, rfl⟩
            simp [unmarshalBody, hv, hwt, hf, h1, hw2, hv2, c1, c2, c3, hs]
          | some b =>
            right; left
            refine ⟨wire, j₁, word, j₂, b, rfl, h1, hw2, hv2, by omega, by omega, by omega, hs, ?_⟩
            simp [unmarshalBody, hv, hwt, hf, h1, hw2, hv2, c1, c2, c3, hs]
      · left
        refine ⟨⟨x, j₁, .error (.wrongWireType (wire &&& 0x7))⟩, ?_, by simp, rfl⟩
        simp [unmarshalBody, hv, hwt, hf, h1, hw2]
    · -- default
      cases hs : slice d i d.length with
      | none =>
        left
        refine ⟨⟨x, i, .panic⟩, ?_, by simp, rfl⟩
        simp [unmarshalBody, hv, hwt, hf, h1, hs]
      | some rest =>
        by_cases c0 : (Skip rest).status = .nil
        · by_cases c1 : (Skip rest).n < 0 ∨ int64 (i + (Skip rest).n) < 0
          · left
            refine ⟨⟨x, i, .error .ErrInvalidLength⟩, ?_, by simp, rfl⟩
            simp [unmarshalBody, hv, hwt, hf, h1, hs, c0, c1]
          by_cases c3 : int64 (i + (Skip rest).n) > d.length
          · left
            refine ⟨⟨x, i, .error .ErrUnexpectedEOF⟩, ?_, by simp, rfl⟩
            simp [unmarshalBody, hv, hwt, hf, h1, hs, c0, c1, c3]
          cases hs2 : slice d i (int64 (i + (Skip rest).n)) with
          | none =>
            left
            refine ⟨⟨x, i, .panic⟩, ?_, by simp, rfl⟩
            simp [unmarshalBody, hv, hwt, hf, h1, hs, c0, c1, c3, hs2]
          | some raw =>
            right; right
            refine ⟨wire, j₁, rest, raw, rfl, hwt, by omega, rfl, c0, by omega, by omega, by omega,
              hs2, ?_⟩
            simp [unmarshalBody, hv, hwt, hf, h1, hs, c0, c1, c3, hs2]
        · left
          refine ⟨⟨x, i, (Skip rest).status⟩, ?_, c0, rfl⟩
          simp [unmarshalBody, hv, hwt, hf, h1, hs, c0]

/-! ## Bounds on what `Skip` returns, and moving a slice -/

theorem int64_lt (z : Int) : int64 z < 2 ^ 63 := by
  unfold int64
  omega

theorem int64_eq_of_nonneg (z : Int) (h0 : 0 ≤ z) (h1 : z < 2 ^ 64) (h2 : 0 ≤ int64 z) :
    int64 z = z := by
  unfold int64 at h2 ⊢
  omega

theorem skipAfter_n (z : Int) (depth : Nat) (r : Skipped) (hz : z < 2 ^ 63)
    (h : skipAfter z depth = .stop r) : r.n < 2 ^ 63 := by
  unfold skipAfter at h
  split_ifs at h
  · cases h
    simp
  · cases h
    exact hz

theorem skipBody_n (d : List Byte) (i depth : Nat) (r : Skipped) (hl : d.length < 2 ^ 63)
    (h : skipBody d i depth = .stop r) : r.n < 2 ^ 63 := by
  cases hv : varintLoop d varintFuel 0 i 0 with
  | fail s j =>
    simp only [skipBody, hv] at h
    cases h
    simp
  | done wire j₁ =>
    have hj := (varintLoop_done_bounds _ _ _ _ _ _ _ hv).2
    simp only [skipBody, hv] at h
    split_ifs at h
    · cases hv2 : varintLoop d varintFuel 0 j₁ 0 with
      | fail s j =>
        simp only [hv2] at h
        cases h
        simp
      | done w j₂ =>
        have hj2 := (varintLoop_done_bounds _ _ _ _ _ _ _ hv2).2
        simp only [hv2] at h
        exact skipAfter_n _ _ _ (by omega) h
    · exact skipAfter_n _ _ _ (int64_lt _) h
    · cases hv2 : varintLoop d varintFuel 0 j₁ 0 with
      | fail s j =>
        simp only [hv2] at h
        cases h
        simp
      | done w j₂ =>
        simp only [hv2] at h
        split_ifs at h
        · cases h
          simp
        · exact skipAfter_n _ _ _ (int64_lt _) h
    · exact skipAfter_n _ _ _ (by omega) h
    · cases h
      simp
    · exact skipAfter_n _ _ _ (by omega) h
    · exact skipAfter_n _ _ _ (int64_lt _) h
    · cases h
      simp

theorem skipLoop_n (d : List Byte) (hl : d.length < 2 ^ 63) (fuel : Nat) : ∀ (i depth : Nat),
    (skipLoop d fuel i depth).n < 2 ^ 63 := by
  induction fuel with
  | zero =>
    intro i depth
    rw [skipLoop]
    split_ifs <;> simp
  | succ fuel ih =>
    intro i depth
    rw [skipLoop]
    split_ifs
    · cases hb : skipBody d i depth with
      | next s =>
        obtain ⟨i', depth'⟩ := s
        simp only
        exact ih i' depth'
      | stop r =>
        simp only
        exact skipBody_n d i depth r hl hb
    · simp

theorem Skip_n_lt (d : List Byte) (hl : d.length < 2 ^ 63) : (Skip d).n < 2 ^ 63 :=
  skipLoop_n d hl _ _ _

theorem slice_reloc (pre u : List Byte) (a b : Int) (ha : 0 ≤ a) :
    slice (pre ++ u) (pre.length + a) (pre.length + b) = slice u a b := by
  unfold slice
  by_cases h : 0 ≤ a ∧ a ≤ b ∧ b ≤ (u.length : Int)
  · have h' : 0 ≤ (pre.length : Int) + a ∧ (pre.length : Int) + a ≤ (pre.length : Int) + b ∧
        (pre.length : Int) + b ≤ ((pre ++ u).length : Nat) := by
      simp only [List.length_append]
      omega
    rw [if_pos h, if_pos h']
    have e1 : ((pre.length : Int) + a).toNat = pre.length + a.toNat := by omega
    have e2 : ((pre.length : Int) + b).toNat - (pre.length + a.toNat) = b.toNat - a.toNat := by
      omega
    rw [e1, e2, List.drop_append]
  · have h' : ¬ (0 ≤ (pre.length : Int) + a ∧ (pre.length : Int) + a ≤ (pre.length : Int) + b ∧
        (pre.length : Int) + b ≤ ((pre ++ u).length : Nat)) := by
      simp only [List.length_append]
      omega
    rw [if_neg h, if_neg h']

theorem slice_some_length (d r : List Byte) (a b : Int) (h : slice d a b = some r) :
    0 ≤ a ∧ a ≤ b ∧ b ≤ d.length ∧ r.length = b.toNat - a.toNat := by
  unfold slice at h
  split_ifs at h with hc
  simp only [Option.some.injEq] at h
  refine ⟨hc.1, hc.2.1, hc.2.2, ?_⟩
  rw [← h, List.length_take, List.length_drop]
  omega

/-! ## Decoding the end of an input as an input of its own -/

theorem unmarshalBody_field1_intro (options : UnmarshalOptions) (d : List Byte)
    (x : GenesisState) (i wire j₁ word j₂ : Nat) (b : List Byte)
    (hv : varintLoop d varintFuel 0 i 0 = .done wire j₁)
    (h1 : int32 ((wire >>> 3 : Nat) : Int) = 1) (hw2 : wire &&& 0x7 = 2)
    (hv2 : varintLoop d varintFuel 0 j₁ 0 = .done word j₂) (c1 : 0 ≤ int64 word)
    (c2 : 0 ≤ int64 (j₂ + int64 word)) (c3 : int64 (j₂ + int64 word) ≤ d.length)
    (hs : slice d j₂ (int64 (j₂ + int64 word)) = some b) :
    unmarshalBody options d x i
      = .next ({ x with GenTxs := some (x.GenTxs.elems ++ [b]) },
          (int64 (j₂ + int64 word)).toNat) := by
  have hwt : wire &&& 0x7 ≠ 4 := by omega
  have hf : ¬ int32 ((wire >>> 3 : Nat) : Int) ≤ 0 := by omega
  have c1' : ¬ int64 word < 0 := by omega
  have c2' : ¬ int64 (j₂ + int64 word) < 0 := by omega
  have c3' : ¬ int64 (j₂ + int64 word) > d.length := by omega
  simp [unmarshalBody, hv, hwt, hf, h1, hw2, hv2, c1', c2', c3', hs]

theorem unmarshalBody_default_intro (options : UnmarshalOptions) (d : List Byte)
    (x : GenesisState) (i wire j₁ : Nat) (rest raw : List Byte)
    (hv : varintLoop d varintFuel 0 i 0 = .done wire j₁) (hwt : wire &&& 0x7 ≠ 4)
    (hfn : 1 < int32 ((wire >>> 3 : Nat) : Int)) (hs : slice d i d.length = some rest)
    (c0 : (Skip rest).status = .nil) (c1 : 0 ≤ (Skip rest).n)
    (c2 : 0 ≤ int64 (i + (Skip rest).n)) (c3 : int64 (i + (Skip rest).n) ≤ d.length)
    (hs2 : slice d i (int64 (i + (Skip rest).n)) = some raw) :
    unmarshalBody options d x i
      = .next (if !options.DiscardUnknown then
            { x with unknownFields := goAppend x.unknownFields raw } else x,
          (int64 (i + (Skip rest).n)).toNat) := by
  have hf : ¬ int32 ((wire >>> 3 : Nat) : Int) ≤ 0 := by omega
  have h1 : ¬ int32 ((wire >>> 3 : Nat) : Int) = 1 := by omega
  have c1' : ¬ ((Skip rest).n < 0 ∨ int64 (i + (Skip rest).n) < 0) := by omega
  have c3' : ¬ int64 (i + (Skip rest).n) > d.length := by omega
  simp [unmarshalBody, hv, hwt, hf, h1, hs, c0, c1', c3', hs2]

theorem varintLoop_reloc_done (pre u : List Byte) (i w j : Nat)
    (h : varintLoop u varintFuel 0 i 0 = .done w j) :
    varintLoop (pre ++ u) varintFuel 0 (pre.length + i) 0 = .done w (pre.length + j) := by
  rw [varintLoop_reloc, h]
  rfl

theorem unmarshalBody_suffix (options : UnmarshalOptions) (pre u : List Byte)
    (xA xB xA' : GenesisState) (i j : Nat) (G : List (List Byte))
    (hl : (pre ++ u).length < 2 ^ 63) (hR : Extends G xA xB)
    (hA : unmarshalBody options u xA i = .next (xA', j)) :
    ∃ xB', unmarshalBody options (pre ++ u) xB (pre.length + i) = .next (xB', pre.length + j) ∧
      Extends G xA' xB' := by
  have hlu : (u.length : Int) < 2 ^ 63 := by
    simp only [List.length_append] at hl
    omega
  have hlp : (pre.length : Int) + (u.length : Int) < 2 ^ 63 := by
    simp only [List.length_append] at hl
    omega
  rcases unmarshalBody_cases options u xA i with
    ⟨r, hr, _, _⟩ | ⟨wire, j₁, word, j₂, b, hv, h1, hw2, hv2, c1, c2, c3, hs, hbody⟩ |
    ⟨wire, j₁, rest, raw, hv, hwt, hfn, hs, c0, c1, c2, c3, hs2, hbody⟩
  · rw [hr] at hA
    cases hA
  · rw [hbody] at hA
    cases hA
    have hj2 := (varintLoop_done_bounds _ _ _ _ _ _ _ hv2).2
    have hp := int64_lt (word : Int)
    have hPA : int64 ((j₂ : Int) + int64 word) = j₂ + int64 word :=
      int64_eq_of_nonneg _ (by omega) (by omega) c2
    have hPB : int64 (((pre.length + j₂ : Nat) : Int) + int64 word)
        = (pre.length : Int) + int64 ((j₂ : Int) + int64 word) := by
      rw [hPA, int64_of_lt _ (by omega) (by push_cast; omega)]
      push_cast
      ring
    have hsB : slice (pre ++ u) ((pre.length + j₂ : Nat) : Int)
        (int64 (((pre.length + j₂ : Nat) : Int) + int64 word)) = some b := by
      rw [hPB, ← hs, ← slice_reloc pre u _ _ (by omega : (0 : Int) ≤ (j₂ : Int))]
      push_cast
      rfl
    have hB := unmarshalBody_field1_intro options (pre ++ u) xB (pre.length + i) wire
      (pre.length + j₁) word (pre.length + j₂) b (varintLoop_reloc_done pre u i wire j₁ hv) h1 hw2
      (varintLoop_reloc_done pre u j₁ word j₂ hv2) c1 (by rw [hPB]; omega)
      (by rw [hPB]; simp only [List.length_append]; push_cast; omega) hsB
    refine ⟨{ xB with GenTxs := some (xB.GenTxs.elems ++ [b]) }, ?_, ?_⟩
    · have e : ((pre.length : Int) + int64 ((j₂ : Int) + int64 word)).toNat
          = pre.length + (int64 ((j₂ : Int) + int64 word)).toNat := by
        rw [Int.toNat_add (Int.natCast_nonneg _) c2, Int.toNat_natCast]
      rw [hB, hPB, e]
    · refine ⟨hR.1, ?_⟩
      simp only [Slice.elems, Option.getD_some]
      have := hR.2
      simp only [Slice.elems] at this
      rw [this, List.append_assoc]
  · rw [hbody] at hA
    cases hA
    have hsl := slice_some_length _ _ _ _ hs
    have hi : (i : Int) ≤ u.length := by omega
    have hrest : rest.length < 2 ^ 63 := by
      have := hsl.2.2.2
      omega
    have hn := Skip_n_lt rest hrest
    have hPA : int64 ((i : Int) + (Skip rest).n) = i + (Skip rest).n :=
      int64_eq_of_nonneg _ (by omega) (by omega) c2
    have hPB : int64 (((pre.length + i : Nat) : Int) + (Skip rest).n)
        = (pre.length : Int) + int64 ((i : Int) + (Skip rest).n) := by
      rw [hPA, int64_of_lt _ (by omega) (by push_cast; omega)]
      push_cast
      ring
    have hsB : slice (pre ++ u) ((pre.length + i : Nat) : Int) ((pre ++ u).length : Nat)
        = some rest := by
      rw [← hs, ← slice_reloc pre u _ _ (by omega : (0 : Int) ≤ (i : Int))]
      simp only [List.length_append]
      push_cast
      rfl
    have hs2B : slice (pre ++ u) ((pre.length + i : Nat) : Int)
        (int64 (((pre.length + i : Nat) : Int) + (Skip rest).n)) = some raw := by
      rw [hPB, ← hs2, ← slice_reloc pre u _ _ (by omega : (0 : Int) ≤ (i : Int))]
      push_cast
      rfl
    have hB := unmarshalBody_default_intro options (pre ++ u) xB (pre.length + i) wire
      (pre.length + j₁) rest raw (varintLoop_reloc_done pre u i wire j₁ hv) hwt hfn hsB c0 c1
      (by rw [hPB]; omega) (by rw [hPB]; simp only [List.length_append]; push_cast; omega) hs2B
    refine ⟨if !options.DiscardUnknown then
        { xB with unknownFields := goAppend xB.unknownFields raw } else xB, ?_, ?_⟩
    · have e : ((pre.length : Int) + int64 ((i : Int) + (Skip rest).n)).toNat
          = pre.length + (int64 ((i : Int) + (Skip rest).n)).toNat := by
        rw [Int.toNat_add (Int.natCast_nonneg _) c2, Int.toNat_natCast]
      rw [hB, hPB, e]
    · cases hd : options.DiscardUnknown with
      | true => simpa [hd] using hR
      | false =>
        simp only [hd, Bool.not_false, if_true]
        refine ⟨?_, hR.2⟩
        simp only
        rw [hR.1]

theorem unmarshalBody_stop_ne_nil (options : UnmarshalOptions) (d : List Byte)
    (x : GenesisState) (i : Nat) (r : Decoded) (h : unmarshalBody options d x i = .stop r) :
    r.status ≠ .nil ∧ r.x = x := by
  rcases unmarshalBody_cases options d x i with
    ⟨r', hr, hne, hx⟩ | ⟨_, _, _, _, _, _, _, _, _, _, _, _, _, hbody⟩ |
    ⟨_, _, _, _, _, _, _, _, _, _, _, _, _, hbody⟩
  · rw [hr] at h
    cases h
    exact ⟨hne, hx⟩
  · rw [hbody] at h
    cases h
  · rw [hbody] at h
    cases h

theorem unmarshalLoop_suffix (options : UnmarshalOptions) (pre u : List Byte)
    (hl : (pre ++ u).length < 2 ^ 63) (G : List (List Byte)) (fA : Nat) :
    ∀ (fB : Nat) (xA xB : GenesisState) (i : Nat), fA ≤ fB → Extends G xA xB →
    (unmarshalLoop options u fA xA i).status = .nil →
    ∃ xB', unmarshalLoop options (pre ++ u) fB xB (pre.length + i)
        = ⟨xB', pre.length + (unmarshalLoop options u fA xA i).iNdEx, .nil⟩ ∧
      Extends G (unmarshalLoop options u fA xA i).x xB' := by
  have atEnd : ∀ (fB : Nat) (xA xB : GenesisState) (i : Nat), ¬ i < u.length →
      Extends G xA xB → (unmarshalEnd u xA i).status = .nil →
      ∃ xB', unmarshalLoop options (pre ++ u) fB xB (pre.length + i)
          = ⟨xB', pre.length + (unmarshalEnd u xA i).iNdEx, .nil⟩ ∧
        Extends G (unmarshalEnd u xA i).x xB' := by
    intro fB xA xB i hi hR hst
    unfold unmarshalEnd at hst ⊢
    by_cases hgt : i > u.length
    · simp [hgt] at hst
    · simp only [hgt, if_false]
      exact ⟨xB, unmarshalLoop_at_end _ _ _ _ _ (by simp only [List.length_append]; omega), hR⟩
  induction fA with
  | zero =>
    intro fB xA xB i _ hR hst
    rw [unmarshalLoop] at hst ⊢
    by_cases hi : i < u.length
    · simp [hi] at hst
    · simp only [hi, if_false] at hst ⊢
      exact atEnd fB xA xB i hi hR hst
  | succ fA ih =>
    intro fB xA xB i hf hR hst
    rw [unmarshalLoop] at hst ⊢
    by_cases hi : i < u.length
    · simp only [hi, if_true] at hst ⊢
      cases hb : unmarshalBody options u xA i with
      | stop r =>
        rw [hb] at hst
        exact absurd hst (unmarshalBody_stop_ne_nil _ _ _ _ _ hb).1
      | next s =>
        obtain ⟨xA', j⟩ := s
        rw [hb] at hst
        simp only at hst ⊢
        obtain ⟨xB₁, hB, hR₁⟩ := unmarshalBody_suffix options pre u xA xB xA' i j G hl hR hb
        obtain ⟨fB', rfl⟩ : ∃ f, fB = f + 1 := ⟨fB - 1, by omega⟩
        rw [unmarshalLoop_next options (pre ++ u) fB' xB xB₁ _ _
          (by simp only [List.length_append]; omega) hB]
        exact ih fB' xA' xB₁ j (by omega) hR₁ hst
    · simp only [hi, if_false] at hst ⊢
      exact atEnd fB xA xB i hi hR hst

theorem length_le_genTxRecords (G : List (List Byte)) : G.length ≤ (genTxRecords G).length := by
  induction G with
  | nil => simp
  | cons e es ih =>
    have := genTxRecord_length_pos e
    simp only [genTxRecords, List.length_append, List.length_cons]
    omega

/-- Decoding the records of `G` followed by bytes `U` that decode on their own
into unknown fields only. -/
theorem unmarshal_records_then (options : UnmarshalOptions) (G : List (List Byte))
    (U : List Byte) (r : GenesisState) (hl : (genTxRecords G ++ U).length < 2 ^ 63)
    (hU : unmarshal options (some emptyMessage) U = (some r, .nil)) :
    ∃ m', unmarshal options (some emptyMessage) (genTxRecords G ++ U) = (some m', .nil) ∧
      m'.unknownFields = r.unknownFields ∧ m'.GenTxs.elems = G ++ r.GenTxs.elems := by
  simp only [unmarshal, unmarshalMsg, Prod.mk.injEq, Option.some.injEq] at hU
  have h1 := unmarshalLoop_genTxs options G [] U emptyMessage (genTxRecords G ++ U).length
    (by simpa using hl) (by simp)
  simp only [List.nil_append, List.length_nil, Nat.zero_add] at h1
  have hR : Extends G emptyMessage (appendGenTxs emptyMessage G) := by
    refine ⟨(appendGenTxs_unknownFields G emptyMessage).symm, ?_⟩
    rw [appendGenTxs_elems]
    simp [emptyMessage, Slice.elems]
  obtain ⟨xB', hB, hR'⟩ := unmarshalLoop_suffix options (genTxRecords G) U hl G U.length
    ((genTxRecords G ++ U).length - G.length) emptyMessage (appendGenTxs emptyMessage G) 0
    (by
      have := length_le_genTxRecords G
      simp only [List.length_append]
      omega)
    hR hU.2
  rw [hU.1] at hR'
  refine ⟨xB', ?_, hR'.1.symm, hR'.2⟩
  simp only [unmarshal, unmarshalMsg]
  rw [h1]
  simp only [Nat.add_zero] at hB
  rw [hB]

/-- Claim C1, as stated, fails. A message whose unknown-fields buffer holds
the bytes `0a 00` (stored with `SetUnknown`, which checks nothing) marshals to
`0a 00`, and these decode to a message with one empty `GenTxs` element and no
unknown fields; and a message whose unknown-fields buffer is the byte `ff`
marshals to `ff`, which the decoder rejects with the end-of-input error. -/
theorem C1_round_trip_counterexample :
    (marshal (some ⟨some [0x0a, 0x00], none⟩) none = .ret (some [0x0a, 0x00]) ∧
      unmarshal defaultOptions (some emptyMessage) [0x0a, 0x00]
        = (some ⟨none, some [[]]⟩, .nil) ∧
      (⟨none, some [[]]⟩ : GenesisState).GenTxs.elems
        ≠ (⟨some [0x0a, 0x00], none⟩ : GenesisState).GenTxs.elems ∧
      (⟨none, some [[]]⟩ : GenesisState).unknownFields.elems
        ≠ (⟨some [0x0a, 0x00], none⟩ : GenesisState).unknownFields.elems) ∧
    (marshal (some ⟨some [0xff], none⟩) none = .ret (some [0xff]) ∧
      unmarshal defaultOptions (some emptyMessage) [0xff]
        = (some emptyMessage, .error .ErrUnexpectedEOF)) := by
  decide

/-- Claim C1, amended. For every message whose encoding has the length of a Go
slice and whose unknown-fields buffer, unmarshalled on its own into an empty
message, returns `nil` with no `GenTxs` element and that same buffer as unknown
fields: unmarshalling the bytes `marshal` returns into a fresh empty message
with default options returns `nil` and yields a message whose `GenTxs` has the
same elements in the same order and whose unknown-fields buffer is equal byte
for byte. -/
theorem C1_round_trip (m : GenesisState) (hs : size (some m) < 2 ^ 63)
    (hu : ∃ r, unmarshal defaultOptions (some emptyMessage) m.unknownFields.elems
        = (some r, .nil) ∧
      r.GenTxs.elems = [] ∧ r.unknownFields.elems = m.unknownFields.elems) :
    ∃ bs m', marshal (some m) none = .ret (some bs) ∧
      unmarshal defaultOptions (some emptyMessage) bs = (some m', .nil) ∧
      m'.GenTxs.elems = m.GenTxs.elems ∧
      m'.unknownFields.elems = m.unknownFields.elems := by
  obtain ⟨r, hr, hG, hU⟩ := hu
  have he := size_lt_elems m hs
  have hl : (genTxRecords m.GenTxs.elems ++ m.unknownFields.elems).length < 2 ^ 63 := by
    rw [size_eq, emitted_eq_genTxRecords _ he] at hs
    simpa [Slice.len] using hs
  obtain ⟨m', hm', hu', hg'⟩ :=
    unmarshal_records_then defaultOptions m.GenTxs.elems m.unknownFields.elems r hl hr
  refine ⟨genTxRecords m.GenTxs.elems ++ m.unknownFields.elems, m', ?_, hm', ?_, ?_⟩
  · rw [marshal_eq, emitted_eq_genTxRecords _ he]
    simp [Slice.elems]
  · rw [hg', hG, List.append_nil]
  · rw [hu', hU]

/-- Witness of C1 (amended): two elements and the unknown varint record
`10 05`. -/
theorem C1_round_trip_witness :
    size (some ⟨some [0x10, 0x05], some [[0x61], [0x62, 0x62]]⟩) < 2 ^ 63 ∧
    (∃ r, unmarshal defaultOptions (some emptyMessage)
          (⟨some [0x10, 0x05], some [[0x61], [0x62, 0x62]]⟩ : GenesisState).unknownFields.elems
        = (some r, .nil) ∧
      r.GenTxs.elems = [] ∧
      r.unknownFields.elems
        = (⟨some [0x10, 0x05], some [[0x61], [0x62, 0x62]]⟩ : GenesisState).unknownFields.elems) ∧
    ∃ bs m', marshal (some ⟨some [0x10, 0x05], some [[0x61], [0x62, 0x62]]⟩) none
        = .ret (some bs) ∧
      unmarshal defaultOptions (some emptyMessage) bs = (some m', .nil) ∧
      m'.GenTxs.elems
        = (⟨some [0x10, 0x05], some [[0x61], [0x62, 0x62]]⟩ : GenesisState).GenTxs.elems ∧
      m'.unknownFields.elems
        = (⟨some [0x10, 0x05], some [[0x61], [0x62, 0x62]]⟩ : GenesisState).unknownFields.elems :=
  ⟨by decide, ⟨⟨some [0x10, 0x05], none⟩, by decide, rfl, rfl⟩,
    C1_round_trip ⟨some [0x10, 0x05], some [[0x61], [0x62, 0x62]]⟩ (by decide)
      ⟨⟨some [0x10, 0x05], none⟩, by decide, rfl, rfl⟩⟩

/-! ## Skipping a group -/

theorem tag_eq (fieldNum wireType : Nat) (hwt : wireType < 8) :
    fieldNum <<< 3 ||| wireType = 8 * fieldNum + wireType := by
  rw [Nat.shiftLeft_eq, Nat.mul_comm]
  exact (Nat.mul_add_lt_is_or (i := 3) (by simpa using hwt) fieldNum).symm

theorem tag_wireType (fieldNum wireType : Nat) (hwt : wireType < 8) :
    (fieldNum <<< 3 ||| wireType) &&& 0x7 = wireType := by
  rw [tag_eq _ _ hwt]
  have := Nat.and_pow_two_sub_one_eq_mod (8 * fieldNum + wireType) 3
  simp only [Nat.reducePow, Nat.add_one_sub_one] at this
  rw [this]
  omega

theorem tag_fieldNum (fieldNum wireType : Nat) (hwt : wireType < 8) :
    (fieldNum <<< 3 ||| wireType) >>> 3 = fieldNum := by
  rw [tag_eq _ _ hwt, Nat.shiftRight_eq_div_pow]
  omega

theorem validFieldNum_lt {fieldNum : Nat} (h : validFieldNum fieldNum) : fieldNum < 2 ^ 61 :=
  Nat.lt_of_lt_of_le h.2 (by norm_num)

theorem varintLoop_tag (pre rest : List Byte) (fieldNum wireType : Nat)
    (hfn : fieldNum < 2 ^ 61) (hwt : wireType < 8) :
    varintLoop (pre ++ tagBytes fieldNum wireType ++ rest) varintFuel 0 pre.length 0
      = .done (fieldNum <<< 3 ||| wireType) (pre.length + (tagBytes fieldNum wireType).length) := by
  apply varintLoop_varint_top
  rw [tag_eq _ _ hwt]
  omega

theorem wireType_lt (v : WireValue) : v.wireType < 8 := by
  cases v <;> simp [WireValue.wireType]

theorem skipAfter_pos (n depth : Nat) (hd : 1 ≤ depth) :
    skipAfter (n : Int) depth = .next (n, depth) := by
  unfold skipAfter
  rw [if_neg (by omega), if_neg (by omega), Int.toNat_natCast]

theorem skipAfter_zero (n : Nat) : skipAfter (n : Int) 0 = .stop ⟨n, .nil⟩ := by
  unfold skipAfter
  rw [if_neg (by omega), if_pos rfl]

theorem skipBody_value (pre suf : List Byte) (fieldNum depth : Nat) (v : WireValue)
    (hfn : fieldNum < 2 ^ 61) (hv : v.wellFormed)
    (hl : (pre ++ (Token.value fieldNum v).encode ++ suf).length < 2 ^ 63) :
    skipBody (pre ++ (Token.value fieldNum v).encode ++ suf) pre.length depth
      = skipAfter ((pre.length + (Token.value fieldNum v).encode.length : Nat) : Int) depth := by
  cases v with
  | varint cont last =>
    obtain ⟨h9, hb, hlast⟩ := hv
    have htag := varintLoop_tag pre (cont ++ [last] ++ suf) fieldNum 0 hfn (by decide)
    have hw := tag_wireType fieldNum 0 (by decide)
    obtain ⟨w, hval⟩ := varintLoop_complete (pre ++ tagBytes fieldNum 0) cont suf last h9 hb hlast
    simp only [Token.encode, WireValue.wireType, WireValue.encode, List.append_assoc,
      List.length_append, List.singleton_append, List.length_cons, List.length_nil] at htag hval ⊢
    simp only [skipBody, htag, hw, hval, if_true]
    congr 2
    omega
  | fixed64 bytes =>
    have hb : bytes.length = 8 := hv
    have htag := varintLoop_tag pre (bytes ++ suf) fieldNum 1 hfn (by decide)
    have hw := tag_wireType fieldNum 1 (by decide)
    simp only [Token.encode, WireValue.wireType, WireValue.encode, List.append_assoc,
      List.length_append, hb] at htag hl ⊢
    have e : int64 (((pre.length + (tagBytes fieldNum 1).length : Nat) : Int) + 8)
        = ((pre.length + ((tagBytes fieldNum 1).length + 8) : Nat) : Int) := by
      rw [int64_of_lt _ (by omega) (by push_cast; omega)]
      push_cast
      ring
    simp only [skipBody, htag, hw, e]
    simp
  | lengthDelimited payload =>
    have htag := varintLoop_tag pre (varint payload.length ++ payload ++ suf) fieldNum 2 hfn
      (by decide)
    have hw := tag_wireType fieldNum 2 (by decide)
    simp only [Token.encode, WireValue.wireType, WireValue.encode, List.append_assoc,
      List.length_append] at htag hl ⊢
    have hlen := varintLoop_varint_top payload.length (pre ++ tagBytes fieldNum 2)
      (payload ++ suf) (by omega)
    simp only [List.append_assoc, List.length_append] at hlen
    have h1 : int64 (payload.length : Int) = payload.length :=
      int64_of_lt _ (by omega) (by omega)
    have e : int64 (((pre.length + (tagBytes fieldNum 2).length
          + (varint payload.length).length : Nat) : Int) + (payload.length : Int))
        = ((pre.length + ((tagBytes fieldNum 2).length
            + ((varint payload.length).length + payload.length)) : Nat) : Int) := by
      rw [int64_of_lt _ (by omega) (by push_cast; omega)]
      push_cast
      ring
    have n1 : ¬ ((payload.length : Int) < 0) := by omega
    simp only [skipBody, htag, hw, hlen, h1, e, n1]
    simp
  | fixed32 bytes =>
    have hb : bytes.length = 4 := hv
    have htag := varintLoop_tag pre (bytes ++ suf) fieldNum 5 hfn (by decide)
    have hw := tag_wireType fieldNum 5 (by decide)
    simp only [Token.encode, WireValue.wireType, WireValue.encode, List.append_assoc,
      List.length_append, hb] at htag hl ⊢
    have e : int64 (((pre.length + (tagBytes fieldNum 5).length : Nat) : Int) + 4)
        = ((pre.length + ((tagBytes fieldNum 5).length + 4) : Nat) : Int) := by
      rw [int64_of_lt _ (by omega) (by push_cast; omega)]
      push_cast
      ring
    simp only [skipBody, htag, hw, e]
    simp

theorem skipBody_startGroup (pre suf : List Byte) (fieldNum depth : Nat)
    (hfn : fieldNum < 2 ^ 61) :
    skipBody (pre ++ (Token.startGroup fieldNum).encode ++ suf) pre.length depth
      = skipAfter ((pre.length + (Token.startGroup fieldNum).encode.length : Nat) : Int)
          (depth + 1) := by
  have htag := varintLoop_tag pre suf fieldNum 3 hfn (by decide)
  have hw := tag_wireType fieldNum 3 (by decide)
  simp only [List.append_assoc] at htag
  simp only [Token.encode, List.append_assoc, skipBody, htag, hw]
  simp

theorem skipBody_endGroup (pre suf : List Byte) (fieldNum depth : Nat)
    (hfn : fieldNum < 2 ^ 61) (hd : 1 ≤ depth) :
    skipBody (pre ++ (Token.endGroup fieldNum).encode ++ suf) pre.length depth
      = skipAfter ((pre.length + (Token.endGroup fieldNum).encode.length : Nat) : Int)
          (depth - 1) := by
  have htag := varintLoop_tag pre suf fieldNum 4 hfn (by decide)
  have hw := tag_wireType fieldNum 4 (by decide)
  have hd' : ¬ depth = 0 := by omega
  simp only [List.append_assoc] at htag
  simp only [Token.encode, List.append_assoc, skipBody, htag, hw]
  simp [hd']

theorem skipLoop_next (d : List Byte) (fuel i depth i' depth' : Nat) (hi : i < d.length)
    (h : skipBody d i depth = .next (i', depth')) :
    skipLoop d (fuel + 1) i depth = skipLoop d fuel i' depth' := by
  rw [skipLoop, if_pos hi, h]

theorem tagBytes_length_pos (fieldNum wireType : Nat) : 1 ≤ (tagBytes fieldNum wireType).length := by
  have := varint_ne_nil (fieldNum <<< 3 ||| wireType)
  unfold tagBytes
  cases h : varint (fieldNum <<< 3 ||| wireType) with
  | nil => contradiction
  | cons a l => simp

theorem Token.encode_length_pos (t : Token) : 1 ≤ t.encode.length := by
  cases t with
  | value fieldNum v =>
    have := tagBytes_length_pos fieldNum v.wireType
    simp only [Token.encode, List.length_append]
    omega
  | startGroup fieldNum => exact tagBytes_length_pos fieldNum 3
  | endGroup fieldNum => exact tagBytes_length_pos fieldNum 4

theorem skipLoop_tokens (ts : List Token) : ∀ (depth : Nat) (pre suf : List Byte) (fuel : Nat),
    1 ≤ depth → closesGroups depth ts →
    (pre ++ encodeTokens ts ++ suf).length < 2 ^ 63 → (encodeTokens ts).length ≤ fuel →
    skipLoop (pre ++ encodeTokens ts ++ suf) fuel pre.length depth
      = ⟨((pre.length + (encodeTokens ts).length : Nat) : Int), .nil⟩ := by
  induction ts with
  | nil =>
    intro depth pre suf fuel _ hc
    exact absurd hc (by simp [closesGroups])
  | cons t ts ih =>
    intro depth pre suf fuel hd hc hl hfuel
    have hpos := Token.encode_length_pos t
    simp only [encodeTokens, List.length_append] at hfuel
    obtain ⟨fuel, rfl⟩ : ∃ f, fuel = f + 1 := ⟨fuel - 1, by omega⟩
    have hd1 : pre ++ encodeTokens (t :: ts) ++ suf
        = pre ++ t.encode ++ (encodeTokens ts ++ suf) := by
      simp [encodeTokens]
    have hd2 : pre ++ encodeTokens (t :: ts) ++ suf
        = (pre ++ t.encode) ++ encodeTokens ts ++ suf := by
      simp [encodeTokens]
    have hlt : pre.length < (pre ++ encodeTokens (t :: ts) ++ suf).length := by
      rw [hd1]
      simp only [List.length_append]
      omega
    have hlen : pre.length + (encodeTokens (t :: ts)).length
        = (pre ++ t.encode).length + (encodeTokens ts).length := by
      simp only [encodeTokens, List.length_append]
      omega
    have step : ∀ depth', 1 ≤ depth' → closesGroups depth' ts →
        skipBody (pre ++ t.encode ++ (encodeTokens ts ++ suf)) pre.length depth
          = skipAfter ((pre.length + t.encode.length : Nat) : Int) depth' →
        skipLoop (pre ++ encodeTokens (t :: ts) ++ suf) (fuel + 1) pre.length depth
          = ⟨((pre.length + (encodeTokens (t :: ts)).length : Nat) : Int), .nil⟩ := by
      intro depth' hd' hc' hb
      rw [skipAfter_pos _ _ hd'] at hb
      rw [← hd1] at hb
      rw [skipLoop_next _ _ _ _ _ _ hlt hb, hlen]
      have := ih depth' (pre ++ t.encode) suf fuel hd' hc' (by rw [← hd2]; exact hl) (by omega)
      rw [← hd2] at this
      simp only [List.length_append] at this ⊢
      exact this
    cases t with
    | value fieldNum v =>
      obtain ⟨hfn, hv, hc'⟩ := hc
      exact step depth hd hc'
        (skipBody_value pre (encodeTokens ts ++ suf) fieldNum depth v (validFieldNum_lt hfn) hv
          (by rw [← hd1]; exact hl))
    | startGroup fieldNum =>
      obtain ⟨hfn, hc'⟩ := hc
      exact step (depth + 1) (by omega) hc'
        (skipBody_startGroup pre (encodeTokens ts ++ suf) fieldNum depth (validFieldNum_lt hfn))
    | endGroup fieldNum =>
      obtain ⟨hfn, hc'⟩ := hc
      have hb := skipBody_endGroup pre (encodeTokens ts ++ suf) fieldNum depth (validFieldNum_lt hfn) hd
      by_cases h1 : depth ≤ 1
      · rw [if_pos h1] at hc'
        obtain ⟨hd1', hts⟩ := hc'
        subst hts
        have hz : depth - 1 = 0 := by omega
        rw [hz, skipAfter_zero, ← hd1] at hb
        rw [skipLoop_stop _ _ _ _ _ hlt hb]
        simp [encodeTokens]
      · rw [if_neg h1] at hc'
        exact step (depth - 1) (by omega) hc' hb

theorem tagBytes_2_3 : tagBytes 2 3 = [0x13] := by
  unfold tagBytes
  rw [varint]
  rfl

theorem Skip_group (inner : List Token) (suf : List Byte)
    (hw : closesGroups 1 (inner ++ [.endGroup 2]))
    (hl : ((Field2.group inner).encode ++ suf).length < 2 ^ 63) :
    Skip ((Field2.group inner).encode ++ suf)
      = ⟨((Field2.group inner).encode.length : Nat), .nil⟩ := by
  have hd : (Field2.group inner).encode ++ suf
      = [0x13] ++ encodeTokens (inner ++ [.endGroup 2]) ++ suf := by
    simp [Field2.encode, tagBytes_2_3]
  have htag : varintLoop ((Field2.group inner).encode ++ suf) varintFuel 0 0 0 = .done 19 1 := by
    have := varintLoop_one_byte [] (encodeTokens (inner ++ [.endGroup 2]) ++ suf) 0x13 (by decide)
    rw [hd]
    simpa using this
  have hbody : skipBody ((Field2.group inner).encode ++ suf) 0 0 = .next (1, 1) := by
    have e3 : (19 : Nat) &&& 0x7 = 3 := by decide
    simp only [skipBody, htag, e3]
    have := skipAfter_pos 1 1 (le_refl 1)
    simpa using this
  obtain ⟨f, hf⟩ : ∃ f, ((Field2.group inner).encode ++ suf).length = f + 1 :=
    ⟨((Field2.group inner).encode ++ suf).length - 1, by rw [hd]; simp⟩
  unfold Skip
  rw [hf, skipLoop_next _ _ _ _ _ _ (by omega) hbody]
  have := skipLoop_tokens (inner ++ [.endGroup 2]) 1 [0x13] suf f (le_refl 1) hw
    (by rw [← hd]; exact hl)
    (by
      rw [hd] at hf
      simp only [List.length_append, List.length_singleton] at hf
      omega)
  rw [← hd] at this
  simp only [List.length_singleton] at this
  rw [this]
  simp [Field2.encode, tagBytes_2_3]
  omega

theorem Skip_field2 (f : Field2) (suf : List Byte) (hf : f.wellFormed)
    (hl : (f.encode ++ suf).length < 2 ^ 63) :
    Skip (f.encode ++ suf) = ⟨(f.encode.length : Nat), .nil⟩ := by
  cases f with
  | value v => exact Skip_field2Record v suf hf hl
  | group inner => exact Skip_group inner suf hf hl

theorem Field2.encode_tag (f : Field2) :
    ∃ (t : Byte) (rest : List Byte), f.encode = t :: rest ∧ t.val < 128 ∧ t.val &&& 0x7 ≠ 4 ∧
      1 < int32 ((t.val >>> 3 : Nat) : Int) := by
  cases f with
  | value v =>
    obtain ⟨t, ht, h⟩ := field2Record_tag v
    exact ⟨t, v.encode, ht, h⟩
  | group inner =>
    exact ⟨0x13, encodeTokens (inner ++ [.endGroup 2]),
      by simp [Field2.encode, tagBytes_2_3], by decide, by decide, by decide⟩

theorem unmarshalBody_field2Any (options : UnmarshalOptions) (pre suf : List Byte) (f : Field2)
    (x : GenesisState) (hf : f.wellFormed) (hl : (pre ++ f.encode ++ suf).length < 2 ^ 63) :
    unmarshalBody options (pre ++ f.encode ++ suf) x pre.length
      = .next (if !options.DiscardUnknown then
            { x with unknownFields := goAppend x.unknownFields f.encode } else x,
          pre.length + f.encode.length) := by
  obtain ⟨t, rest, ht, h128, hwt, hfn⟩ := Field2.encode_tag f
  have htag : varintLoop (pre ++ f.encode ++ suf) varintFuel 0 pre.length 0
      = .done t.val (pre.length + 1) := by
    have := varintLoop_one_byte pre (rest ++ suf) t h128
    rw [ht]
    simpa using this
  apply unmarshalBody_unknown options pre f.encode suf x _ _ hl htag hwt hfn
  apply Skip_field2 f suf hf
  simp only [List.length_append] at hl ⊢
  omega

/-- Claim C7. For every element `e` and every well-formed field-2 record `f`,
of wire type 0 (varint), 1 (64-bit), 2 (length-delimited), 3 (a group, with
whatever it nests) or 5 (32-bit), in an input of Go size made of the field-1
record of `e` placed before, or after, the record `f`, unmarshalling into an
empty message returns `nil`, `GenTxs` holds exactly `e`, and the
unknown-fields buffer is the field-2 record byte for byte. -/
theorem C7_skip_correctness (e : List Byte) (f : Field2) (hf : f.wellFormed)
    (hl : (genTxRecord e ++ f.encode).length < 2 ^ 63) :
    unmarshal defaultOptions (some emptyMessage) (genTxRecord e ++ f.encode)
      = (some ⟨some f.encode, some [e]⟩, .nil) ∧
    unmarshal defaultOptions (some emptyMessage) (f.encode ++ genTxRecord e)
      = (some ⟨some f.encode, some [e]⟩, .nil) := by
  have h1 := genTxRecord_length_pos e
  obtain ⟨t, rest, ht, _⟩ := Field2.encode_tag f
  have h2 : 1 ≤ f.encode.length := by
    rw [ht]
    simp
  have hun : goAppend (none : Slice Byte) f.encode = some f.encode := by
    rw [ht]
    simp [goAppend, Slice.elems]
  constructor
  · have b1 := unmarshalBody_genTx defaultOptions [] f.encode e emptyMessage
      (by simpa using hl)
    have b2 := unmarshalBody_field2Any defaultOptions (genTxRecord e) [] f
      { emptyMessage with GenTxs := some (emptyMessage.GenTxs.elems ++ [e]) } hf
      (by simpa using hl)
    simp only [List.nil_append, List.append_nil, List.length_nil, Nat.zero_add] at b1 b2
    obtain ⟨n, hn⟩ : ∃ n, (genTxRecord e ++ f.encode).length = n + 2 :=
      ⟨(genTxRecord e ++ f.encode).length - 2, by simp only [List.length_append]; omega⟩
    simp only [unmarshal, unmarshalMsg]
    rw [hn, unmarshalLoop_next _ _ _ _ _ _ _ (by omega) b1,
      unmarshalLoop_next _ _ _ _ _ _ _ (by simp only [List.length_append]; omega) b2,
      unmarshalLoop_at_end _ _ _ _ _ (by simp)]
    simp [defaultOptions, emptyMessage, hun, Slice.elems]
  · have hl' : (f.encode ++ genTxRecord e).length < 2 ^ 63 := by
      simp only [List.length_append] at hl ⊢
      omega
    have b1 := unmarshalBody_field2Any defaultOptions [] (genTxRecord e) f emptyMessage hf
      (by simpa using hl')
    have b2 := unmarshalBody_genTx defaultOptions f.encode [] e
      (if !defaultOptions.DiscardUnknown then
        { emptyMessage with unknownFields := goAppend emptyMessage.unknownFields f.encode }
        else emptyMessage)
      (by simpa using hl')
    simp only [List.nil_append, List.append_nil, List.length_nil, Nat.zero_add] at b1 b2
    obtain ⟨n, hn⟩ : ∃ n, (f.encode ++ genTxRecord e).length = n + 2 :=
      ⟨(f.encode ++ genTxRecord e).length - 2, by simp only [List.length_append]; omega⟩
    simp only [unmarshal, unmarshalMsg]
    rw [hn, unmarshalLoop_next _ _ _ _ _ _ _ (by omega) b1,
      unmarshalLoop_next _ _ _ _ _ _ _ (by simp only [List.length_append]; omega) b2,
      unmarshalLoop_at_end _ _ _ _ _ (by simp)]
    simp [defaultOptions, emptyMessage, hun, Slice.elems]

/-- Witness of C7: the element `"a"` with the two-byte varint `85 01` as field
2, and with a field-2 group that holds a varint and a nested empty group. -/
theorem C7_skip_correctness_witness :
    ((Field2.value (.varint [0x85] 0x01)).wellFormed ∧
      (genTxRecord [0x61] ++ (Field2.value (.varint [0x85] 0x01)).encode).length < 2 ^ 63 ∧
      unmarshal defaultOptions (some emptyMessage)
          (genTxRecord [0x61] ++ (Field2.value (.varint [0x85] 0x01)).encode)
        = (some ⟨some (Field2.value (.varint [0x85] 0x01)).encode, some [[0x61]]⟩, .nil)) ∧
    ((Field2.group [.value 7 (.varint [0x85] 0x01), .startGroup 3, .endGroup 3]).wellFormed ∧
      (genTxRecord [0x61]
        ++ (Field2.group [.value 7 (.varint [0x85] 0x01), .startGroup 3, .endGroup 3]).encode).length
        < 2 ^ 63 ∧
      unmarshal defaultOptions (some emptyMessage)
          ((Field2.group [.value 7 (.varint [0x85] 0x01), .startGroup 3, .endGroup 3]).encode
            ++ genTxRecord [0x61])
        = (some ⟨some (Field2.group
              [.value 7 (.varint [0x85] 0x01), .startGroup 3, .endGroup 3]).encode,
            some [[0x61]]⟩, .nil)) :=
  have hg : genTxRecord [0x61] = [0x0a, 0x01, 0x61] := by
    simp [genTxRecord, varint]
    rfl
  have hv : (Field2.value (.varint [0x85] 0x01)).wellFormed :=
    ⟨by decide, by
      intro b hb
      simp only [List.mem_singleton] at hb
      subst hb
      decide, by decide⟩
  have hvl : (genTxRecord [0x61] ++ (Field2.value (.varint [0x85] 0x01)).encode).length
      < 2 ^ 63 := by
    rw [hg]
    decide
  have hw : (Field2.group [.value 7 (.varint [0x85] 0x01), .startGroup 3, .endGroup 3]).wellFormed :=
    ⟨⟨by decide, by decide⟩,
      ⟨by decide, by
        intro b hb
        simp only [List.mem_singleton] at hb
        subst hb
        decide, by decide⟩,
      ⟨by decide, by decide⟩, ⟨by decide, by decide⟩, ⟨by decide, by decide⟩, rfl, rfl⟩
  have hwe : (Field2.group [.value 7 (.varint [0x85] 0x01), .startGroup 3, .endGroup 3]).encode
      = [0x13, 0x38, 0x85, 0x01, 0x1b, 0x1c, 0x14] := by
    simp [Field2.encode, tagBytes, encodeTokens, Token.encode, varint, WireValue.encode,
      WireValue.wireType]
    decide
  have hwl : (genTxRecord [0x61]
      ++ (Field2.group [.value 7 (.varint [0x85] 0x01), .startGroup 3, .endGroup 3]).encode).length
      < 2 ^ 63 := by
    rw [hg, hwe]
    decide
  ⟨⟨hv, hvl, (C7_skip_correctness [0x61] (.value (.varint [0x85] 0x01)) hv hvl).1⟩,
    ⟨hw, hwl, (C7_skip_correctness [0x61]
      (.group [.value 7 (.varint [0x85] 0x01), .startGroup 3, .endGroup 3]) hw hwl).2⟩⟩

/-! ## A field-1 tag of the wrong wire type -/

theorem unmarshalBody_wrongWireType (options : UnmarshalOptions) (d : List Byte)
    (x : GenesisState) (i j wire : Nat) (h : varintLoop d varintFuel 0 i 0 = .done wire j)
    (hf : int32 ((wire >>> 3 : Nat) : Int) = 1) (hw2 : wire &&& 0x7 ≠ 2)
    (hw4 : wire &&& 0x7 ≠ 4) :
    unmarshalBody options d x i = .stop ⟨x, j, .error (.wrongWireType (wire &&& 0x7))⟩ := by
  have c1 : ¬ int32 ((wire >>> 3 : Nat) : Int) ≤ 0 := by omega
  simp [unmarshalBody, h, hf, hw2, hw4]

/-- Claim C11. At every record position the decoder reaches, once the tag is
read: when the field number is 1 and the wire type is neither 2 nor 4, the
call returns the wrong-wire-type error (which carries the wire type found)
with the cursor just past the tag, and the message is returned as it was,
nothing being appended to `GenTxs`. -/
theorem C11_wire_type_mismatch (options : UnmarshalOptions) (x : GenesisState) (d : List Byte)
    (i j wire fuel : Nat) (hi : i < d.length)
    (htag : varintLoop d varintFuel 0 i 0 = .done wire j)
    (hw2 : wire &&& 0x7 ≠ 2) (hw4 : wire &&& 0x7 ≠ 4) :
    (int32 ((wire >>> 3 : Nat) : Int) = 1 →
      unmarshalLoop options d (fuel + 1) x i
        = ⟨x, j, .error (.wrongWireType (wire &&& 0x7))⟩) ∧
    (wire >>> 3 = 1 →
      unmarshalLoop options d (fuel + 1) x i
        = ⟨x, j, .error (.wrongWireType (wire &&& 0x7))⟩) ∧
    (i = 0 → int32 ((wire >>> 3 : Nat) : Int) = 1 →
      unmarshal options (some x) d = (some x, .error (.wrongWireType (wire &&& 0x7)))) := by
  have h1 : ∀ fuel, int32 ((wire >>> 3 : Nat) : Int) = 1 →
      unmarshalLoop options d (fuel + 1) x i
        = ⟨x, j, .error (.wrongWireType (wire &&& 0x7))⟩ :=
    fun fuel hf =>
      unmarshalLoop_stop _ _ _ _ _ _ hi (unmarshalBody_wrongWireType _ _ _ _ _ _ htag hf hw2 hw4)
  have hd : d.length = d.length - 1 + 1 := by omega
  refine ⟨h1 fuel, ?_, ?_⟩
  · intro hz
    exact h1 fuel (by rw [hz]; decide)
  · intro hi0 hf
    subst hi0
    simp only [unmarshal, unmarshalMsg]
    rw [hd, h1 _ hf]

/-- Witness of C11: a field-1 tag of wire type 0 (`0x08`) and one of wire type
5 (`0x0d`), each after one decoded record. -/
theorem C11_wire_type_mismatch_witness :
    (2 < ([0x0a, 0x00, 0x08, 0x01] : List Byte).length ∧
      varintLoop [0x0a, 0x00, 0x08, 0x01] varintFuel 0 2 0 = .done 8 3 ∧
      unmarshalLoop defaultOptions [0x0a, 0x00, 0x08, 0x01] (0 + 1) ⟨none, some [[]]⟩ 2
        = ⟨⟨none, some [[]]⟩, 3, .error (.wrongWireType (8 &&& 0x7))⟩) ∧
    (0 < ([0x0d, 0x00, 0x00, 0x00, 0x00] : List Byte).length ∧
      varintLoop [0x0d, 0x00, 0x00, 0x00, 0x00] varintFuel 0 0 0 = .done 13 1 ∧
      unmarshal defaultOptions (some emptyMessage) [0x0d, 0x00, 0x00, 0x00, 0x00]
        = (some emptyMessage, .error (.wrongWireType (13 &&& 0x7)))) :=
  ⟨⟨by decide, by decide,
      (C11_wire_type_mismatch defaultOptions ⟨none, some [[]]⟩ [0x0a, 0x00, 0x08, 0x01] 2 3 8 0
        (by decide) (by decide) (by decide) (by decide)).1 (by decide)⟩,
    ⟨by decide, by decide,
      (C11_wire_type_mismatch defaultOptions emptyMessage [0x0d, 0x00, 0x00, 0x00, 0x00] 0 1 13 0
        (by decide) (by decide) (by decide) (by decide)).2.2 rfl (by decide)⟩⟩

/-! ## Records of undeclared fields -/

theorem Record_encode_length_pos (r : Record) : 1 ≤ r.encode.length := by
  cases r with
  | value fieldNum v =>
    have := tagBytes_length_pos fieldNum v.wireType
    simp only [Record.encode, List.length_append]
    omega
  | group fieldNum inner =>
    have := tagBytes_length_pos fieldNum 3
    simp only [Record.encode, List.length_append]
    omega

theorem closesGroups_last_valid (ts : List Token) (fieldNum : Nat) : ∀ (depth : Nat),
    closesGroups depth (ts ++ [.endGroup fieldNum]) → validFieldNum fieldNum := by
  induction ts with
  | nil =>
    intro depth h
    exact h.1
  | cons t ts ih =>
    intro depth h
    cases t with
    | value n v => exact ih _ h.2.2
    | startGroup n => exact ih _ h.2
    | endGroup n =>
      have h2 := h.2
      by_cases hd : depth ≤ 1
      · rw [if_pos hd] at h2
        simp at h2
      · rw [if_neg hd] at h2
        exact ih _ h2

theorem Skip_record (r : Record) (suf : List Byte) (hr : r.wellFormed)
    (hl : (r.encode ++ suf).length < 2 ^ 63) :
    Skip (r.encode ++ suf) = ⟨(r.encode.length : Nat), .nil⟩ := by
  have hpos := Record_encode_length_pos r
  obtain ⟨f, hf⟩ : ∃ f, (r.encode ++ suf).length = f + 1 :=
    ⟨(r.encode ++ suf).length - 1, by simp only [List.length_append]; omega⟩
  unfold Skip
  rw [hf]
  cases r with
  | value fieldNum v =>
    have he : (Record.value fieldNum v).encode = tagBytes fieldNum v.wireType ++ v.encode := rfl
    rw [he] at hf hl ⊢
    have hb := skipBody_value [] suf fieldNum 0 v hr.1 hr.2 (by simpa [Token.encode] using hl)
    simp only [List.nil_append, List.length_nil, Nat.zero_add, Token.encode] at hb
    rw [skipAfter_zero] at hb
    rw [skipLoop_stop _ _ _ _ _ (by omega) hb]
  | group fieldNum inner =>
    have hr : closesGroups 1 (inner ++ [.endGroup fieldNum]) := hr
    have hfn := closesGroups_last_valid inner fieldNum 1 hr
    have hd : (Record.group fieldNum inner).encode ++ suf
        = tagBytes fieldNum 3 ++ encodeTokens (inner ++ [.endGroup fieldNum]) ++ suf := by
      simp [Record.encode]
    have hb := skipBody_startGroup [] (encodeTokens (inner ++ [.endGroup fieldNum]) ++ suf)
      fieldNum 0 (validFieldNum_lt hfn)
    simp only [List.nil_append, List.length_nil, Nat.zero_add, Token.encode] at hb
    rw [skipAfter_pos _ _ (le_refl 1), ← List.append_assoc, ← hd] at hb
    rw [skipLoop_next _ _ _ _ _ _ (by omega) hb]
    have := skipLoop_tokens (inner ++ [.endGroup fieldNum]) 1 (tagBytes fieldNum 3) suf f
      (le_refl 1) hr (by rw [← hd]; exact hl)
      (by
        rw [hd] at hf
        have := tagBytes_length_pos fieldNum 3
        simp only [List.length_append] at hf ⊢
        omega)
    rw [← hd] at this
    rw [this]
    simp [Record.encode]

theorem Record_encode_tag (r : Record) (hr : r.wellFormed) (suf : List Byte) :
    ∃ wire j, varintLoop (r.encode ++ suf) varintFuel 0 0 0 = .done wire j ∧
      wire &&& 0x7 ≠ 4 ∧ wire >>> 3 = r.fieldNum := by
  cases r with
  | value fieldNum v =>
    have hwt := wireType_lt v
    have := varintLoop_tag [] (v.encode ++ suf) fieldNum v.wireType hr.1 hwt
    refine ⟨_, _, by simpa [Record.encode] using this, ?_, tag_fieldNum _ _ hwt⟩
    rw [tag_wireType _ _ hwt]
    cases v <;> simp [WireValue.wireType]
  | group fieldNum inner =>
    have hfn := closesGroups_last_valid inner fieldNum 1 hr
    have := varintLoop_tag [] (encodeTokens (inner ++ [.endGroup fieldNum]) ++ suf) fieldNum 3
      (validFieldNum_lt hfn) (by decide)
    refine ⟨_, _, by simpa [Record.encode] using this, ?_, tag_fieldNum _ _ (by decide)⟩
    rw [tag_wireType _ _ (by decide)]
    decide

theorem unmarshalBody_record (options : UnmarshalOptions) (pre suf : List Byte) (r : Record)
    (x : GenesisState) (hr : r.wellFormed) (hfn : 1 < int32 (r.fieldNum : Int))
    (hl : (pre ++ r.encode ++ suf).length < 2 ^ 63) :
    unmarshalBody options (pre ++ r.encode ++ suf) x pre.length
      = .next (if !options.DiscardUnknown then
            { x with unknownFields := goAppend x.unknownFields r.encode } else x,
          pre.length + r.encode.length) := by
  obtain ⟨wire, j, htag, hwt, hnum⟩ := Record_encode_tag r hr suf
  have htag' := varintLoop_reloc_done pre (r.encode ++ suf) 0 wire j htag
  rw [← List.append_assoc, Nat.add_zero] at htag'
  apply unmarshalBody_unknown options pre r.encode suf x _ _ hl htag' hwt (by rw [hnum]; exact hfn)
  apply Skip_record r suf hr
  simp only [List.length_append] at hl ⊢
  omega

/-- Claim C12, as stated, fails. The record with tag value
`((2 ^ 32 + 1) << 3) | 2` and an empty payload is well formed, and its field
number, the 64-bit tag value shifted right by 3, is `2 ^ 32 + 1`: positive and
different from 1. The decoder reads the field number as `int32(wire >> 3)`,
which is 1, and appends the empty payload to `GenTxs`; nothing goes to the
unknown-fields buffer. -/
theorem C12_only_field_one_counterexample :
    (Record.value (2 ^ 32 + 1) (.lengthDelimited [])).wellFormed ∧
    0 < (Record.value (2 ^ 32 + 1) (.lengthDelimited [])).fieldNum ∧
    (Record.value (2 ^ 32 + 1) (.lengthDelimited [])).fieldNum ≠ 1 ∧
    (Record.value (2 ^ 32 + 1) (.lengthDelimited [])).encode
      = [0x8a, 0x80, 0x80, 0x80, 0x80, 0x01, 0x00] ∧
    unmarshal defaultOptions (some emptyMessage) [0x8a, 0x80, 0x80, 0x80, 0x80, 0x01, 0x00]
      = (some ⟨none, some [[]]⟩, .nil) ∧
    (⟨none, some [[]]⟩ : GenesisState).GenTxs ≠ emptyMessage.GenTxs := by
  refine ⟨⟨by norm_num, trivial⟩, by decide, by decide, ?_, by decide, by decide⟩
  simp [Record.encode, tagBytes, WireValue.wireType, WireValue.encode, varint]
  decide

theorem unmarshalLoop_one (options : UnmarshalOptions) (d : List Byte) (x x' : GenesisState)
    (hd : 0 < d.length) (h : unmarshalBody options d x 0 = .next (x', d.length)) :
    unmarshalLoop options d d.length x 0 = ⟨x', d.length, .nil⟩ := by
  obtain ⟨n, hn⟩ : ∃ n, d.length = n + 1 := ⟨d.length - 1, by omega⟩
  have := unmarshalLoop_next options d n x x' 0 d.length hd h
  rw [unmarshalLoop_at_end _ _ _ _ _ rfl, ← hn] at this
  exact this

/-- Claim C12, amended. For every well-formed record whose field number, as
the decoder reads it (the 64-bit tag value shifted right by 3 and converted to
`int32`), is greater than 1, at any record position of an input of Go size:
the turn of the loop of `unmarshal` with default options that starts at the
record leaves `GenTxs` as it was, appends exactly the bytes of the record to
the unknown-fields buffer and moves the cursor to the end of the record; and
unmarshalling the record alone returns `nil` with the same result. -/
theorem C12_only_field_one (x : GenesisState) (pre suf : List Byte) (r : Record)
    (hr : r.wellFormed) (hfn : 1 < int32 (r.fieldNum : Int))
    (hl : (pre ++ r.encode ++ suf).length < 2 ^ 63) :
    unmarshalBody defaultOptions (pre ++ r.encode ++ suf) x pre.length
      = .next (⟨some (x.unknownFields.elems ++ r.encode), x.GenTxs⟩,
          pre.length + r.encode.length) ∧
    unmarshal defaultOptions (some x) r.encode
      = (some ⟨some (x.unknownFields.elems ++ r.encode), x.GenTxs⟩, .nil) := by
  have hpos := Record_encode_length_pos r
  have hun : goAppend x.unknownFields r.encode = some (x.unknownFields.elems ++ r.encode) := by
    cases hre : r.encode with
    | nil => rw [hre] at hpos; simp at hpos
    | cons a l => cases hu : x.unknownFields <;> simp [goAppend, Slice.elems]
  have hbody : ∀ (pre suf : List Byte), (pre ++ r.encode ++ suf).length < 2 ^ 63 →
      unmarshalBody defaultOptions (pre ++ r.encode ++ suf) x pre.length
        = .next (⟨some (x.unknownFields.elems ++ r.encode), x.GenTxs⟩,
            pre.length + r.encode.length) := by
    intro pre suf hl
    rw [unmarshalBody_record defaultOptions pre suf r x hr hfn hl]
    simp [defaultOptions, hun]
  refine ⟨hbody pre suf hl, ?_⟩
  have b := hbody [] [] (by
    simp only [List.length_append, List.length_nil] at hl ⊢
    omega)
  simp only [List.nil_append, List.append_nil, List.length_nil, Nat.zero_add] at b
  simp only [unmarshal, unmarshalMsg]
  rw [unmarshalLoop_one _ _ _ _ (by omega) b]

/-- Witness of C12 (amended): the field-2 varint record `10 85 01` after one
decoded `gen_txs` record, and the group of field 3 `1b 10 05 1c` alone. -/
theorem C12_only_field_one_witness :
    ((Record.value 2 (.varint [0x85] 0x01)).wellFormed ∧
      1 < int32 ((Record.value 2 (.varint [0x85] 0x01)).fieldNum : Int) ∧
      ([0x0a, 0x00] ++ (Record.value 2 (.varint [0x85] 0x01)).encode ++ []).length < 2 ^ 63 ∧
      unmarshalBody defaultOptions
          ([0x0a, 0x00] ++ (Record.value 2 (.varint [0x85] 0x01)).encode ++ [])
          ⟨none, some [[]]⟩ ([0x0a, 0x00] : List Byte).length
        = .next (⟨some (Record.value 2 (.varint [0x85] 0x01)).encode, some [[]]⟩,
            ([0x0a, 0x00] : List Byte).length
              + (Record.value 2 (.varint [0x85] 0x01)).encode.length)) ∧
    ((Record.group 3 [.value 2 (.varint [] 0x05)]).wellFormed ∧
      1 < int32 ((Record.group 3 [.value 2 (.varint [] 0x05)]).fieldNum : Int) ∧
      ([] ++ (Record.group 3 [.value 2 (.varint [] 0x05)]).encode ++ []).length < 2 ^ 63 ∧
      unmarshal defaultOptions (some emptyMessage)
          (Record.group 3 [.value 2 (.varint [] 0x05)]).encode
        = (some ⟨some (Record.group 3 [.value 2 (.varint [] 0x05)]).encode, none⟩, .nil)) :=
  have hv : (Record.value 2 (.varint [0x85] 0x01)).wellFormed :=
    ⟨by norm_num, by decide, by
      intro b hb
      simp only [List.mem_singleton] at hb
      subst hb
      decide, by decide⟩
  have hve : (Record.value 2 (.varint [0x85] 0x01)).encode = [0x10, 0x85, 0x01] := by
    simp [Record.encode, tagBytes, varint, WireValue.encode, WireValue.wireType]
    decide
  have hvl : ([0x0a, 0x00] ++ (Record.value 2 (.varint [0x85] 0x01)).encode ++ []).length
      < 2 ^ 63 := by
    rw [hve]
    decide
  have hg : (Record.group 3 [.value 2 (.varint [] 0x05)]).wellFormed :=
    ⟨⟨by decide, by decide⟩,
      ⟨by decide, by
        intro b hb
        simp at hb, by decide⟩,
      ⟨by decide, by decide⟩, rfl, rfl⟩
  have hge : (Record.group 3 [.value 2 (.varint [] 0x05)]).encode = [0x1b, 0x10, 0x05, 0x1c] := by
    simp [Record.encode, tagBytes, encodeTokens, Token.encode, varint, WireValue.encode,
      WireValue.wireType]
    decide
  have hgl : ([] ++ (Record.group 3 [.value 2 (.varint [] 0x05)]).encode ++ []).length
      < 2 ^ 63 := by
    rw [hge]
    decide
  ⟨⟨hv, by decide, hvl,
      (C12_only_field_one ⟨none, some [[]]⟩ [0x0a, 0x00] []
        (.value 2 (.varint [0x85] 0x01)) hv (by decide) hvl).1⟩,
    ⟨hg, by decide, hgl,
      (C12_only_field_one emptyMessage [] []
        (.group 3 [.value 2 (.varint [] 0x05)]) hg (by decide) hgl).2⟩⟩

/-! ## The loop body, the message left aside -/

theorem unmarshalBody_eq_turn (options : UnmarshalOptions) (d : List Byte) (x : GenesisState)
    (i : Nat) : unmarshalBody options d x i = (turn d i).apply options x := by
  cases hv : varintLoop d varintFuel 0 i 0 with
  | fail s j => simp [unmarshalBody, turn, Turn.apply, hv]
  | done wire j₁ =>
    by_cases hwt : wire &&& 0x7 = 4
    · simp [unmarshalBody, turn, Turn.apply, hv, hwt]
    by_cases hf : int32 ((wire >>> 3 : Nat) : Int) ≤ 0
    · simp [unmarshalBody, turn, Turn.apply, hv, hwt, hf]
    by_cases h1 : int32 ((wire >>> 3 : Nat) : Int) = 1
    · by_cases hw2 : wire &&& 0x7 = 2
      · cases hv2 : varintLoop d varintFuel 0 j₁ 0 with
        | fail s j => simp [unmarshalBody, turn, Turn.apply, hv, hwt, hf, h1, hw2, hv2]
        | done word j₂ =>
          by_cases c1 : int64 word < 0
          · simp [unmarshalBody, turn, Turn.apply, hv, hwt, hf, h1, hw2, hv2, c1]
          by_cases c2 : int64 (j₂ + int64 word) < 0
          · simp [unmarshalBody, turn, Turn.apply, hv, hwt, hf, h1, hw2, hv2, c1, c2]
          by_cases c3 : int64 (j₂ + int64 word) > d.length
          · simp [unmarshalBody, turn, Turn.apply, hv, hwt, hf, h1, hw2, hv2, c1, c2, c3]
          cases hs : slice d j₂ (int64 (j₂ + int64 word)) with
          | none => simp [unmarshalBody, turn, Turn.apply, hv, hwt, hf, h1, hw2, hv2, c1, c2, c3, hs]
          | some b =>
            simp [unmarshalBody, turn, Turn.apply, hv, hwt, hf, h1, hw2, hv2, c1, c2, c3, hs]
      · simp [unmarshalBody, turn, Turn.apply, hv, hwt, hf, h1, hw2]
    · cases hs : slice d i d.length with
      | none => simp [unmarshalBody, turn, Turn.apply, hv, hwt, hf, h1, hs]
      | some rest =>
        by_cases c0 : (Skip rest).status = .nil
        · by_cases c1 : (Skip rest).n < 0 ∨ int64 (i + (Skip rest).n) < 0
          · simp [unmarshalBody, turn, Turn.apply, hv, hwt, hf, h1, hs, c0, c1]
          by_cases c3 : int64 (i + (Skip rest).n) > d.length
          · simp [unmarshalBody, turn, Turn.apply, hv, hwt, hf, h1, hs, c0, c1, c3]
          cases hs2 : slice d i (int64 (i + (Skip rest).n)) with
          | none => simp [unmarshalBody, turn, Turn.apply, hv, hwt, hf, h1, hs, c0, c1, c3, hs2]
          | some raw =>
            simp [unmarshalBody, turn, Turn.apply, hv, hwt, hf, h1, hs, c0, c1, c3, hs2]
        · simp [unmarshalBody, turn, Turn.apply, hv, hwt, hf, h1, hs, c0]

theorem unmarshalLoop_discard (d : List Byte) (fuel : Nat) :
    ∀ (xd xk : GenesisState) (i : Nat), xd.GenTxs = xk.GenTxs →
    (unmarshalLoop ⟨true⟩ d fuel xd i).status = (unmarshalLoop ⟨false⟩ d fuel xk i).status ∧
    (unmarshalLoop ⟨true⟩ d fuel xd i).iNdEx = (unmarshalLoop ⟨false⟩ d fuel xk i).iNdEx ∧
    (unmarshalLoop ⟨true⟩ d fuel xd i).x.GenTxs = (unmarshalLoop ⟨false⟩ d fuel xk i).x.GenTxs ∧
    (unmarshalLoop ⟨true⟩ d fuel xd i).x.unknownFields = xd.unknownFields ∧
    (unmarshalLoop ⟨false⟩ d fuel xk i).x.unknownFields
      = (skippedRecords d fuel i).foldl goAppend xk.unknownFields := by
  induction fuel with
  | zero =>
    intro xd xk i hg
    simp only [unmarshalLoop, unmarshalEnd, skippedRecords, List.foldl_nil]
    split_ifs <;> simp [hg]
  | succ fuel ih =>
    intro xd xk i hg
    rw [unmarshalLoop, unmarshalLoop, skippedRecords]
    by_cases hi : i < d.length
    · rw [if_pos hi, if_pos hi, if_pos hi, unmarshalBody_eq_turn, unmarshalBody_eq_turn]
      cases ht : turn d i with
      | genTx b j =>
        simp only [Turn.apply]
        exact ih _ _ j (by simp [hg])
      | skipped raw j =>
        simp only [Turn.apply, Bool.not_true, Bool.not_false, if_true, List.foldl_cons]
        exact ih xd { xk with unknownFields := goAppend xk.unknownFields raw } j hg
      | ret j s =>
        simp [Turn.apply, hg]
    · rw [if_neg hi, if_neg hi, if_neg hi]
      simp only [unmarshalEnd, List.foldl_nil]
      split_ifs <;> simp [hg]

theorem turn_skipped (d : List Byte) (i j : Nat) (raw : List Byte)
    (h : turn d i = .skipped raw j) : slice d i j = some raw ∧ j ≤ d.length := by
  cases hv : varintLoop d varintFuel 0 i 0 with
  | fail s j => simp [turn, hv] at h
  | done wire j₁ =>
    simp only [turn, hv] at h
    split_ifs at h with hwt hf h1 hw2
    · split at h
      · cases h
      · split_ifs at h
        split at h <;> cases h
    · split at h
      · cases h
      · rename_i rest hs
        split_ifs at h with c0 c1 c3
        split at h
        · cases h
        · rename_i raw' hs2
          cases h
          have hb := (slice_some_length _ _ _ _ hs2).2.1
          have e : (((int64 (i + (Skip rest).n)).toNat : Nat) : Int) = int64 (i + (Skip rest).n) :=
            Int.toNat_of_nonneg (by omega)
          rw [e]
          exact ⟨hs2, by omega⟩

/-- Claim C13. For every input and every target message: unmarshalling with
`DiscardUnknown` set returns the same error (or `nil`) and leaves the same
`GenTxs` as unmarshalling without it, and leaves the unknown-fields buffer as
it was before the call; without the option the buffer after the call is the
buffer before it with the raw bytes of the skipped records appended one after
the other in the order of the input, where each skipped record is the part
`dAtA[i:j]` of the input between the cursor before and after its turn. On a
nil message both calls return `nil` at once. -/
theorem C13_discard_unknown (x : GenesisState) (d : List Byte) :
    (unmarshalMsg ⟨true⟩ x d).status = (unmarshalMsg ⟨false⟩ x d).status ∧
    (unmarshalMsg ⟨true⟩ x d).x.GenTxs = (unmarshalMsg ⟨false⟩ x d).x.GenTxs ∧
    (unmarshalMsg ⟨true⟩ x d).x.unknownFields = x.unknownFields ∧
    (unmarshalMsg ⟨false⟩ x d).x.unknownFields
      = (skippedRecords d d.length 0).foldl goAppend x.unknownFields ∧
    (∀ (i j : Nat) (raw : List Byte), turn d i = .skipped raw j →
      slice d i j = some raw ∧ j ≤ d.length) ∧
    unmarshal ⟨true⟩ none d = unmarshal ⟨false⟩ none d := by
  obtain ⟨h1, _, h3, h4, h5⟩ := unmarshalLoop_discard d d.length x x 0 rfl
  exact ⟨h1, h3, h4, h5, fun i j raw h => turn_skipped d i j raw h, rfl⟩

/-- Witness of C13: the input `10 05 0a 00 18 01` (a field-2 varint, an empty
`gen_txs` element, a field-3 varint) decoded into a message that holds one
element and the unknown bytes `20 07`. -/
theorem C13_discard_unknown_witness :
    turn [0x10, 0x05, 0x0a, 0x00, 0x18, 0x01] 4 = .skipped [0x18, 0x01] 6 ∧
    (slice [0x10, 0x05, 0x0a, 0x00, 0x18, 0x01] (4 : Nat) (6 : Nat) = some [0x18, 0x01] ∧
      6 ≤ ([0x10, 0x05, 0x0a, 0x00, 0x18, 0x01] : List Byte).length) ∧
    skippedRecords [0x10, 0x05, 0x0a, 0x00, 0x18, 0x01] 6 0 = [[0x10, 0x05], [0x18, 0x01]] ∧
    (unmarshalMsg ⟨false⟩ ⟨some [0x20, 0x07], some [[0x61]]⟩
        [0x10, 0x05, 0x0a, 0x00, 0x18, 0x01]).x
      = ⟨some [0x20, 0x07, 0x10, 0x05, 0x18, 0x01], some [[0x61], []]⟩ ∧
    (unmarshalMsg ⟨true⟩ ⟨some [0x20, 0x07], some [[0x61]]⟩
        [0x10, 0x05, 0x0a, 0x00, 0x18, 0x01]).x
      = ⟨some [0x20, 0x07], some [[0x61], []]⟩ ∧
    (unmarshalMsg ⟨true⟩ ⟨some [0x20, 0x07], some [[0x61]]⟩
        [0x10, 0x05, 0x0a, 0x00, 0x18, 0x01]).x.unknownFields
      = (⟨some [0x20, 0x07], some [[0x61]]⟩ : GenesisState).unknownFields :=
  ⟨by decide,
    (C13_discard_unknown ⟨some [0x20, 0x07], some [[0x61]]⟩
      [0x10, 0x05, 0x0a, 0x00, 0x18, 0x01]).2.2.2.2.1 4 6 [0x18, 0x01] (by decide),
    by decide, by decide, by decide,
    (C13_discard_unknown ⟨some [0x20, 0x07], some [[0x61]]⟩
      [0x10, 0x05, 0x0a, 0x00, 0x18, 0x01]).2.2.1⟩

/-! ## Where the cursor ends -/

theorem unmarshalBody_next_le (options : UnmarshalOptions) (d : List Byte)
    (x x' : GenesisState) (i j : Nat) (h : unmarshalBody options d x i = .next (x', j)) :
    j ≤ d.length := by
  rcases unmarshalBody_cases options d x i with
    ⟨r, hr, _, _⟩ | ⟨_, _, _, _, _, _, _, _, _, _, c2, c3, _, hbody⟩ |
    ⟨_, _, _, _, _, _, _, _, _, _, c2, c3, _, hbody⟩
  · rw [hr] at h
    cases h
  · rw [hbody] at h
    cases h
    omega
  · rw [hbody] at h
    cases h
    omega

theorem unmarshalLoop_nil_cursor (options : UnmarshalOptions) (d : List Byte) (fuel : Nat) :
    ∀ (x : GenesisState) (i : Nat), (unmarshalLoop options d fuel x i).status = .nil →
    (unmarshalLoop options d fuel x i).iNdEx = d.length := by
  induction fuel with
  | zero =>
    intro x i h
    simp only [unmarshalLoop, unmarshalEnd] at h ⊢
    split_ifs at h ⊢
    simp at h ⊢
    omega
  | succ fuel ih =>
    intro x i h
    rw [unmarshalLoop] at h ⊢
    by_cases hi : i < d.length
    · rw [if_pos hi] at h ⊢
      cases hb : unmarshalBody options d x i with
      | next s =>
        obtain ⟨x', j⟩ := s
        rw [hb] at h
        exact ih x' j h
      | stop r =>
        rw [hb] at h
        exact absurd h (unmarshalBody_stop_ne_nil options d x i r hb).1
    · rw [if_neg hi] at h ⊢
      simp only [unmarshalEnd] at h ⊢
      split_ifs at h ⊢
      simp at h ⊢
      omega

/-- Claim C14. Whenever `unmarshal` returns `nil`, its cursor equals the
length of the input; after every turn of the loop that does not return (a
record decoded or skipped without failure) the cursor is at most the length of
the input; and the statements after the loop return the end-of-input error
exactly when the cursor is past the length of the input, and `nil`
otherwise. -/
theorem C14_exact_consumption (options : UnmarshalOptions) (d : List Byte) :
    (∀ x : GenesisState, (unmarshalMsg options x d).status = .nil →
      (unmarshalMsg options x d).iNdEx = d.length) ∧
    (∀ (x x' : GenesisState) (i j : Nat),
      unmarshalBody options d x i = .next (x', j) → j ≤ d.length) ∧
    (∀ (x : GenesisState) (i : Nat),
      (unmarshalEnd d x i = ⟨x, i, .error .ErrUnexpectedEOF⟩ ↔ d.length < i) ∧
      (unmarshalEnd d x i = ⟨x, i, .nil⟩ ↔ i ≤ d.length)) := by
  refine ⟨fun x h => unmarshalLoop_nil_cursor options d d.length x 0 h,
    fun x x' i j h => unmarshalBody_next_le options d x x' i j h, ?_⟩
  intro x i
  unfold unmarshalEnd
  constructor
  · split_ifs with h <;> simp [h]
  · split_ifs with h <;> simp [h]
    omega

/-- Witness of C14: the input `0a 01 61`, one complete record, is decoded with
the cursor at 3; its first two bytes alone are not. -/
theorem C14_exact_consumption_witness :
    (unmarshalMsg defaultOptions emptyMessage [0x0a, 0x01, 0x61]).status = .nil ∧
    (unmarshalMsg defaultOptions emptyMessage [0x0a, 0x01, 0x61]).iNdEx
      = ([0x0a, 0x01, 0x61] : List Byte).length ∧
    (unmarshalMsg defaultOptions emptyMessage [0x0a, 0x01]).status = .error .ErrUnexpectedEOF :=
  ⟨by decide,
    (C14_exact_consumption defaultOptions [0x0a, 0x01, 0x61]).1 emptyMessage (by decide),
    by decide⟩

/-! ## The reflective accessor on `gen_txs` -/

theorem Has_gen_txs (m : Memory) :
    fastReflection_GenesisState.Has m fd_GenesisState_gen_txs = .ok (m.x.GenTxs.len != 0) := by
  simp [fastReflection_GenesisState.Has, fd_GenesisState_gen_txs]

theorem Get_gen_txs (m : Memory) :
    fastReflection_GenesisState.Get m fd_GenesisState_gen_txs
      = .ok (.list ⟨if m.x.GenTxs.len = 0 then .nil else .genTxs⟩) := by
  simp only [fastReflection_GenesisState.Get, fd_GenesisState_gen_txs, if_true]
  split_ifs <;> rfl

theorem Clear_gen_txs (m : Memory) :
    fastReflection_GenesisState.Clear m fd_GenesisState_gen_txs
      = (.ok (), { m with x := { m.x with GenTxs := none } }) := by
  simp [fastReflection_GenesisState.Clear, fd_GenesisState_gen_txs]

theorem Set_gen_txs (m : Memory) (value : Value) :
    fastReflection_GenesisState.Set m fd_GenesisState_gen_txs value
      = match value.List with
        | .error p => (.error p, m)
        | .ok clv =>
          match m.load clv.list with
          | none => (.error .nilDereference, m)
          | some s => (.ok (), { m with x := { m.x with GenTxs := s } }) := by
  simp [fastReflection_GenesisState.Set, fd_GenesisState_gen_txs]

theorem Mutable_gen_txs (m : Memory) :
    fastReflection_GenesisState.Mutable m fd_GenesisState_gen_txs
      = (.ok (.list ⟨.genTxs⟩),
          if m.x.GenTxs = none then { m with x := { m.x with GenTxs := some [] } } else m) := by
  simp [fastReflection_GenesisState.Mutable, fd_GenesisState_gen_txs]

theorem NewField_gen_txs (m : Memory) :
    fastReflection_GenesisState.NewField m fd_GenesisState_gen_txs
      = (.ok (.list ⟨.var m.vars.length⟩), { m with vars := m.vars ++ [some []] }) := by
  simp [fastReflection_GenesisState.NewField, fd_GenesisState_gen_txs]

/-- Claim C15, as stated, fails. For the empty message, and for a message
whose `GenTxs` is the non-nil slice of length 0, `Get` returns the view
`&_GenesisState_1_list{}`, whose `list` pointer is nil: `Len` returns 0 and
`IsValid` returns false. -/
theorem C15_get_unpopulated_counterexample :
    (fastReflection_GenesisState.Get ⟨⟨none, none⟩, []⟩ fd_GenesisState_gen_txs
        = .ok (.list ⟨.nil⟩) ∧
      fastReflection_GenesisState.Get ⟨⟨none, some []⟩, []⟩ fd_GenesisState_gen_txs
        = .ok (.list ⟨.nil⟩)) ∧
    _GenesisState_1_list.IsValid ⟨.nil⟩ = false ∧
    _GenesisState_1_list.Len ⟨.nil⟩ ⟨⟨none, none⟩, []⟩ = .ok 0 := by
  decide

/-- Claim C15, amended. For every message whose `GenTxs` is empty (nil or of
length 0), `Get` for the descriptor of `gen_txs` returns the empty, read-only
view, the one with no backing binding: `Len` returns 0 and `IsValid` returns
false. -/
theorem C15_get_unpopulated (m : Memory) (h : m.x.GenTxs.len = 0) :
    ∃ v : _GenesisState_1_list,
      fastReflection_GenesisState.Get m fd_GenesisState_gen_txs = .ok (.list v) ∧
      v.list = .nil ∧ v.IsValid = false ∧ v.Len m = .ok 0 := by
  refine ⟨⟨.nil⟩, ?_, rfl, rfl, rfl⟩
  rw [Get_gen_txs, if_pos h]

/-- Witness of C15 (amended): the message whose `GenTxs` is the non-nil empty
slice. -/
theorem C15_get_unpopulated_witness :
    (⟨⟨some [0x10, 0x05], some []⟩, []⟩ : Memory).x.GenTxs.len = 0 ∧
    ∃ v : _GenesisState_1_list,
      fastReflection_GenesisState.Get ⟨⟨some [0x10, 0x05], some []⟩, []⟩ fd_GenesisState_gen_txs
        = .ok (.list v) ∧
      v.list = .nil ∧ v.IsValid = false ∧ v.Len ⟨⟨some [0x10, 0x05], some []⟩, []⟩ = .ok 0 :=
  ⟨by decide, C15_get_unpopulated ⟨⟨some [0x10, 0x05], some []⟩, []⟩ (by decide)⟩

/-- Claim C16. For every message, `Has` for `gen_txs` returns true exactly
when `Len` of the view that `Get` returns is greater than 0; for a nil and for
a zero-length `GenTxs` it returns false. -/
theorem C16_presence_law (m : Memory) :
    (∃ (v : _GenesisState_1_list) (n : Nat),
      fastReflection_GenesisState.Get m fd_GenesisState_gen_txs = .ok (.list v) ∧
      v.Len m = .ok n ∧
      fastReflection_GenesisState.Has m fd_GenesisState_gen_txs = .ok (decide (0 < n))) ∧
    (m.x.GenTxs = none ∨ m.x.GenTxs = some [] →
      fastReflection_GenesisState.Has m fd_GenesisState_gen_txs = .ok false) := by
  constructor
  · by_cases h : m.x.GenTxs.len = 0
    · refine ⟨⟨.nil⟩, 0, ?_, rfl, ?_⟩
      · rw [Get_gen_txs, if_pos h]
      · rw [Has_gen_txs, h]
        rfl
    · refine ⟨⟨.genTxs⟩, m.x.GenTxs.len, ?_, rfl, ?_⟩
      · rw [Get_gen_txs, if_neg h]
      · rw [Has_gen_txs]
        congr 1
        simp [h, Nat.pos_of_ne_zero h]
  · intro h
    rw [Has_gen_txs]
    rcases h with h | h <;> rw [h] <;> rfl

/-- Witness of C16: a message with two elements, and the two unpopulated
messages. -/
theorem C16_presence_law_witness :
    fastReflection_GenesisState.Has ⟨⟨none, some [[0x61], []]⟩, []⟩ fd_GenesisState_gen_txs
      = .ok true ∧
    _GenesisState_1_list.Len ⟨.genTxs⟩ ⟨⟨none, some [[0x61], []]⟩, []⟩ = .ok 2 ∧
    fastReflection_GenesisState.Has ⟨⟨none, none⟩, []⟩ fd_GenesisState_gen_txs = .ok false ∧
    fastReflection_GenesisState.Has ⟨⟨none, some []⟩, []⟩ fd_GenesisState_gen_txs = .ok false :=
  ⟨by decide, by decide, (C16_presence_law ⟨⟨none, none⟩, []⟩).2 (Or.inl rfl),
    (C16_presence_law ⟨⟨none, some []⟩, []⟩).2 (Or.inr rfl)⟩

/-- Claim C17. For every message, `Clear` for `gen_txs` returns without a
panic; after it `Has` returns false and the view that `Get` returns has length
0; the unknown-fields buffer (and every variable outside the message) is as
before; and clearing again changes nothing. -/
theorem C17_clear (m : Memory) :
    (fastReflection_GenesisState.Clear m fd_GenesisState_gen_txs).1 = .ok () ∧
    fastReflection_GenesisState.Has
      (fastReflection_GenesisState.Clear m fd_GenesisState_gen_txs).2 fd_GenesisState_gen_txs
      = .ok false ∧
    (∃ v : _GenesisState_1_list,
      fastReflection_GenesisState.Get
        (fastReflection_GenesisState.Clear m fd_GenesisState_gen_txs).2 fd_GenesisState_gen_txs
        = .ok (.list v) ∧
      v.Len (fastReflection_GenesisState.Clear m fd_GenesisState_gen_txs).2 = .ok 0) ∧
    (fastReflection_GenesisState.Clear m fd_GenesisState_gen_txs).2.x.unknownFields
      = m.x.unknownFields ∧
    (fastReflection_GenesisState.Clear m fd_GenesisState_gen_txs).2.vars = m.vars ∧
    fastReflection_GenesisState.Clear
      (fastReflection_GenesisState.Clear m fd_GenesisState_gen_txs).2 fd_GenesisState_gen_txs
      = fastReflection_GenesisState.Clear m fd_GenesisState_gen_txs := by
  rw [Clear_gen_txs]
  refine ⟨rfl, ?_, ⟨⟨.nil⟩, ?_, rfl⟩, rfl, rfl, ?_⟩
  · rw [Has_gen_txs]
    rfl
  · rw [Get_gen_txs]
    rfl
  · rw [Clear_gen_txs]

/-- Witness of C17: clearing a message with two elements and unknown bytes. -/
theorem C17_clear_witness :
    fastReflection_GenesisState.Clear ⟨⟨some [0x10, 0x05], some [[0x61], []]⟩, [some [[]]]⟩
        fd_GenesisState_gen_txs
      = (.ok (), ⟨⟨some [0x10, 0x05], none⟩, [some [[]]]⟩) ∧
    fastReflection_GenesisState.Has
      (fastReflection_GenesisState.Clear ⟨⟨some [0x10, 0x05], some [[0x61], []]⟩, [some [[]]]⟩
        fd_GenesisState_gen_txs).2 fd_GenesisState_gen_txs
      = .ok false :=
  ⟨by decide,
    (C17_clear ⟨⟨some [0x10, 0x05], some [[0x61], []]⟩, [some [[]]]⟩).2.1⟩

/-- Claim C18. For every message with `GenTxs = s` and every byte string `b`:
`Mutable` for `gen_txs` returns a view `v`, and after `v.Append(b)`, with no
call of `Set`, the `GenTxs` of the message is `s` followed by `b`: the view
that `Get` returns has length `len(s) + 1`, its element `len(s)` is `b`, its
elements below `len(s)` are those of `s` in order, and `Has` returns true. The
unknown-fields buffer is as before. -/
theorem C18_view_write_through (m : Memory) (b : List Byte) :
    ∃ (v : _GenesisState_1_list) (m₁ m₂ : Memory),
      fastReflection_GenesisState.Mutable m fd_GenesisState_gen_txs = (.ok (.list v), m₁) ∧
      v.Append m₁ (.bytes b) = (.ok (), m₂) ∧
      m₂.x.GenTxs = some (m.x.GenTxs.elems ++ [b]) ∧
      m₂.x.unknownFields = m.x.unknownFields ∧
      ∃ g : _GenesisState_1_list,
        fastReflection_GenesisState.Get m₂ fd_GenesisState_gen_txs = .ok (.list g) ∧
        g.Len m₂ = .ok (m.x.GenTxs.len + 1) ∧
        g.Get m₂ (m.x.GenTxs.len : Nat) = .ok (.bytes b) ∧
        (∀ (i : Nat) (e : List Byte), m.x.GenTxs.elems[i]? = some e →
          g.Get m₂ (i : Nat) = .ok (.bytes e)) ∧
        fastReflection_GenesisState.Has m₂ fd_GenesisState_gen_txs = .ok true := by
  have hm : ∀ m₁ : Memory, m₁.x.GenTxs.elems = m.x.GenTxs.elems →
      m₁.x.unknownFields = m.x.unknownFields →
      ∃ m₂ : Memory, _GenesisState_1_list.Append ⟨.genTxs⟩ m₁ (.bytes b) = (.ok (), m₂) ∧
        m₂.x.GenTxs = some (m.x.GenTxs.elems ++ [b]) ∧
        m₂.x.unknownFields = m.x.unknownFields := by
    intro m₁ h₁ h₂
    refine ⟨{ m₁ with x := { m₁.x with GenTxs := some (m₁.x.GenTxs.elems ++ [b]) } }, rfl, ?_, h₂⟩
    simp [h₁]
  obtain ⟨m₂, ha, hg, hu⟩ := hm
    (if m.x.GenTxs = none then { m with x := { m.x with GenTxs := some [] } } else m)
    (by split_ifs with h <;> simp [h, Slice.elems])
    (by split_ifs <;> rfl)
  have hlen : m₂.x.GenTxs.len = m.x.GenTxs.len + 1 := by
    rw [hg]
    simp [Slice.len, Slice.elems]
  have hload : m₂.load .genTxs = some (some (m.x.GenTxs.elems ++ [b])) := by
    simp [Memory.load, hg]
  refine ⟨⟨.genTxs⟩, _, m₂, Mutable_gen_txs m, ha, hg, hu, ⟨.genTxs⟩, ?_, ?_, ?_, ?_, ?_⟩
  · rw [Get_gen_txs, if_neg (by omega)]
  · simp [_GenesisState_1_list.Len, hload, Slice.len, Slice.elems]
  · simp [_GenesisState_1_list.Get, hload, Slice.len, Slice.elems]
  · intro i e hi
    have hlt : i < m.x.GenTxs.elems.length := by
      by_contra hc
      rw [List.getElem?_eq_none (by omega)] at hi
      cases hi
    have : (m.x.GenTxs.elems ++ [b])[i]? = some e := by
      rw [List.getElem?_append_left hlt]
      exact hi
    simp only [Slice.elems] at this hlt
    simp [_GenesisState_1_list.Get, hload, Slice.len, Slice.elems, this]
    omega
  · rw [Has_gen_txs, hlen]
    rfl

/-- Witness of C18: appending `"b"` through the view of a message that holds
`"a"`, and through the view of the empty message. -/
theorem C18_view_write_through_witness :
    (_GenesisState_1_list.Append ⟨.genTxs⟩
        (fastReflection_GenesisState.Mutable ⟨⟨none, some [[0x61]]⟩, []⟩
          fd_GenesisState_gen_txs).2 (.bytes [0x62])
      = (.ok (), ⟨⟨none, some [[0x61], [0x62]]⟩, []⟩)) ∧
    (_GenesisState_1_list.Append ⟨.genTxs⟩
        (fastReflection_GenesisState.Mutable ⟨emptyMessage, []⟩
          fd_GenesisState_gen_txs).2 (.bytes [0x62])
      = (.ok (), ⟨⟨none, some [[0x62]]⟩, []⟩)) ∧
    ∃ (v : _GenesisState_1_list) (m₁ m₂ : Memory),
      fastReflection_GenesisState.Mutable ⟨⟨none, some [[0x61]]⟩, []⟩ fd_GenesisState_gen_txs
        = (.ok (.list v), m₁) ∧
      v.Append m₁ (.bytes [0x62]) = (.ok (), m₂) ∧
      m₂.x.GenTxs = some ([[0x61]] ++ [[0x62]]) :=
  ⟨by decide, by decide,
    match C18_view_write_through ⟨⟨none, some [[0x61]]⟩, []⟩ [0x62] with
    | ⟨v, m₁, m₂, h₁, h₂, h₃, _⟩ => ⟨v, m₁, m₂, h₁, h₂, h₃⟩⟩

/-- Claim C19. For every message and every bound view `lv` whose backing
sequence is `s`, `Set` for `gen_txs` returns without a panic and leaves
`GenTxs` equal to `s` (the previous contents are replaced), the unknown-fields
buffer and every other variable being as before. In particular a view taken
from `NewField`, appended to and then set, leaves `GenTxs` holding exactly the
appended elements. -/
theorem C19_set_adopts (m : Memory) (lv : _GenesisState_1_list) (s : Slice (List Byte))
    (hb : m.load lv.list = some s) :
    fastReflection_GenesisState.Set m fd_GenesisState_gen_txs (.list lv)
      = (.ok (), ⟨⟨m.x.unknownFields, s⟩, m.vars⟩) ∧
    (∀ b c : List Byte, ∃ (v : _GenesisState_1_list) (m₁ m₂ m₃ m₄ : Memory),
      fastReflection_GenesisState.NewField m fd_GenesisState_gen_txs = (.ok (.list v), m₁) ∧
      v.Append m₁ (.bytes b) = (.ok (), m₂) ∧
      v.Append m₂ (.bytes c) = (.ok (), m₃) ∧
      fastReflection_GenesisState.Set m₃ fd_GenesisState_gen_txs (.list v) = (.ok (), m₄) ∧
      m₄.x.GenTxs = some [b, c] ∧ m₄.x.unknownFields = m.x.unknownFields) := by
  constructor
  · rw [Set_gen_txs]
    simp [Value.List, hb]
  · intro b c
    have hget : (m.vars ++ [some ([] : List (List Byte))])[m.vars.length]? = some (some []) := by
      simp
    have hlt : m.vars.length < (m.vars ++ [some ([] : List (List Byte))]).length := by simp
    refine ⟨⟨.var m.vars.length⟩, _,
      ⟨m.x, m.vars ++ [some [b]]⟩, ⟨m.x, m.vars ++ [some [b, c]]⟩,
      ⟨⟨m.x.unknownFields, some [b, c]⟩, m.vars ++ [some [b, c]]⟩, NewField_gen_txs m, ?_, ?_, ?_,
      rfl, rfl⟩
    · simp [_GenesisState_1_list.Append, Value.Bytes, Memory.load, Memory.store, Slice.elems]
    · simp [_GenesisState_1_list.Append, Value.Bytes, Memory.load, Memory.store, Slice.elems]
    · rw [Set_gen_txs]
      simp [Value.List, Memory.load]

/-- Witness of C19: a view bound to a variable that holds two elements, set on
a message that holds one other element and unknown bytes. -/
theorem C19_set_adopts_witness :
    (⟨⟨some [0x10, 0x05], some [[0x63]]⟩, [none, some [[0x61], [0x62]]]⟩ : Memory).load
        (⟨.var 1⟩ : _GenesisState_1_list).list = some (some [[0x61], [0x62]]) ∧
    fastReflection_GenesisState.Set
        ⟨⟨some [0x10, 0x05], some [[0x63]]⟩, [none, some [[0x61], [0x62]]]⟩
        fd_GenesisState_gen_txs (.list ⟨.var 1⟩)
      = (.ok (), ⟨⟨some [0x10, 0x05], some [[0x61], [0x62]]⟩, [none, some [[0x61], [0x62]]]⟩) :=
  ⟨by decide,
    (C19_set_adopts ⟨⟨some [0x10, 0x05], some [[0x63]]⟩, [none, some [[0x61], [0x62]]]⟩
      ⟨.var 1⟩ (some [[0x61], [0x62]]) (by decide)).1⟩

/-- Claim C20. For every message whose `gen_txs` field is unpopulated, `Get`
returns the empty view with no backing binding, and `Set` called with that
view panics (the dereference `*clv.list` of a nil pointer) and stores
nothing: the memory is as before. -/
theorem C20_set_rejects_empty_view (m : Memory) (h : m.x.GenTxs.len = 0) :
    ∃ v : Value, fastReflection_GenesisState.Get m fd_GenesisState_gen_txs = .ok v ∧
      v = .list ⟨.nil⟩ ∧
      fastReflection_GenesisState.Set m fd_GenesisState_gen_txs v = (.error .nilDereference, m) := by
  refine ⟨.list ⟨.nil⟩, ?_, rfl, ?_⟩
  · rw [Get_gen_txs, if_pos h]
  · rw [Set_gen_txs]
    rfl

/-- Witness of C20: the empty message. -/
theorem C20_set_rejects_empty_view_witness :
    (⟨emptyMessage, []⟩ : Memory).x.GenTxs.len = 0 ∧
    ∃ v : Value, fastReflection_GenesisState.Get ⟨emptyMessage, []⟩ fd_GenesisState_gen_txs = .ok v ∧
      v = .list ⟨.nil⟩ ∧
      fastReflection_GenesisState.Set ⟨emptyMessage, []⟩ fd_GenesisState_gen_txs v
        = (.error .nilDereference, ⟨emptyMessage, []⟩) :=
  ⟨by decide, C20_set_rejects_empty_view ⟨emptyMessage, []⟩ (by decide)⟩

/-! ## Descriptors the message does not declare -/

/-- Claim C21. For every field descriptor whose full name is not that of
`gen_txs`, each of `Has`, `Get`, `Set`, `Clear`, `Mutable` and `NewField`
panics, with the extensions-unsupported error when the descriptor is an
extension and with the does-not-contain-field error (which carries the name)
otherwise; the calls that can write (`Set`, `Clear`, `Mutable`, `NewField`)
leave the memory, and so `GenTxs` and the unknown fields, as it was, and `Has`
and `Get` only read it. -/
theorem C21_undeclared_descriptor (m : Memory) (fd : FieldDescriptor) (value : Value)
    (h : fd.FullName ≠ "cosmos.genutil.v1beta1.GenesisState.gen_txs") :
    unknownDescriptor fd
      = (if fd.IsExtension then Panic.extensionsUnsupported
          else Panic.doesNotContainField fd.FullName) ∧
    fastReflection_GenesisState.Has m fd = .error (unknownDescriptor fd) ∧
    fastReflection_GenesisState.Get m fd = .error (unknownDescriptor fd) ∧
    fastReflection_GenesisState.Set m fd value = (.error (unknownDescriptor fd), m) ∧
    fastReflection_GenesisState.Clear m fd = (.error (unknownDescriptor fd), m) ∧
    fastReflection_GenesisState.Mutable m fd = (.error (unknownDescriptor fd), m) ∧
    fastReflection_GenesisState.NewField m fd = (.error (unknownDescriptor fd), m) := by
  refine ⟨rfl, ?_, ?_, ?_, ?_, ?_, ?_⟩
  · simp [fastReflection_GenesisState.Has, h]
  · simp [fastReflection_GenesisState.Get, h]
  · simp [fastReflection_GenesisState.Set, h]
  · simp [fastReflection_GenesisState.Clear, h]
  · simp [fastReflection_GenesisState.Mutable, h]
  · simp [fastReflection_GenesisState.NewField, h]

/-- Witness of C21: an extension descriptor and a plain descriptor of another
field, on a message with one element. -/
theorem C21_undeclared_descriptor_witness :
    ((⟨"cosmos.genutil.v1beta1.ext", true⟩ : FieldDescriptor).FullName
        ≠ "cosmos.genutil.v1beta1.GenesisState.gen_txs" ∧
      fastReflection_GenesisState.Set ⟨⟨none, some [[0x61]]⟩, []⟩
          ⟨"cosmos.genutil.v1beta1.ext", true⟩ (.list ⟨.genTxs⟩)
        = (.error .extensionsUnsupported, ⟨⟨none, some [[0x61]]⟩, []⟩)) ∧
    ((⟨"cosmos.genutil.v1beta1.GenesisState.other", false⟩ : FieldDescriptor).FullName
        ≠ "cosmos.genutil.v1beta1.GenesisState.gen_txs" ∧
      fastReflection_GenesisState.Has ⟨⟨none, some [[0x61]]⟩, []⟩
          ⟨"cosmos.genutil.v1beta1.GenesisState.other", false⟩
        = .error (.doesNotContainField "cosmos.genutil.v1beta1.GenesisState.other")) :=
  ⟨⟨by decide,
      (C21_undeclared_descriptor ⟨⟨none, some [[0x61]]⟩, []⟩
        ⟨"cosmos.genutil.v1beta1.ext", true⟩ (.list ⟨.genTxs⟩) (by decide)).2.2.2.1⟩,
    ⟨by decide,
      (C21_undeclared_descriptor ⟨⟨none, some [[0x61]]⟩, []⟩
        ⟨"cosmos.genutil.v1beta1.GenesisState.other", false⟩ .other (by decide)).2.1⟩⟩

/-! ## Views on a variable outside the message -/

theorem Append_var (x : GenesisState) (vars : List (Slice (List Byte))) (l : List (List Byte))
    (b : List Byte) :
    _GenesisState_1_list.Append ⟨.var vars.length⟩ ⟨x, vars ++ [some l]⟩ (.bytes b)
      = (.ok (), ⟨x, vars ++ [some (l ++ [b])]⟩) := by
  simp [_GenesisState_1_list.Append, Value.Bytes, Memory.load, Memory.store, Slice.elems]

theorem appendAll_var (x : GenesisState) (vars : List (Slice (List Byte)))
    (bs : List (List Byte)) : ∀ l : List (List Byte),
    _GenesisState_1_list.appendAll ⟨.var vars.length⟩ ⟨x, vars ++ [some l]⟩ bs
      = (.ok (), ⟨x, vars ++ [some (l ++ bs)]⟩) := by
  induction bs with
  | nil => intro l; simp [_GenesisState_1_list.appendAll]
  | cons b bs ih =>
    intro l
    rw [_GenesisState_1_list.appendAll, Append_var]
    simp only
    rw [ih]
    simp

/-- Claim C22. For every message, populated or not, `NewField` for `gen_txs`
returns a view that is valid and of length 0, bound to a new variable; the
message and the variables that existed are as before. Appending any byte
strings `bs` to that view leaves the message as it was (its `GenTxs` and its
unknown fields) while the view holds `bs`; only `Set` with the view makes
`GenTxs` hold `bs`. -/
theorem C22_new_field_detached (m : Memory) (bs : List (List Byte)) :
    ∃ (v : _GenesisState_1_list) (m₁ m₂ m₃ : Memory),
      fastReflection_GenesisState.NewField m fd_GenesisState_gen_txs = (.ok (.list v), m₁) ∧
      v.IsValid = true ∧ v.Len m₁ = .ok 0 ∧ m₁.x = m.x ∧ m₁.vars.take m.vars.length = m.vars ∧
      v.list ≠ .genTxs ∧
      v.appendAll m₁ bs = (.ok (), m₂) ∧
      m₂.x = m.x ∧ m₂.vars.take m.vars.length = m.vars ∧ v.Len m₂ = .ok bs.length ∧
      m₂.load v.list = some (some bs) ∧
      fastReflection_GenesisState.Set m₂ fd_GenesisState_gen_txs (.list v) = (.ok (), m₃) ∧
      m₃.x = ⟨m.x.unknownFields, some bs⟩ := by
  have hload : ∀ l : List (List Byte),
      (⟨m.x, m.vars ++ [some l]⟩ : Memory).load (.var m.vars.length) = some (some l) := by
    intro l
    simp [Memory.load]
  refine ⟨⟨.var m.vars.length⟩, ⟨m.x, m.vars ++ [some []]⟩, ⟨m.x, m.vars ++ [some bs]⟩,
    ⟨⟨m.x.unknownFields, some bs⟩, m.vars ++ [some bs]⟩, NewField_gen_txs m, rfl, ?_, rfl,
    by simp, by simp, ?_, rfl, by simp, ?_, hload bs, ?_, rfl⟩
  · simp [_GenesisState_1_list.Len, hload, Slice.len, Slice.elems]
  · have := appendAll_var m.x m.vars bs []
    simpa using this
  · simp [_GenesisState_1_list.Len, hload, Slice.len, Slice.elems]
  · rw [Set_gen_txs]
    simp [Value.List, hload]

/-- Witness of C22: a populated message; two elements appended to the new
view do not reach it until `Set`. -/
theorem C22_new_field_detached_witness :
    fastReflection_GenesisState.NewField ⟨⟨none, some [[0x63]]⟩, []⟩ fd_GenesisState_gen_txs
      = (.ok (.list ⟨.var 0⟩), ⟨⟨none, some [[0x63]]⟩, [some []]⟩) ∧
    _GenesisState_1_list.appendAll ⟨.var 0⟩ ⟨⟨none, some [[0x63]]⟩, [some []]⟩ [[0x61], [0x62]]
      = (.ok (), ⟨⟨none, some [[0x63]]⟩, [some [[0x61], [0x62]]]⟩) ∧
    fastReflection_GenesisState.Set ⟨⟨none, some [[0x63]]⟩, [some [[0x61], [0x62]]]⟩
        fd_GenesisState_gen_txs (.list ⟨.var 0⟩)
      = (.ok (), ⟨⟨none, some [[0x61], [0x62]]⟩, [some [[0x61], [0x62]]]⟩) ∧
    ∃ (v : _GenesisState_1_list) (m₁ m₂ : Memory),
      fastReflection_GenesisState.NewField ⟨⟨none, some [[0x63]]⟩, []⟩ fd_GenesisState_gen_txs
        = (.ok (.list v), m₁) ∧
      v.appendAll m₁ [[0x61], [0x62]] = (.ok (), m₂) ∧
      m₂.x = (⟨⟨none, some [[0x63]]⟩, []⟩ : Memory).x :=
  ⟨by decide, by decide, by decide,
    match C22_new_field_detached ⟨⟨none, some [[0x63]]⟩, []⟩ [[0x61], [0x62]] with
    | ⟨v, m₁, m₂, _, h₁, _, _, _, _, _, h₂, h₃, _⟩ => ⟨v, m₁, m₂, h₁, h₂, h₃⟩⟩

/-! ## The methods of the view -/

theorem Memory.load_store (m : Memory) (p : ListPtr) (l l' : Slice (List Byte))
    (h : m.load p = some l) :
    ∃ m' : Memory, m.store p l' = some m' ∧ m'.load p = some l' ∧
      m'.x.unknownFields = m.x.unknownFields := by
  cases p with
  | nil => simp [Memory.load] at h
  | genTxs => exact ⟨_, rfl, rfl, rfl⟩
  | var n =>
    have hn : n < m.vars.length := by
      simp only [Memory.load] at h
      by_contra hc
      rw [List.getElem?_eq_none (by omega)] at h
      cases h
    refine ⟨{ m with vars := m.vars.set n l' }, ?_, ?_, rfl⟩
    · simp [Memory.store, hn]
    · simp [Memory.load, hn]

/-- Claim C23, as stated, fails. A view over the one-element sequence `["a"]`
whose backing array still holds `"b"` after it (the state `Truncate(1)` leaves
when called on `["a", "b"]`): `Truncate(2)` does not fail although 2 exceeds
the length 1, and the sequence grows to `["a", "b"]`. -/
theorem C23_truncate_counterexample :
    _GenesisState_1_list.Truncate ⟨.genTxs⟩ ⟨⟨none, some [[0x61], [0x62]]⟩, []⟩ [] 1
      = (.ok (), ⟨⟨none, some [[0x61]]⟩, []⟩) ∧
    (⟨⟨none, some [[0x61]]⟩, []⟩ : Memory).load (⟨.genTxs⟩ : _GenesisState_1_list).list
      = some (some [[0x61]]) ∧
    (2 : Int) > (([[0x61]] : List (List Byte)).length : Nat) ∧
    _GenesisState_1_list.Truncate ⟨.genTxs⟩ ⟨⟨none, some [[0x61]]⟩, []⟩ [[0x62]] 2
      = (.ok (), ⟨⟨none, some [[0x61], [0x62]]⟩, []⟩) := by
  decide

/-- Claim C23, amended. For every view bound to a sequence `s` whose backing
array holds `spare` after it (so that `cap(s) = len(s) + len(spare)`) and
every integer `n`: if `0 <= n <= len(s)`, `Truncate(n)` returns and the
sequence is the first `n` elements of `s` in order; if `len(s) < n <= cap(s)`
it returns too and the sequence is `s` followed by the first `n - len(s)`
elements of `spare`; if `n` is negative or exceeds `cap(s)` it panics (slice
bounds out of range) and the memory is as before. On a nil sequence only
`Truncate(0)` returns. -/
theorem C23_truncate (m : Memory) (v : _GenesisState_1_list) (s spare : List (List Byte))
    (n : Int) (hb : m.load v.list = some (some s)) :
    (0 ≤ n ∧ n ≤ s.length →
      ∃ m' : Memory, v.Truncate m spare n = (.ok (), m') ∧
        m'.load v.list = some (some (s.take n.toNat)) ∧
        m'.x.unknownFields = m.x.unknownFields) ∧
    (s.length < n ∧ n ≤ s.length + spare.length →
      ∃ m' : Memory, v.Truncate m spare n = (.ok (), m') ∧
        m'.load v.list = some (some (s ++ spare.take (n.toNat - s.length)))) ∧
    (n < 0 ∨ s.length + spare.length < n →
      v.Truncate m spare n = (.error .sliceBoundsOutOfRange, m)) ∧
    (∀ m₀ : Memory, m₀.load v.list = some none →
      v.Truncate m₀ spare 0 = (.ok (), m₀) ∧
      (n ≠ 0 → v.Truncate m₀ spare n = (.error .sliceBoundsOutOfRange, m₀))) := by
  have hin : 0 ≤ n ∧ n ≤ s.length + spare.length →
      ∃ m' : Memory, v.Truncate m spare n = (.ok (), m') ∧
        m'.load v.list = some (some ((s ++ spare).take n.toNat)) ∧
        m'.x.unknownFields = m.x.unknownFields := by
    intro hn
    obtain ⟨m', hst, hld, hu⟩ := Memory.load_store m v.list (some s)
      (some ((s ++ spare).take n.toNat)) hb
    refine ⟨m', ?_, hld, hu⟩
    have hc : 0 ≤ n ∧ n ≤ ((s ++ spare).length : Nat) := by
      simp only [List.length_append]
      omega
    simp only [_GenesisState_1_list.Truncate, hb, hc, and_self, if_true, Option.map, hst]
  refine ⟨?_, ?_, ?_, ?_⟩
  · intro hn
    obtain ⟨m', h₁, h₂, h₃⟩ := hin ⟨hn.1, by omega⟩
    refine ⟨m', h₁, ?_, h₃⟩
    rw [h₂, List.take_append_of_le_length (by omega)]
  · intro hn
    obtain ⟨m', h₁, h₂, _⟩ := hin ⟨by omega, hn.2⟩
    refine ⟨m', h₁, ?_⟩
    rw [h₂, List.take_append_eq_append_take, List.take_of_length_le (by omega)]
  · intro hn
    have hc : ¬ (0 ≤ n ∧ n ≤ ((s ++ spare).length : Nat)) := by
      simp only [List.length_append]
      omega
    simp only [_GenesisState_1_list.Truncate, hb, hc, if_false]
  · intro m₀ h₀
    constructor
    · cases hp : v.list with
      | nil => rw [hp] at h₀; simp [Memory.load] at h₀
      | genTxs =>
        rw [hp] at h₀
        simp only [Memory.load, Option.some.injEq] at h₀
        simp [_GenesisState_1_list.Truncate, hp, Memory.load, Memory.store, h₀]
        rw [← h₀]
      | var k =>
        rw [hp] at h₀
        simp only [Memory.load] at h₀
        have hk : k < m₀.vars.length := by
          by_contra hc
          rw [List.getElem?_eq_none (by omega)] at h₀
          cases h₀
        simp [_GenesisState_1_list.Truncate, hp, Memory.load, Memory.store, h₀, hk]
        have : m₀.vars.set k none = m₀.vars := by
          apply List.ext_getElem?
          intro i
          by_cases hi : i = k
          · subst hi
            simp [hk, h₀]
          · rw [List.getElem?_set_ne (Ne.symm hi)]
        rw [this]
    · intro hn
      have hc : ¬ (0 ≤ n ∧ n ≤ (([] : List (List Byte)).length : Nat)) := by
        simp only [List.length_nil]
        omega
      simp only [_GenesisState_1_list.Truncate, h₀, hc, if_false]

/-- Witness of C23 (amended): a view on a variable that holds three elements,
truncated to two; and `Truncate(4)`, past the capacity, which panics. -/
theorem C23_truncate_witness :
    (⟨⟨none, none⟩, [some [[0x61], [0x62], [0x63]]]⟩ : Memory).load
        (⟨.var 0⟩ : _GenesisState_1_list).list = some (some [[0x61], [0x62], [0x63]]) ∧
    (∃ m' : Memory,
      _GenesisState_1_list.Truncate ⟨.var 0⟩ ⟨⟨none, none⟩, [some [[0x61], [0x62], [0x63]]]⟩ [] 2
        = (.ok (), m') ∧
      m'.load (⟨.var 0⟩ : _GenesisState_1_list).list
        = some (some (([[0x61], [0x62], [0x63]] : List (List Byte)).take (2 : Int).toNat)) ∧
      m'.x.unknownFields
        = (⟨⟨none, none⟩, [some [[0x61], [0x62], [0x63]]]⟩ : Memory).x.unknownFields) ∧
    _GenesisState_1_list.Truncate ⟨.var 0⟩ ⟨⟨none, none⟩, [some [[0x61], [0x62], [0x63]]]⟩ [] 4
      = (.error .sliceBoundsOutOfRange, ⟨⟨none, none⟩, [some [[0x61], [0x62], [0x63]]]⟩) :=
  ⟨by decide,
    (C23_truncate ⟨⟨none, none⟩, [some [[0x61], [0x62], [0x63]]]⟩ ⟨.var 0⟩
      [[0x61], [0x62], [0x63]] [] 2 (by decide)).1 (by decide),
    (C23_truncate ⟨⟨none, none⟩, [some [[0x61], [0x62], [0x63]]]⟩ ⟨.var 0⟩
      [[0x61], [0x62], [0x63]] [] 4 (by decide)).2.2.1 (by decide)⟩

/-- Claim C24. For every view bound to a sequence `s`, every integer `i` and
every byte string `b`: when `0 <= i < len(s)`, `Get(i)` returns the element
`s[i]`, and `Set(i, b)` returns and leaves the sequence equal to `s` with
element `i` replaced by `b` (same length, every other element as before), so
that `Get(i)` then returns `b`; when `i` is outside `[0, len(s))` both panic
(index out of range) and the memory is as before. -/
theorem C24_indexed_get_set (m : Memory) (v : _GenesisState_1_list) (s : List (List Byte))
    (i : Int) (b : List Byte) (hb : m.load v.list = some (some s)) :
    (0 ≤ i ∧ i < s.length →
      (∃ e, s[i.toNat]? = some e ∧ v.Get m i = .ok (.bytes e)) ∧
      ∃ m' : Memory, v.Set m i (.bytes b) = (.ok (), m') ∧
        m'.load v.list = some (some (s.set i.toNat b)) ∧
        (s.set i.toNat b).length = s.length ∧
        (∀ j : Nat, j ≠ i.toNat → (s.set i.toNat b)[j]? = s[j]?) ∧
        v.Get m' i = .ok (.bytes b) ∧ v.Len m' = .ok s.length ∧
        m'.x.unknownFields = m.x.unknownFields) ∧
    (i < 0 ∨ s.length ≤ i →
      v.Get m i = .error .indexOutOfRange ∧
      v.Set m i (.bytes b) = (.error .indexOutOfRange, m)) := by
  have hne : v.list ≠ .nil := by
    intro h
    rw [h] at hb
    simp [Memory.load] at hb
  constructor
  · intro hi
    have hlt : i.toNat < s.length := by omega
    have hc : 0 ≤ i ∧ i < (Slice.len (some s : Slice (List Byte)) : Nat) := by
      simpa [Slice.len, Slice.elems] using hi
    refine ⟨⟨s[i.toNat], List.getElem?_eq_getElem hlt, ?_⟩, ?_⟩
    · simp only [_GenesisState_1_list.Get, hb, hc, and_self, if_true]
      simp [Slice.elems, List.getElem?_eq_getElem hlt]
    · obtain ⟨m', hst, hld, hu⟩ := Memory.load_store m v.list (some s)
        (some (s.set i.toNat b)) hb
      have hc' : 0 ≤ i ∧ i < (Slice.len (some (s.set i.toNat b) : Slice (List Byte)) : Nat) := by
        simpa [Slice.len, Slice.elems] using hi
      refine ⟨m', ?_, hld, List.length_set _ _ _, ?_, ?_, ?_, hu⟩
      · simp only [_GenesisState_1_list.Set, Value.Bytes, hb, hc, and_self, if_true]
        simp only [Slice.elems, Option.getD_some, hst]
      · intro j hj
        rw [List.getElem?_set_ne (Ne.symm hj)]
      · simp only [_GenesisState_1_list.Get, hld, hc', and_self, if_true]
        simp [Slice.elems, hlt]
      · simp [_GenesisState_1_list.Len, hne, hld, Slice.len, Slice.elems]
  · intro hi
    have hc : ¬ (0 ≤ i ∧ i < (Slice.len (some s : Slice (List Byte)) : Nat)) := by
      simp only [Slice.len, Slice.elems, Option.getD_some]
      omega
    constructor
    · simp only [_GenesisState_1_list.Get, hb, hc, if_false]
    · simp only [_GenesisState_1_list.Set, Value.Bytes, hb, hc, if_false]

/-- Witness of C24: element 1 of a three-element sequence of the message is
read and replaced; index 3 is out of range. -/
theorem C24_indexed_get_set_witness :
    (⟨⟨none, some [[0x61], [0x62], [0x63]]⟩, []⟩ : Memory).load
        (⟨.genTxs⟩ : _GenesisState_1_list).list = some (some [[0x61], [0x62], [0x63]]) ∧
    _GenesisState_1_list.Get ⟨.genTxs⟩ ⟨⟨none, some [[0x61], [0x62], [0x63]]⟩, []⟩ 1
      = .ok (.bytes [0x62]) ∧
    _GenesisState_1_list.Set ⟨.genTxs⟩ ⟨⟨none, some [[0x61], [0x62], [0x63]]⟩, []⟩ 1
        (.bytes [0x7a])
      = (.ok (), ⟨⟨none, some [[0x61], [0x7a], [0x63]]⟩, []⟩) ∧
    (_GenesisState_1_list.Get ⟨.genTxs⟩ ⟨⟨none, some [[0x61], [0x62], [0x63]]⟩, []⟩ 3
        = .error .indexOutOfRange ∧
      _GenesisState_1_list.Set ⟨.genTxs⟩ ⟨⟨none, some [[0x61], [0x62], [0x63]]⟩, []⟩ 3
          (.bytes [0x7a])
        = (.error .indexOutOfRange, ⟨⟨none, some [[0x61], [0x62], [0x63]]⟩, []⟩)) :=
  ⟨by decide, by decide, by decide,
    (C24_indexed_get_set ⟨⟨none, some [[0x61], [0x62], [0x63]]⟩, []⟩ ⟨.genTxs⟩
      [[0x61], [0x62], [0x63]] 3 [0x7a] (by decide)).2 (by decide)⟩

/-- Claim C25, as stated, fails. On the view with no backing binding
`NewElement` is not rejected: it does not read the `list` pointer and returns
the empty byte string. -/
theorem C25_unbound_view_counterexample :
    _GenesisState_1_list.IsValid ⟨.nil⟩ = false ∧
    _GenesisState_1_list.NewElement ⟨.nil⟩ = .ok (.bytes []) := by
  decide

/-- Claim C25, amended. For the view with no backing binding (a nil `list`
pointer), in any memory: `IsValid` returns false and `Len` returns 0; `Get`,
`Set`, `Append` and `Truncate` panic and leave the memory as it was (on the
nil pointer dereference, or before it on a value that is not a byte string);
`AppendMutable` panics, as it does on every view; `NewElement` returns the
empty byte string, as it does on every view. Conversely `IsValid` returns true
for every view bound to a sequence, an empty one included. -/
theorem C25_unbound_view (m : Memory) (v : _GenesisState_1_list) (hv : v.list = .nil) :
    v.IsValid = false ∧ v.Len m = .ok 0 ∧
    (∀ i : Int, v.Get m i = .error .nilDereference) ∧
    (∀ (i : Int) (b : List Byte), v.Set m i (.bytes b) = (.error .nilDereference, m)) ∧
    (∀ (i : Int) (value : Value), ∃ p, v.Set m i value = (.error p, m)) ∧
    (∀ b : List Byte, v.Append m (.bytes b) = (.error .nilDereference, m)) ∧
    (∀ value : Value, ∃ p, v.Append m value = (.error p, m)) ∧
    (∀ (spare : List (List Byte)) (n : Int),
      v.Truncate m spare n = (.error .nilDereference, m)) ∧
    v.AppendMutable = .error .appendMutableNotMessageKind ∧
    v.NewElement = .ok (.bytes []) ∧
    (∀ (w : _GenesisState_1_list) (s : Slice (List Byte)),
      m.load w.list = some s → w.IsValid = true) := by
  have hl : m.load v.list = none := by
    rw [hv]
    rfl
  refine ⟨by simp [_GenesisState_1_list.IsValid, hv], by simp [_GenesisState_1_list.Len, hv],
    ?_, ?_, ?_, ?_, ?_, ?_, rfl, rfl, ?_⟩
  · intro i
    simp only [_GenesisState_1_list.Get, hl]
  · intro i b
    simp only [_GenesisState_1_list.Set, Value.Bytes, hl]
  · intro i value
    cases value with
    | bytes b => exact ⟨.nilDereference, by simp only [_GenesisState_1_list.Set, Value.Bytes, hl]⟩
    | list l => exact ⟨.typeMismatch, by simp only [_GenesisState_1_list.Set, Value.Bytes]⟩
    | other => exact ⟨.typeMismatch, by simp only [_GenesisState_1_list.Set, Value.Bytes]⟩
  · intro b
    simp only [_GenesisState_1_list.Append, Value.Bytes, hl]
  · intro value
    cases value with
    | bytes b => exact ⟨.nilDereference, by simp only [_GenesisState_1_list.Append, Value.Bytes, hl]⟩
    | list l => exact ⟨.typeMismatch, by simp only [_GenesisState_1_list.Append, Value.Bytes]⟩
    | other => exact ⟨.typeMismatch, by simp only [_GenesisState_1_list.Append, Value.Bytes]⟩
  · intro spare n
    simp only [_GenesisState_1_list.Truncate, hl]
  · intro w s hw
    cases hp : w.list with
    | nil => rw [hp] at hw; simp [Memory.load] at hw
    | genTxs => simp [_GenesisState_1_list.IsValid, hp]
    | var k => simp [_GenesisState_1_list.IsValid, hp]

/-- Witness of C25 (amended): the view that `Get` returns for the empty
message, and a view bound to the empty sequence of a variable. -/
theorem C25_unbound_view_witness :
    (⟨.nil⟩ : _GenesisState_1_list).list = .nil ∧
    _GenesisState_1_list.Get ⟨.nil⟩ ⟨emptyMessage, [some []]⟩ 0 = .error .nilDereference ∧
    _GenesisState_1_list.Truncate ⟨.nil⟩ ⟨emptyMessage, [some []]⟩ [] 0
      = (.error .nilDereference, ⟨emptyMessage, [some []]⟩) ∧
    _GenesisState_1_list.IsValid ⟨.var 0⟩ = true :=
  ⟨rfl, (C25_unbound_view ⟨emptyMessage, [some []]⟩ ⟨.nil⟩ rfl).2.2.1 0,
    (C25_unbound_view ⟨emptyMessage, [some []]⟩ ⟨.nil⟩ rfl).2.2.2.2.2.2.2.1 [] 0,
    (C25_unbound_view ⟨emptyMessage, [some []]⟩ ⟨.nil⟩ rfl).2.2.2.2.2.2.2.2.2.2 ⟨.var 0⟩
      (some []) (by decide)⟩

/-! ## Amino names -/

theorem mem_RegisterImplementations (registry : InterfaceRegistry) (iface : GoType)
    (impls : List GoType) (p : GoType × GoType) :
    p ∈ (registry.RegisterImplementations iface impls).implementations
      ↔ p ∈ registry.implementations ∨ (p.1 = iface ∧ p.2 ∈ impls) := by
  simp only [InterfaceRegistry.RegisterImplementations, List.mem_append, List.mem_map]
  constructor
  · rintro (h | ⟨t, ht, rfl⟩)
    · exact Or.inl h
    · exact Or.inr ⟨rfl, ht⟩
  · rintro (h | ⟨h₁, h₂⟩)
    · exact Or.inl h
    · exact Or.inr ⟨p.2, h₂, by rw [← h₁]⟩

/-- Claim C29. The Amino names that `RegisterLegacyAminoCodec` of `x/authz`
and of `x/group` register are pairwise distinct, within each module and on
the global codec on which the `init` functions of both register (in either
order), and so are the registered types; `authz.MsgExec` gets the name
`cosmos-sdk/MsgExec` and `group.MsgExec` the different name
`cosmos-sdk/group/MsgExec`. Every type that `RegisterInterfaces` of a module
registers as an implementation of `sdk.Msg` with `RegisterImplementations` has
an Amino name in that module's `RegisterLegacyAminoCodec`, and so has every
type registered through the service descriptor as soon as its request types
are among these. -/
theorem C29_amino_names_distinct :
    (authz.RegisterLegacyAminoCodec ⟨[], []⟩).names.Nodup ∧
    (group.RegisterLegacyAminoCodec ⟨[], []⟩).names.Nodup ∧
    legacyCdc.names.Nodup ∧
    (authz.RegisterLegacyAminoCodec (group.RegisterLegacyAminoCodec ⟨[], []⟩)).names.Nodup ∧
    (legacyCdc.concretes.map Prod.fst).Nodup ∧
    legacyCdc.names.length = 20 ∧
    ((GoType.authz "MsgExec", "cosmos-sdk/MsgExec") ∈ legacyCdc.concretes ∧
      (GoType.group "MsgExec", "cosmos-sdk/group/MsgExec") ∈ legacyCdc.concretes ∧
      "cosmos-sdk/MsgExec" ≠ "cosmos-sdk/group/MsgExec") ∧
    (∀ sd : List GoType,
      (∀ t ∈ sd, t ∈ (authz.RegisterLegacyAminoCodec ⟨[], []⟩).concretes.map Prod.fst) →
      ∀ p ∈ (authz.RegisterInterfaces ⟨[]⟩ sd).implementations, p.1 = GoType.sdk "Msg" →
        p.2 ∈ (authz.RegisterLegacyAminoCodec ⟨[], []⟩).concretes.map Prod.fst) ∧
    (∀ sd : List GoType,
      (∀ t ∈ sd, t ∈ (group.RegisterLegacyAminoCodec ⟨[], []⟩).concretes.map Prod.fst) →
      ∀ p ∈ (group.RegisterInterfaces ⟨[]⟩ sd).implementations, p.1 = GoType.sdk "Msg" →
        p.2 ∈ (group.RegisterLegacyAminoCodec ⟨[], []⟩).concretes.map Prod.fst) := by
  refine ⟨by decide, by decide, by decide, by decide, by decide, by decide, by decide, ?_, ?_⟩
  · intro sd hsd p hp h1
    have h0 : ∀ q ∈ (authz.RegisterInterfaces ⟨[]⟩ []).implementations, q.1 = GoType.sdk "Msg" →
        q.2 ∈ (authz.RegisterLegacyAminoCodec ⟨[], []⟩).concretes.map Prod.fst := by decide
    simp only [authz.RegisterInterfaces, RegisterMsgServiceDesc,
      InterfaceRegistry.RegisterInterface, mem_RegisterImplementations] at hp h0
    rcases hp with hp | ⟨_, hp⟩
    · exact h0 p (Or.inl hp) h1
    · exact hsd _ hp
  · intro sd hsd p hp h1
    have h0 : ∀ q ∈ (group.RegisterInterfaces ⟨[]⟩ []).implementations, q.1 = GoType.sdk "Msg" →
        q.2 ∈ (group.RegisterLegacyAminoCodec ⟨[], []⟩).concretes.map Prod.fst := by decide
    simp only [group.RegisterInterfaces, RegisterMsgServiceDesc,
      InterfaceRegistry.RegisterInterface, mem_RegisterImplementations] at hp h0
    rcases hp with (hp | ⟨_, hp⟩) | hp
    · exact h0 p (Or.inl (Or.inl hp)) h1
    · exact hsd _ hp
    · exact h0 p (Or.inr hp) h1

/-- Witness of C29: the service descriptor of `x/authz` taken with the request
types `MsgGrant`, `MsgExec`, `MsgRevoke`. -/
theorem C29_amino_names_distinct_witness :
    (∀ t ∈ [GoType.authz "MsgGrant", GoType.authz "MsgExec", GoType.authz "MsgRevoke"],
      t ∈ (authz.RegisterLegacyAminoCodec ⟨[], []⟩).concretes.map Prod.fst) ∧
    ∀ p ∈ (authz.RegisterInterfaces ⟨[]⟩
        [GoType.authz "MsgGrant", GoType.authz "MsgExec", GoType.authz "MsgRevoke"]).implementations,
      p.1 = GoType.sdk "Msg" →
        p.2 ∈ (authz.RegisterLegacyAminoCodec ⟨[], []⟩).concretes.map Prod.fst :=
  ⟨by decide,
    C29_amino_names_distinct.2.2.2.2.2.2.2.1
      [GoType.authz "MsgGrant", GoType.authz "MsgExec", GoType.authz "MsgRevoke"] (by decide)⟩

/-! ## The loops end: how far a turn moves the cursor -/

theorem varintLoop_fuel (d : List Byte) (fuel : Nat) : ∀ (shift i word : Nat) (s : Status)
    (j : Nat), 1 ≤ fuel → 77 ≤ shift + 7 * fuel →
    varintLoop d fuel shift i word = .fail s j → s ≠ .outOfFuel := by
  induction fuel with
  | zero =>
    intro shift i word s j h1
    omega
  | succ fuel ih =>
    intro shift i word s j _ hsum h
    rw [varintLoop] at h
    split at h
    · simp at h; rw [← h.1]; simp
    · split at h
      · simp at h; rw [← h.1]; simp
      · split at h
        · simp at h; rw [← h.1]; simp
        · simp only at h
          split at h
          · simp at h
          · exact ih _ _ _ s j (by omega) (by omega) h

theorem varintLoop_reads (d : List Byte) (fuel : Nat) : ∀ (shift i word : Nat),
    shift ≤ 70 →
    (∀ w j, varintLoop d fuel shift i word = .done w j → 7 * j + shift ≤ 7 * i + 70) ∧
    (∀ s j, varintLoop d fuel shift i word = .fail s j → 7 * j + shift ≤ 7 * i + 70) := by
  induction fuel with
  | zero =>
    intro shift i word hs
    constructor
    · intro w j h
      simp [varintLoop] at h
    · intro s j h
      simp [varintLoop] at h
      omega
  | succ fuel ih =>
    intro shift i word hs
    rw [varintLoop]
    split
    · constructor
      · intro w j h; simp at h
      · intro s j h; simp at h; omega
    · split
      · constructor
        · intro w j h; simp at h
        · intro s j h; simp at h; omega
      · split
        · constructor
          · intro w j h; simp at h
          · intro s j h; simp at h; omega
        · simp only
          split
          · constructor
            · intro w j h; simp at h; omega
            · intro s j h; simp at h
          · constructor
            · intro w j h
              have := (ih _ _ _ (by omega)).1 w j h
              omega
            · intro s j h
              have := (ih _ _ _ (by omega)).2 s j h
              omega

theorem varintLoop_top_fuel (d : List Byte) (i : Nat) (s : Status) (j : Nat)
    (h : varintLoop d varintFuel 0 i 0 = .fail s j) : s ≠ .nil ∧ s ≠ .outOfFuel :=
  ⟨varintLoop_fail_ne_nil _ _ _ _ _ _ _ h,
    varintLoop_fuel d varintFuel 0 i 0 s j (by decide) (by decide) h⟩

theorem skipBody_shape (d : List Byte) (i depth : Nat) (hl : d.length < 2 ^ 63) :
    (∃ s, s ≠ .nil ∧ s ≠ .outOfFuel ∧ skipBody d i depth = .stop ⟨0, s⟩) ∨
    (∃ (z : Int) (depth' : Nat), (z < 0 ∨ (i : Int) < z) ∧
      skipBody d i depth = skipAfter z depth') := by
  cases hv : varintLoop d varintFuel 0 i 0 with
  | fail s j =>
    left
    obtain ⟨h1, h2⟩ := varintLoop_top_fuel d i s j hv
    exact ⟨s, h1, h2, by simp only [skipBody, hv]⟩
  | done wire j₁ =>
    have hb := varintLoop_done_bounds d _ _ _ _ _ _ hv
    by_cases w0 : wire &&& 0x7 = 0
    · cases hv2 : varintLoop d varintFuel 0 j₁ 0 with
      | fail s j =>
        left
        obtain ⟨h1, h2⟩ := varintLoop_top_fuel d j₁ s j hv2
        exact ⟨s, h1, h2, by simp only [skipBody, hv, w0, hv2, if_true]⟩
      | done w j₂ =>
        right
        have hb2 := varintLoop_done_bounds d _ _ _ _ _ _ hv2
        exact ⟨j₂, depth, Or.inr (by omega), by simp only [skipBody, hv, w0, hv2, if_true]⟩
    by_cases w1 : wire &&& 0x7 = 1
    · right
      refine ⟨int64 (j₁ + 8), depth, ?_, by simp [skipBody, hv, w1]⟩
      unfold int64
      omega
    by_cases w2 : wire &&& 0x7 = 2
    · cases hv2 : varintLoop d varintFuel 0 j₁ 0 with
      | fail s j =>
        left
        obtain ⟨h1, h2⟩ := varintLoop_top_fuel d j₁ s j hv2
        exact ⟨s, h1, h2, by simp [skipBody, hv, w2, hv2]⟩
      | done w j₂ =>
        have hb2 := varintLoop_done_bounds d _ _ _ _ _ _ hv2
        by_cases c : int64 w < 0
        · left
          exact ⟨.error .ErrInvalidLength, by simp, by simp, by simp [skipBody, hv, w2, hv2, c]⟩
        · right
          refine ⟨int64 (j₂ + int64 w), depth, ?_, by simp [skipBody, hv, w2, hv2, c]⟩
          have h63 := int64_lt w
          have hz : (0 : Int) ≤ j₂ + int64 w := by omega
          by_cases hn : int64 (j₂ + int64 w) < 0
          · exact Or.inl hn
          · right
            rw [int64_eq_of_nonneg _ hz (by omega) (by omega)]
            omega
    by_cases w3 : wire &&& 0x7 = 3
    · right
      exact ⟨j₁, depth + 1, Or.inr (by omega), by simp [skipBody, hv, w3]⟩
    by_cases w4 : wire &&& 0x7 = 4
    · by_cases hd : depth = 0
      · left
        exact ⟨.error .ErrUnexpectedEndOfGroup, by simp, by simp, by simp [skipBody, hv, w4, hd]⟩
      · right
        exact ⟨j₁, depth - 1, Or.inr (by omega), by simp [skipBody, hv, w4, hd]⟩
    by_cases w5 : wire &&& 0x7 = 5
    · right
      refine ⟨int64 (j₁ + 4), depth, ?_, by simp [skipBody, hv, w5]⟩
      unfold int64
      omega
    · left
      exact ⟨.error (.illegalWireType (wire &&& 0x7)), by simp, by simp,
        by simp [skipBody, hv, w0, w1, w2, w3, w4, w5]⟩

theorem skipBody_next_lt (d : List Byte) (i depth i' depth' : Nat) (hl : d.length < 2 ^ 63)
    (h : skipBody d i depth = .next (i', depth')) : i < i' := by
  rcases skipBody_shape d i depth hl with ⟨s, _, _, hs⟩ | ⟨z, dp, hz, hs⟩
  · rw [hs] at h
    cases h
  · rw [hs] at h
    unfold skipAfter at h
    split_ifs at h with h1 h2
    cases h
    omega

theorem skipBody_stop_props (d : List Byte) (i depth : Nat) (r : Skipped)
    (hl : d.length < 2 ^ 63) (h : skipBody d i depth = .stop r) :
    r.status ≠ .outOfFuel ∧ (r.status = .nil → (i : Int) < r.n) := by
  rcases skipBody_shape d i depth hl with ⟨s, h1, h2, hs⟩ | ⟨z, dp, hz, hs⟩
  · rw [hs] at h
    cases h
    exact ⟨h2, fun hn => absurd hn h1⟩
  · rw [hs] at h
    unfold skipAfter at h
    split_ifs at h with h1 h2
    · cases h
      simp
    · cases h
      refine ⟨by simp, fun _ => ?_⟩
      simp only
      omega

theorem skipLoop_ends (d : List Byte) (hl : d.length < 2 ^ 63) (fuel : Nat) :
    ∀ (i depth : Nat), d.length ≤ fuel + i →
    (skipLoop d fuel i depth).status ≠ .outOfFuel ∧
    ((skipLoop d fuel i depth).status = .nil → (i : Int) < (skipLoop d fuel i depth).n) := by
  induction fuel with
  | zero =>
    intro i depth hf
    rw [skipLoop, if_neg (by omega)]
    simp
  | succ fuel ih =>
    intro i depth hf
    rw [skipLoop]
    by_cases hi : i < d.length
    · rw [if_pos hi]
      cases hb : skipBody d i depth with
      | next s =>
        obtain ⟨i', depth'⟩ := s
        simp only
        have hlt := skipBody_next_lt d i depth i' depth' hl hb
        obtain ⟨h1, h2⟩ := ih i' depth' (by omega)
        exact ⟨h1, fun hn => by have := h2 hn; omega⟩
      | stop r =>
        simp only
        exact skipBody_stop_props d i depth r hl hb
    · rw [if_neg hi]
      simp

theorem Skip_ends (d : List Byte) (hl : d.length < 2 ^ 63) :
    (Skip d).status ≠ .outOfFuel ∧ ((Skip d).status = .nil → 0 < (Skip d).n) := by
  have := skipLoop_ends d hl d.length 0 0 (by omega)
  exact ⟨this.1, fun h => by have := this.2 h; simpa using this⟩

theorem slice_length_le (d r : List Byte) (a b : Int) (h : slice d a b = some r) :
    r.length ≤ d.length := by
  have := slice_some_length d r a b h
  omega

theorem turn_ret_fuel (d : List Byte) (i j : Nat) (s : Status) (hl : d.length < 2 ^ 63)
    (h : turn d i = .ret j s) : s ≠ .outOfFuel := by
  cases hv : varintLoop d varintFuel 0 i 0 with
  | fail s' j' =>
    simp only [turn, hv, Turn.ret.injEq] at h
    rw [← h.2]
    exact (varintLoop_top_fuel d i s' j' hv).2
  | done wire j₁ =>
    simp only [turn, hv] at h
    split_ifs at h with hwt hf h1 hw2
    · cases h; simp
    · cases h; simp
    · cases h; simp
    · cases hv2 : varintLoop d varintFuel 0 j₁ 0 with
      | fail s' j' =>
        simp only [hv2, Turn.ret.injEq] at h
        rw [← h.2]
        exact (varintLoop_top_fuel d j₁ s' j' hv2).2
      | done word j₂ =>
        simp only [hv2] at h
        split_ifs at h
        · cases h; simp
        · cases h; simp
        · cases h; simp
        · split at h
          · cases h; simp
          · cases h
    · split at h
      · cases h; simp
      · rename_i rest hs
        have hr : rest.length < 2 ^ 63 := by
          have := slice_length_le _ _ _ _ hs
          omega
        split_ifs at h
        · cases h
          exact (Skip_ends rest hr).1
        · cases h; simp
        · cases h; simp
        · split at h
          · cases h; simp
          · cases h

theorem unmarshalBody_stop_fuel (options : UnmarshalOptions) (d : List Byte) (x : GenesisState)
    (i : Nat) (r : Decoded) (hl : d.length < 2 ^ 63)
    (h : unmarshalBody options d x i = .stop r) : r.status ≠ .outOfFuel := by
  rw [unmarshalBody_eq_turn] at h
  cases ht : turn d i with
  | genTx b j => rw [ht] at h; cases h
  | skipped raw j => rw [ht] at h; cases h
  | ret j s =>
    rw [ht] at h
    cases h
    exact turn_ret_fuel d i j s hl ht

theorem unmarshalBody_next_lt (options : UnmarshalOptions) (d : List Byte)
    (x x' : GenesisState) (i j : Nat) (hl : d.length < 2 ^ 63)
    (h : unmarshalBody options d x i = .next (x', j)) : i < j := by
  rcases unmarshalBody_cases options d x i with
    ⟨r, hr, _, _⟩ | ⟨wire, j₁, word, j₂, b, hv, _, _, hv2, c1, c2, c3, _, hbody⟩ |
    ⟨wire, j₁, rest, raw, hv, _, _, hs, c0, c1, c2, c3, _, hbody⟩
  · rw [hr] at h
    cases h
  · rw [hbody] at h
    cases h
    have hb := varintLoop_done_bounds d _ _ _ _ _ _ hv
    have hb2 := varintLoop_done_bounds d _ _ _ _ _ _ hv2
    have h63 := int64_lt word
    have e := int64_eq_of_nonneg ((j₂ : Int) + int64 word) (by omega) (by omega) c2
    rw [e]
    omega
  · rw [hbody] at h
    cases h
    have hr : rest.length < 2 ^ 63 := by
      have := slice_length_le _ _ _ _ hs
      omega
    have hpos := (Skip_ends rest hr).2 c0
    have h63 := Skip_n_lt rest hr
    have hi := (slice_some_length _ _ _ _ hs).2.1
    have e := int64_eq_of_nonneg ((i : Int) + (Skip rest).n) (by omega) (by omega) c2
    rw [e]
    omega

theorem unmarshalLoop_ends (options : UnmarshalOptions) (d : List Byte)
    (hl : d.length < 2 ^ 63) (fuel : Nat) : ∀ (x : GenesisState) (i : Nat),
    d.length ≤ fuel + i → (unmarshalLoop options d fuel x i).status ≠ .outOfFuel := by
  induction fuel with
  | zero =>
    intro x i hf
    rw [unmarshalLoop, if_neg (by omega)]
    unfold unmarshalEnd
    split_ifs <;> simp
  | succ fuel ih =>
    intro x i hf
    rw [unmarshalLoop]
    by_cases hi : i < d.length
    · rw [if_pos hi]
      cases hb : unmarshalBody options d x i with
      | next s =>
        obtain ⟨x', j⟩ := s
        simp only
        have := unmarshalBody_next_lt options d x x' i j hl hb
        exact ih x' j (by omega)
      | stop r =>
        simp only
        exact unmarshalBody_stop_fuel options d x i r hl hb
    · rw [if_neg hi]
      unfold unmarshalEnd
      split_ifs <;> simp

theorem unmarshalLoop_fuel_irrelevant (options : UnmarshalOptions) (d : List Byte)
    (hl : d.length < 2 ^ 63) (f : Nat) : ∀ (g : Nat) (x : GenesisState) (i : Nat),
    d.length ≤ f + i → d.length ≤ g + i →
    unmarshalLoop options d f x i = unmarshalLoop options d g x i := by
  induction f with
  | zero =>
    intro g x i hf _
    rw [unmarshalLoop, if_neg (by omega)]
    cases g with
    | zero => rw [unmarshalLoop, if_neg (by omega)]
    | succ g => rw [unmarshalLoop, if_neg (by omega)]
  | succ f ih =>
    intro g x i hf hg
    by_cases hi : i < d.length
    · obtain ⟨g, rfl⟩ : ∃ g', g = g' + 1 := ⟨g - 1, by omega⟩
      rw [unmarshalLoop, unmarshalLoop, if_pos hi, if_pos hi]
      cases hb : unmarshalBody options d x i with
      | next s =>
        obtain ⟨x', j⟩ := s
        simp only
        have := unmarshalBody_next_lt options d x x' i j hl hb
        exact ih g x' j (by omega) (by omega)
      | stop r => rfl
    · rw [unmarshalLoop, if_neg hi]
      cases g with
      | zero => rw [unmarshalLoop, if_neg hi]
      | succ g => rw [unmarshalLoop, if_neg hi]

/-- Claim C28. On every input of Go size: each turn of the loop of `unmarshal`
that does not return moves the cursor forward by at least one byte and not
past the length of the input; so `len(dAtA)` turns are enough: the call
returns (the iteration budget `len(dAtA)` of the model is never exhausted, and
a larger budget gives the same result). Each inline varint loop, wherever it
starts, reads at most 10 bytes before it ends, and never exhausts its budget;
and the call of `runtime.Skip` returns too. -/
theorem C28_unmarshal_terminates (options : UnmarshalOptions) (d : List Byte)
    (hl : d.length < 2 ^ 63) :
    (∀ (x x' : GenesisState) (i j : Nat),
      unmarshalBody options d x i = .next (x', j) → i < j ∧ j ≤ d.length) ∧
    (∀ x : GenesisState, (unmarshalMsg options x d).status ≠ .outOfFuel) ∧
    (∀ (fuel : Nat) (x : GenesisState), d.length ≤ fuel →
      unmarshalLoop options d fuel x 0 = unmarshalMsg options x d) ∧
    (∀ i : Nat,
      (∀ w j, varintLoop d varintFuel 0 i 0 = .done w j → i < j ∧ j ≤ i + 10) ∧
      (∀ s j, varintLoop d varintFuel 0 i 0 = .fail s j → j ≤ i + 10 ∧ s ≠ .outOfFuel)) ∧
    (∀ (i : Nat) (rest : List Byte), slice d i d.length = some rest →
      (Skip rest).status ≠ .outOfFuel) := by
  refine ⟨fun x x' i j h => ⟨unmarshalBody_next_lt options d x x' i j hl h,
      unmarshalBody_next_le options d x x' i j h⟩,
    fun x => unmarshalLoop_ends options d hl d.length x 0 (by omega),
    fun fuel x hf => unmarshalLoop_fuel_irrelevant options d hl fuel d.length x 0
      (by omega) (by omega), ?_, ?_⟩
  · intro i
    have hr := varintLoop_reads d varintFuel 0 i 0 (by omega)
    constructor
    · intro w j h
      have h1 := hr.1 w j h
      have h2 := varintLoop_done_bounds d _ _ _ _ _ _ h
      omega
    · intro s j h
      have h1 := hr.2 s j h
      exact ⟨by omega, (varintLoop_top_fuel d i s j h).2⟩
  · intro i rest hs
    have := slice_length_le _ _ _ _ hs
    exact (Skip_ends rest (by omega)).1

/-- Witness of C28: the input `0a 01 61 10 05`, two records decoded in two
turns. -/
theorem C28_unmarshal_terminates_witness :
    ([0x0a, 0x01, 0x61, 0x10, 0x05] : List Byte).length < 2 ^ 63 ∧
    unmarshalBody defaultOptions [0x0a, 0x01, 0x61, 0x10, 0x05] emptyMessage 0
      = .next (⟨none, some [[0x61]]⟩, 3) ∧
    (0 < 3 ∧ 3 ≤ ([0x0a, 0x01, 0x61, 0x10, 0x05] : List Byte).length) ∧
    (unmarshalMsg defaultOptions emptyMessage [0x0a, 0x01, 0x61, 0x10, 0x05]).status
      ≠ .outOfFuel ∧
    unmarshalLoop defaultOptions [0x0a, 0x01, 0x61, 0x10, 0x05] 2 emptyMessage 0
      = ⟨⟨some [0x10, 0x05], some [[0x61]]⟩, 5, .nil⟩ :=
  ⟨by decide, by decide,
    (C28_unmarshal_terminates defaultOptions [0x0a, 0x01, 0x61, 0x10, 0x05] (by decide)).1
      emptyMessage ⟨none, some [[0x61]]⟩ 0 3 (by decide),
    (C28_unmarshal_terminates defaultOptions [0x0a, 0x01, 0x61, 0x10, 0x05]
      (by decide)).2.1 emptyMessage,
    by decide⟩

/-! ## Decoding a concatenation -/

theorem varintLoop_unreloc (pre u : List Byte) (i w J : Nat)
    (h : varintLoop (pre ++ u) varintFuel 0 (pre.length + i) 0 = .done w J) :
    ∃ j, J = pre.length + j ∧ varintLoop u varintFuel 0 i 0 = .done w j := by
  rw [varintLoop_reloc] at h
  cases hu : varintLoop u varintFuel 0 i 0 with
  | fail s j =>
    rw [hu] at h
    cases h
  | done w' j =>
    rw [hu] at h
    simp only [VarintResult.shift, VarintResult.done.injEq] at h
    exact ⟨j, h.2.symm, by rw [h.1]⟩

theorem unmarshalBody_unsuffix (options : UnmarshalOptions) (pre u : List Byte)
    (x x' : GenesisState) (i J : Nat) (hl : (pre ++ u).length < 2 ^ 63)
    (h : unmarshalBody options (pre ++ u) x (pre.length + i) = .next (x', J)) :
    ∃ j, J = pre.length + j ∧ unmarshalBody options u x i = .next (x', j) := by
  have hlp : (pre.length : Int) + (u.length : Int) < 2 ^ 63 := by
    simp only [List.length_append] at hl
    omega
  rcases unmarshalBody_cases options (pre ++ u) x (pre.length + i) with
    ⟨r, hr, _, _⟩ | ⟨wire, J₁, word, J₂, b, hv, h1, hw2, hv2, c1, c2, c3, hs, hbody⟩ |
    ⟨wire, J₁, rest, raw, hv, hwt, hfn, hs, c0, c1, c2, c3, hs2, hbody⟩
  · rw [hr] at h
    cases h
  · rw [hbody] at h
    cases h
    obtain ⟨j₁, rfl, hv'⟩ := varintLoop_unreloc pre u i wire J₁ hv
    obtain ⟨j₂, rfl, hv2'⟩ := varintLoop_unreloc pre u j₁ word J₂ hv2
    have hj2 := (varintLoop_done_bounds _ _ _ _ _ _ _ hv2').2
    have hp := int64_lt (word : Int)
    simp only [List.length_append, Nat.cast_add] at c3
    have hP : int64 ((pre.length : Int) + (j₂ : Int) + int64 word)
        = (pre.length : Int) + ((j₂ : Int) + int64 word) := by
      rw [int64_eq_of_nonneg _ (by omega) (by omega) (by simpa using c2)]
      ring
    simp only [Nat.cast_add] at c2 hs ⊢
    rw [hP] at c2 c3 hs ⊢
    have hU : int64 ((j₂ : Int) + int64 word) = (j₂ : Int) + int64 word :=
      int64_of_lt _ (by omega) (by omega)
    have hsU : slice u (j₂ : Int) (int64 ((j₂ : Int) + int64 word)) = some b := by
      rw [hU, ← hs, slice_reloc pre u _ _ (by omega : (0 : Int) ≤ (j₂ : Int))]
    have hB := unmarshalBody_field1_intro options u x i wire j₁ word j₂ b hv' h1 hw2 hv2' c1
      (by rw [hU]; omega) (by rw [hU]; omega) hsU
    refine ⟨(int64 ((j₂ : Int) + int64 word)).toNat, ?_, hB⟩
    rw [hU, Int.toNat_add (Int.natCast_nonneg _) (by omega), Int.toNat_natCast]
  · rw [hbody] at h
    cases h
    obtain ⟨j₁, rfl, hv'⟩ := varintLoop_unreloc pre u i wire J₁ hv
    have hsl := slice_some_length _ _ _ _ hs
    have hrest : rest.length < 2 ^ 63 := by
      have := slice_length_le _ _ _ _ hs
      omega
    have hn := Skip_n_lt rest hrest
    simp only [List.length_append, Nat.cast_add] at c3 hs hsl
    have hP : int64 ((pre.length : Int) + (i : Int) + (Skip rest).n)
        = (pre.length : Int) + ((i : Int) + (Skip rest).n) := by
      rw [int64_eq_of_nonneg _ (by omega) (by omega) (by simpa using c2)]
      ring
    simp only [Nat.cast_add] at c2 hs2 ⊢
    rw [hP] at c2 c3 hs2 ⊢
    have hU : int64 ((i : Int) + (Skip rest).n) = (i : Int) + (Skip rest).n :=
      int64_of_lt _ (by omega) (by omega)
    have hsU : slice u (i : Int) (u.length : Nat) = some rest := by
      rw [← hs, slice_reloc pre u _ _ (by omega : (0 : Int) ≤ (i : Int))]
    have hs2U : slice u (i : Int) (int64 ((i : Int) + (Skip rest).n)) = some raw := by
      rw [hU, ← hs2, slice_reloc pre u _ _ (by omega : (0 : Int) ≤ (i : Int))]
    have hB := unmarshalBody_default_intro options u x i wire j₁ rest raw hv' hwt hfn hsU c0 c1
      (by rw [hU]; omega) (by rw [hU]; omega) hs2U
    refine ⟨(int64 ((i : Int) + (Skip rest).n)).toNat, ?_, hB⟩
    rw [hU, Int.toNat_add (Int.natCast_nonneg _) (by omega), Int.toNat_natCast]

theorem unmarshalBody_suffix_same (options : UnmarshalOptions) (pre u : List Byte)
    (x x' : GenesisState) (i j : Nat) (hl : (pre ++ u).length < 2 ^ 63)
    (h : unmarshalBody options u x i = .next (x', j)) :
    unmarshalBody options (pre ++ u) x (pre.length + i) = .next (x', pre.length + j) := by
  obtain ⟨xB, hB, _⟩ := unmarshalBody_suffix options pre u x x x' i j [] hl ⟨rfl, rfl⟩ h
  obtain ⟨j', hj, hU⟩ := unmarshalBody_unsuffix options pre u x xB i _ hl hB
  rw [h] at hU
  cases hU
  exact hB

theorem unmarshalLoop_reloc (options : UnmarshalOptions) (pre u : List Byte)
    (hl : (pre ++ u).length < 2 ^ 63) (fuel : Nat) : ∀ (x : GenesisState) (i : Nat),
    ((unmarshalLoop options u fuel x i).status = .nil
      ↔ (unmarshalLoop options (pre ++ u) fuel x (pre.length + i)).status = .nil) ∧
    ((unmarshalLoop options u fuel x i).status = .nil →
      (unmarshalLoop options (pre ++ u) fuel x (pre.length + i)).x
        = (unmarshalLoop options u fuel x i).x) := by
  have hend : ∀ (x : GenesisState) (i : Nat),
      ((unmarshalEnd u x i).status = .nil
        ↔ (unmarshalEnd (pre ++ u) x (pre.length + i)).status = .nil) ∧
      ((unmarshalEnd u x i).status = .nil →
        (unmarshalEnd (pre ++ u) x (pre.length + i)).x = (unmarshalEnd u x i).x) := by
    intro x i
    unfold unmarshalEnd
    by_cases hgt : i > u.length
    · have hgt' : pre.length + i > (pre ++ u).length := by
        simp only [List.length_append]
        omega
      simp [hgt, hgt']
    · have hgt' : ¬ pre.length + i > (pre ++ u).length := by
        simp only [List.length_append]
        omega
      simp [hgt, hgt']
  induction fuel with
  | zero =>
    intro x i
    rw [unmarshalLoop, unmarshalLoop]
    by_cases hi : i < u.length
    · have hi' : pre.length + i < (pre ++ u).length := by
        simp only [List.length_append]
        omega
      simp [hi, hi']
    · have hi' : ¬ pre.length + i < (pre ++ u).length := by
        simp only [List.length_append]
        omega
      rw [if_neg hi, if_neg hi']
      exact hend x i
  | succ fuel ih =>
    intro x i
    rw [unmarshalLoop, unmarshalLoop]
    by_cases hi : i < u.length
    · have hi' : pre.length + i < (pre ++ u).length := by
        simp only [List.length_append]
        omega
      rw [if_pos hi, if_pos hi']
      cases hb : unmarshalBody options u x i with
      | next s =>
        obtain ⟨x', j⟩ := s
        rw [unmarshalBody_suffix_same options pre u x x' i j hl hb]
        exact ih x' j
      | stop r =>
        have hr := (unmarshalBody_stop_ne_nil options u x i r hb).1
        cases hb' : unmarshalBody options (pre ++ u) x (pre.length + i) with
        | next s =>
          obtain ⟨x', J⟩ := s
          obtain ⟨j, _, hU⟩ := unmarshalBody_unsuffix options pre u x x' i J hl hb'
          rw [hb] at hU
          cases hU
        | stop r' =>
          have hr' := (unmarshalBody_stop_ne_nil options (pre ++ u) x _ r' hb').1
          simp [hr, hr']
    · have hi' : ¬ pre.length + i < (pre ++ u).length := by
        simp only [List.length_append]
        omega
      rw [if_neg hi, if_neg hi']
      exact hend x i

theorem varintLoop_append (a b : List Byte) (fuel : Nat) : ∀ (shift i word w j : Nat),
    varintLoop a fuel shift i word = .done w j →
    varintLoop (a ++ b) fuel shift i word = .done w j := by
  induction fuel with
  | zero =>
    intro shift i word w j h
    simp [varintLoop] at h
  | succ fuel ih =>
    intro shift i word w j h
    rw [varintLoop] at h ⊢
    by_cases hs : shift ≥ 64
    · simp [hs] at h
    · rw [if_neg hs] at h ⊢
      by_cases hi : i ≥ a.length
      · simp [hi] at h
      · have hi' : ¬ i ≥ (a ++ b).length := by
          simp only [List.length_append]
          omega
        rw [if_neg hi] at h
        rw [if_neg hi', List.getElem?_append_left (by omega)]
        cases hb : a[i]? with
        | none => simp [hb] at h
        | some c =>
          rw [hb] at h
          simp only at h ⊢
          by_cases hc : c.val < 0x80
          · rw [if_pos hc] at h ⊢
            exact h
          · rw [if_neg hc] at h ⊢
            exact ih _ _ _ w j h

theorem slice_append (a b r : List Byte) (lo hi : Int) (h : slice a lo hi = some r) :
    slice (a ++ b) lo hi = some r := by
  have hb := slice_some_length a r lo hi h
  unfold slice at h ⊢
  have c : 0 ≤ lo ∧ lo ≤ hi ∧ hi ≤ (a.length : Nat) := ⟨hb.1, hb.2.1, hb.2.2.1⟩
  have c' : 0 ≤ lo ∧ lo ≤ hi ∧ hi ≤ ((a ++ b).length : Nat) := by
    simp only [List.length_append]
    omega
  rw [if_pos c] at h
  rw [if_pos c', ← h, List.drop_append_of_le_length (by omega),
    List.take_append_of_le_length (by rw [List.length_drop]; omega)]

theorem skipBody_append (a b : List Byte) (i depth : Nat)
    (h : ∀ n s, skipBody a i depth = .stop ⟨n, s⟩ → s = .nil) :
    skipBody (a ++ b) i depth = skipBody a i depth := by
  cases hv : varintLoop a varintFuel 0 i 0 with
  | fail s j =>
    have := h 0 s (by simp only [skipBody, hv])
    exact absurd this (varintLoop_fail_ne_nil _ _ _ _ _ _ _ hv)
  | done wire j₁ =>
    have hv' := varintLoop_append a b _ _ _ _ _ _ hv
    by_cases w0 : wire &&& 0x7 = 0
    · cases hv2 : varintLoop a varintFuel 0 j₁ 0 with
      | fail s j =>
        have := h 0 s (by simp only [skipBody, hv, w0, hv2, if_true])
        exact absurd this (varintLoop_fail_ne_nil _ _ _ _ _ _ _ hv2)
      | done w j₂ =>
        have hv2' := varintLoop_append a b _ _ _ _ _ _ hv2
        simp only [skipBody, hv, hv', w0, hv2, hv2', if_true]
    by_cases w2 : wire &&& 0x7 = 2
    · cases hv2 : varintLoop a varintFuel 0 j₁ 0 with
      | fail s j =>
        have := h 0 s (by simp [skipBody, hv, w2, hv2])
        exact absurd this (varintLoop_fail_ne_nil _ _ _ _ _ _ _ hv2)
      | done w j₂ =>
        have hv2' := varintLoop_append a b _ _ _ _ _ _ hv2
        simp only [skipBody, hv, hv', w0, w2, hv2, hv2', if_true, if_false]
    · simp only [skipBody, hv, hv', w0, w2, if_false]

theorem skipLoop_append (a b : List Byte) (n : Int) (fuel : Nat) : ∀ (i depth k : Nat),
    skipLoop a fuel i depth = ⟨n, .nil⟩ → skipLoop (a ++ b) (fuel + k) i depth = ⟨n, .nil⟩ := by
  induction fuel with
  | zero =>
    intro i depth k h
    rw [skipLoop] at h
    split_ifs at h <;> cases h
  | succ fuel ih =>
    intro i depth k h
    rw [skipLoop] at h
    by_cases hi : i < a.length
    · have hi' : i < (a ++ b).length := by
        simp only [List.length_append]
        omega
      rw [if_pos hi] at h
      rw [show fuel + 1 + k = (fuel + k) + 1 by omega, skipLoop, if_pos hi']
      cases hb : skipBody a i depth with
      | next s =>
        obtain ⟨i', depth'⟩ := s
        rw [hb] at h
        rw [skipBody_append a b i depth (fun n s hs => by rw [hb] at hs; cases hs), hb]
        exact ih i' depth' k h
      | stop r =>
        rw [hb] at h
        simp only at h
        rw [skipBody_append a b i depth (fun n' s hs => by
          rw [hb, h] at hs
          cases hs
          rfl), hb]
        exact h
    · rw [if_neg hi] at h
      cases h

theorem Skip_append (a b : List Byte) (h : (Skip a).status = .nil) : Skip (a ++ b) = Skip a := by
  have e : Skip a = ⟨(Skip a).n, .nil⟩ := by
    cases hs : Skip a with
    | mk n s =>
      rw [hs] at h
      simp only at h
      rw [h]
  have := skipLoop_append a b (Skip a).n a.length 0 0 b.length e
  rw [e]
  unfold Skip
  rw [List.length_append]
  exact this

theorem unmarshalBody_append (options : UnmarshalOptions) (a b : List Byte)
    (x x' : GenesisState) (i j : Nat) (h : unmarshalBody options a x i = .next (x', j)) :
    unmarshalBody options (a ++ b) x i = .next (x', j) := by
  have hle : ((a.length : Nat) : Int) ≤ ((a ++ b).length : Nat) := by
    simp only [List.length_append]
    omega
  rcases unmarshalBody_cases options a x i with
    ⟨r, hr, _, _⟩ | ⟨wire, j₁, word, j₂, g, hv, h1, hw2, hv2, c1, c2, c3, hs, hbody⟩ |
    ⟨wire, j₁, rest, raw, hv, hwt, hfn, hs, c0, c1, c2, c3, hs2, hbody⟩
  · rw [hr] at h
    cases h
  · rw [← h, hbody]
    exact unmarshalBody_field1_intro options (a ++ b) x i wire j₁ word j₂ g
      (varintLoop_append a b _ _ _ _ _ _ hv) h1 hw2 (varintLoop_append a b _ _ _ _ _ _ hv2) c1 c2
      (by omega) (slice_append a b g _ _ hs)
  · rw [← h, hbody]
    have hi := (slice_some_length _ _ _ _ hs).2.1
    have hrest : rest = a.drop i := by
      rw [slice_to_end a i (by omega)] at hs
      cases hs
      rfl
    have hs' : slice (a ++ b) (i : Int) ((a ++ b).length : Nat) = some (rest ++ b) := by
      rw [slice_to_end (a ++ b) i (by simp only [List.length_append]; omega),
        List.drop_append_of_le_length (by omega), hrest]
    have e := Skip_append rest b c0
    have hB := unmarshalBody_default_intro options (a ++ b) x i wire j₁ (rest ++ b) raw
      (varintLoop_append a b _ _ _ _ _ _ hv) hwt hfn hs' (by rw [e]; exact c0)
      (by rw [e]; exact c1) (by rw [e]; exact c2) (by rw [e]; omega)
      (by rw [e]; exact slice_append a b raw _ _ hs2)
    rw [hB, e]

theorem unmarshalLoop_prefix (options : UnmarshalOptions) (a b : List Byte)
    (hl : (a ++ b).length < 2 ^ 63) (fb : Nat) (hfb : b.length ≤ fb) (fa : Nat) :
    ∀ (x : GenesisState) (i : Nat), (unmarshalLoop options a fa x i).status = .nil →
    unmarshalLoop options (a ++ b) (fa + fb) x i
      = unmarshalLoop options (a ++ b) fb (unmarshalLoop options a fa x i).x a.length := by
  have hend : ∀ (f : Nat) (x : GenesisState) (i : Nat), ¬ i < a.length →
      (unmarshalEnd a x i).status = .nil →
      unmarshalLoop options (a ++ b) (f + fb) x i
        = unmarshalLoop options (a ++ b) fb (unmarshalEnd a x i).x a.length := by
    intro f x i hi hst
    unfold unmarshalEnd at hst ⊢
    by_cases hgt : i > a.length
    · simp [hgt] at hst
    · have hia : i = a.length := by omega
      simp only [hgt, if_false]
      rw [hia]
      exact unmarshalLoop_fuel_irrelevant options (a ++ b) hl _ _ x a.length
        (by simp only [List.length_append]; omega) (by simp only [List.length_append]; omega)
  induction fa with
  | zero =>
    intro x i hst
    rw [unmarshalLoop] at hst ⊢
    by_cases hi : i < a.length
    · simp [hi] at hst
    · rw [if_neg hi] at hst ⊢
      exact hend 0 x i hi hst
  | succ fa ih =>
    intro x i hst
    rw [unmarshalLoop] at hst ⊢
    by_cases hi : i < a.length
    · have hi' : i < (a ++ b).length := by
        simp only [List.length_append]
        omega
      rw [if_pos hi] at hst ⊢
      cases hb : unmarshalBody options a x i with
      | next s =>
        obtain ⟨x', j⟩ := s
        rw [hb] at hst
        simp only at hst ⊢
        rw [show fa + 1 + fb = (fa + fb) + 1 by omega, unmarshalLoop, if_pos hi',
          unmarshalBody_append options a b x x' i j hb]
        exact ih x' j hst
      | stop r =>
        rw [hb] at hst
        exact absurd hst (unmarshalBody_stop_ne_nil options a x i r hb).1
    · rw [if_neg hi] at hst ⊢
      exact hend (fa + 1) x i hi hst

theorem goAppend_elems {α : Type} (s : Slice α) (xs : List α) :
    (goAppend s xs).elems = s.elems ++ xs := by
  cases s with
  | none => cases xs <;> simp [goAppend, Slice.elems]
  | some l => simp [goAppend, Slice.elems]

theorem unmarshalLoop_extends (options : UnmarshalOptions) (d : List Byte) (fuel : Nat) :
    ∀ (x : GenesisState) (i : Nat), ∃ (G : List (List Byte)) (U : List Byte),
      (unmarshalLoop options d fuel x i).x.GenTxs.elems = x.GenTxs.elems ++ G ∧
      (unmarshalLoop options d fuel x i).x.unknownFields.elems = x.unknownFields.elems ++ U := by
  have hend : ∀ (x : GenesisState) (i : Nat), ∃ (G : List (List Byte)) (U : List Byte),
      (unmarshalEnd d x i).x.GenTxs.elems = x.GenTxs.elems ++ G ∧
      (unmarshalEnd d x i).x.unknownFields.elems = x.unknownFields.elems ++ U := by
    intro x i
    refine ⟨[], [], ?_, ?_⟩ <;> unfold unmarshalEnd <;> split_ifs <;> simp
  induction fuel with
  | zero =>
    intro x i
    rw [unmarshalLoop]
    by_cases hi : i < d.length
    · rw [if_pos hi]
      exact ⟨[], [], by simp, by simp⟩
    · rw [if_neg hi]
      exact hend x i
  | succ fuel ih =>
    intro x i
    rw [unmarshalLoop]
    by_cases hi : i < d.length
    · rw [if_pos hi, unmarshalBody_eq_turn]
      cases ht : turn d i with
      | genTx g j =>
        simp only [Turn.apply]
        obtain ⟨G, U, hG, hU⟩ := ih { x with GenTxs := some (x.GenTxs.elems ++ [g]) } j
        refine ⟨g :: G, U, ?_, hU⟩
        rw [hG]
        simp [Slice.elems]
      | skipped raw j =>
        simp only [Turn.apply]
        cases hd : options.DiscardUnknown with
        | true =>
          simp only [Bool.not_true]
          exact ih x j
        | false =>
          simp only [Bool.not_false, if_true]
          obtain ⟨G, U, hG, hU⟩ := ih { x with unknownFields := goAppend x.unknownFields raw } j
          refine ⟨G, raw ++ U, hG, ?_⟩
          rw [hU]
          simp only [goAppend_elems, List.append_assoc]
      | ret j s =>
        simp only [Turn.apply]
        exact ⟨[], [], by simp, by simp⟩
    · rw [if_neg hi]
      exact hend x i

/-- Claim C27. For all byte strings `a` and `b` whose concatenation has the
length of a Go slice, every target message `m` and either setting of the
options: if unmarshalling `a` into `m` returns `nil` and leaves the message
`m'`, then unmarshalling `a ++ b` into `m` returns `nil` exactly when
unmarshalling `b` into `m'` does, and then both leave the same message (the
same `GenTxs` and the same unknown-fields buffer). In particular, with `b`
empty, what unmarshalling `a` leaves is `m` with elements appended to `GenTxs`
and bytes appended to the unknown fields: nothing that was there is reset. -/
theorem C27_unmarshal_merge (options : UnmarshalOptions) (a b : List Byte) (m : GenesisState)
    (hl : (a ++ b).length < 2 ^ 63) (ha : (unmarshalMsg options m a).status = .nil) :
    ((unmarshalMsg options m (a ++ b)).status = .nil
      ↔ (unmarshalMsg options (unmarshalMsg options m a).x b).status = .nil) ∧
    ((unmarshalMsg options m (a ++ b)).status = .nil →
      (unmarshalMsg options m (a ++ b)).x
        = (unmarshalMsg options (unmarshalMsg options m a).x b).x) ∧
    (∃ (G : List (List Byte)) (U : List Byte),
      (unmarshalMsg options m a).x.GenTxs.elems = m.GenTxs.elems ++ G ∧
      (unmarshalMsg options m a).x.unknownFields.elems = m.unknownFields.elems ++ U) := by
  have h1 : unmarshalMsg options m (a ++ b)
      = unmarshalLoop options (a ++ b) b.length (unmarshalMsg options m a).x a.length := by
    unfold unmarshalMsg
    rw [List.length_append]
    exact unmarshalLoop_prefix options a b hl b.length (le_refl _) a.length m 0 ha
  have h2 := unmarshalLoop_reloc options a b hl b.length (unmarshalMsg options m a).x 0
  rw [Nat.add_zero] at h2
  refine ⟨?_, ?_, ?_⟩
  · rw [h1]
    exact h2.1.symm
  · intro hn
    rw [h1] at hn ⊢
    exact h2.2 (h2.1.2 hn)
  · exact unmarshalLoop_extends options a a.length m 0

/-- Witness of C27: `a` is one `gen_txs` record and `b` a field-2 varint
followed by another `gen_txs` record, decoded into a message that already
holds an element and unknown bytes. -/
theorem C27_unmarshal_merge_witness :
    (([0x0a, 0x01, 0x61] : List Byte) ++ [0x10, 0x05, 0x0a, 0x00]).length < 2 ^ 63 ∧
    (unmarshalMsg defaultOptions ⟨some [0x18, 0x01], some [[0x7a]]⟩ [0x0a, 0x01, 0x61]).status
      = .nil ∧
    (unmarshalMsg defaultOptions ⟨some [0x18, 0x01], some [[0x7a]]⟩
        ([0x0a, 0x01, 0x61] ++ [0x10, 0x05, 0x0a, 0x00])).status = .nil ∧
    (unmarshalMsg defaultOptions ⟨some [0x18, 0x01], some [[0x7a]]⟩
        ([0x0a, 0x01, 0x61] ++ [0x10, 0x05, 0x0a, 0x00])).x
      = (unmarshalMsg defaultOptions
          (unmarshalMsg defaultOptions ⟨some [0x18, 0x01], some [[0x7a]]⟩ [0x0a, 0x01, 0x61]).x
          [0x10, 0x05, 0x0a, 0x00]).x ∧
    (unmarshalMsg defaultOptions ⟨some [0x18, 0x01], some [[0x7a]]⟩
        ([0x0a, 0x01, 0x61] ++ [0x10, 0x05, 0x0a, 0x00])).x
      = ⟨some [0x18, 0x01, 0x10, 0x05], some [[0x7a], [0x61], []]⟩ :=
  ⟨by decide, by decide, by decide,
    (C27_unmarshal_merge defaultOptions [0x0a, 0x01, 0x61] [0x10, 0x05, 0x0a, 0x00]
      ⟨some [0x18, 0x01], some [[0x7a]]⟩ (by decide) (by decide)).2.1 (by decide),
    by decide⟩

end Genutil
